import Mathlib

/-!
# Borůvka minimum spanning tree: shallow embedding of `edge.h`, `graph.h`, `graph.cpp`

Modelling conventions.

* `vertex` and edge weights are `unsigned long`; the program only compares and copies
  them (no arithmetic), so they are natural numbers here.
* `std::set<T>` is the strictly increasing list of its elements (its iteration order);
  `insert` is `set_insert` with the comparator of the set.
* `std::map<vertex, T>` is `map_t T`: the increasing list of keys plus the value at each key.
  A read `map[k]` of a missing key inserts the value-initialised `T` (the empty vector, the
  empty set) and yields it; every later read of `k` yields the same value with or without that
  entry, so `map_t.index` models the read alone.
* `edge const *` is the pointed-to edge; `nullptr` is `none`.
* A C++ exception is the `Except.error` result.  Recursion and the `while` loop take a
  `fuel` argument; running out of it is the separate result `error.out_of_fuel`, which
  the theorems below exclude whenever `fuel` is at least the number of vertices.
-/

deriving instance DecidableEq for Except

namespace Boruvka

/-- Source `edge.h`: `typedef unsigned long vertex;` -/
abbrev vertex := Nat

/-- Exceptions of the program (`std::domain_error` from the MST loop, `std::out_of_range`
from `map.at`), plus the fuel marker of the embedding. -/
inductive error where
  | domain_error
  | out_of_range
  | out_of_fuel
deriving DecidableEq, Repr

/-- Source `edge.h`: `struct edge { const vertex start; const vertex end; const unsigned long weight; }`. -/
structure edge where
  start : vertex
  end_ : vertex
  weight : Nat
deriving DecidableEq, Repr

/-- Source `edge::operator<`: `std::tie(weight, start, end) < std::tie(e.weight, e.start, e.end)`,
the lexicographic tuple comparison. -/
def edge.op_lt (a e : edge) : Bool :=
  if a.weight < e.weight then true
  else if e.weight < a.weight then false
  else if a.start < e.start then true
  else if e.start < a.start then false
  else decide (a.end_ < e.end_)

/-- Source `edge::operator==`. -/
def edge.op_eq (a e : edge) : Bool :=
  (a.weight == e.weight) &&
    (((a.start == e.start) && (a.end_ == e.end_)) || ((a.start == e.end_) && (a.end_ == e.start)))

/-- Library `std::set<T>::insert(a)` on the increasing list of elements, for the comparator `less`:
the element is put at its place unless an equivalent element is already stored. -/
def set_insert {α : Type} (less : α → α → Bool) (a : α) : List α → List α
  | [] => [a]
  | b :: l =>
    if less a b then a :: b :: l
    else if less b a then b :: set_insert less a l
    else b :: l

/-- Library comparator `std::less<vertex>`. -/
def vertex_less (a b : vertex) : Bool := decide (a < b)

/-- Source `graph.h`: `typedef std::set<edge> edges_t;` -/
abbrev edges_t := List edge

/-- Source `graph.h`: `typedef std::set<vertex> vertices_t;` -/
abbrev vertices_t := List vertex

/-- Source `graph.h`: `typedef vertices_t component_t;` -/
abbrev component_t := vertices_t

/-- Source `graph.h`: `typedef std::set<component_t> components_t;` -/
abbrev components_t := List component_t

/-- Library `operator<` of `std::set<vertex>` (`std::lexicographical_compare`), the comparator of
`components_t`. -/
def lexicographical_compare : List vertex → List vertex → Bool
  | _, [] => false
  | [], _ :: _ => true
  | a :: as, b :: bs =>
    if a < b then true
    else if b < a then false
    else lexicographical_compare as bs

/-- Library `std::map<vertex, T>`: the keys in increasing order and the value stored at each key. -/
structure map_t (β : Type) where
  keys : List vertex
  val : vertex → β

/-- The empty map. -/
def map_t.empty {β : Type} [Inhabited β] : map_t β := ⟨[], fun _ => default⟩

/-- The value of `map[k]`: the stored value, or the value-initialised one for a new key. -/
def map_t.index {β : Type} [Inhabited β] (m : map_t β) (k : vertex) : β :=
  if k ∈ m.keys then m.val k else default

/-- The map after `map[k] = x`. -/
def map_t.assign {β : Type} (m : map_t β) (k : vertex) (x : β) : map_t β :=
  ⟨set_insert vertex_less k m.keys, fun j => if j = k then x else m.val j⟩

/-- Library `map.at(k)`: throws `std::out_of_range` for a missing key. -/
def map_t.at {β : Type} (m : map_t β) (k : vertex) : Except error β :=
  if k ∈ m.keys then .ok (m.val k) else .error .out_of_range

/-- Source `graph.h`: `typedef std::map<vertex, std::vector<const edge *>> vertex_to_edges_map;` -/
abbrev vertex_to_edges_map := map_t (List edge)

/-- Source `graph.h`: `class graph { edges_t m_edges{}; vertices_t m_vertices{}; ... }`. -/
structure graph where
  m_edges : edges_t := []
  m_vertices : vertices_t := []
deriving DecidableEq, Repr

/-- The representation invariant of the two `std::set` members: strictly increasing. -/
def graph.wf (g : graph) : Prop :=
  g.m_edges.Pairwise (fun a b => a.op_lt b = true) ∧ g.m_vertices.Pairwise (fun a b => a < b)

instance (g : graph) : Decidable g.wf := by
  unfold graph.wf; infer_instance

/-- Source `graph::add_edge`: `m_edges.insert(e)` (the graph after the call). -/
def graph.add_edge (g : graph) (e : edge) : graph :=
  { g with m_edges := set_insert edge.op_lt e g.m_edges }

/-- Source `graph::add_vertex`: `m_vertices.insert(v)` (the graph after the call). -/
def graph.add_vertex (g : graph) (v : vertex) : graph :=
  { g with m_vertices := set_insert vertex_less v g.m_vertices }

/-- Source `graph::get_edges_by_vertex`. -/
def graph.get_edges_by_vertex (g : graph) : vertex_to_edges_map :=
  let map := g.m_vertices.foldl (fun map vertex => map.assign vertex []) map_t.empty
  g.m_edges.foldl (fun map m_edge =>
    let map := map.assign m_edge.start (map.index m_edge.start ++ [m_edge])
    map.assign m_edge.end_ (map.index m_edge.end_ ++ [m_edge])) map

/-- Source `graph::populate_set_with_connected_vertices(map, v, ret)`; the result is the final `ret`.
`fuel` bounds the recursion depth. -/
def populate_set_with_connected_vertices (map : vertex_to_edges_map) :
    Nat → vertex → vertices_t → Except error vertices_t
  | 0, _, _ => .error .out_of_fuel
  | fuel + 1, v, ret => do
    let ret := set_insert vertex_less v ret
    let edges ← map.at v
    edges.foldlM (fun ret edge => do
      let ret ← (if edge.start ∈ ret then pure ret
        else populate_set_with_connected_vertices map fuel edge.start ret)
      (if edge.end_ ∈ ret then pure ret
        else populate_set_with_connected_vertices map fuel edge.end_ ret)) ret

/-- Source `graph::get_components`. -/
def graph.get_components (g : graph) (fuel : Nat) : Except error components_t :=
  let edges_by_vertex := g.get_edges_by_vertex
  edges_by_vertex.keys.foldlM (fun components entry => do
    let set ← populate_set_with_connected_vertices edges_by_vertex fuel entry []
    pure (set_insert lexicographical_compare set components)) []

/-- Source `graph::get_components_parallel`: one task per map entry, then the results are
inserted in the order of the futures. -/
def graph.get_components_parallel (g : graph) (fuel : Nat) : Except error components_t :=
  let edges_by_vertex := g.get_edges_by_vertex
  let futures := edges_by_vertex.keys.map (fun entry =>
    populate_set_with_connected_vertices edges_by_vertex fuel entry [])
  futures.foldlM (fun ret future => do
    let set ← future
    pure (set_insert lexicographical_compare set ret)) []

/-- Source `graph::get_component_by_vertex`. -/
def get_component_by_vertex (components : components_t) : map_t component_t :=
  components.foldl (fun map component =>
    component.foldl (fun map vertex => map.assign vertex component) map) map_t.empty

/-- Source `graph::is_connected`: `get_components().size() == 1`. -/
def graph.is_connected (g : graph) (fuel : Nat) : Except error Bool := do
  let components ← g.get_components fuel
  pure (components.length == 1)

/-- Source `graph::has_edge`. -/
def graph.has_edge (g : graph) (e : edge) : Bool :=
  g.m_edges.any (fun edge =>
    (e.start == edge.start && e.end_ == edge.end_) || (e.start == edge.end_ && e.end_ == edge.start))

/-- Library `std::min_element(first, last, comp)`: the first smallest element, `none` for `last`. -/
def min_element {α : Type} (comp : α → α → Bool) : List α → Option α
  | [] => none
  | a :: l => some (l.foldl (fun smallest x => if comp x smallest then x else smallest) a)

/-- The value of `vertex_edges` after the erase loop (lines 28-37 of `graph.cpp`): the copy of
the vertex's edge list without the edges whose two endpoints map to the same component. -/
def remaining_edges (vertices_to_edges_map : vertex_to_edges_map)
    (vertices_to_components_map : map_t component_t) (vertex : vertex) : List edge :=
  (vertices_to_edges_map.index vertex).filter (fun e =>
    !(decide (vertices_to_components_map.index e.start = vertices_to_components_map.index e.end_)))

/-- The body of `for (auto vertex : component)` (lines 28-52 of `graph.cpp`): the new value of
`cheapest_edge`. -/
def scan_vertex (vertices_to_edges_map : vertex_to_edges_map)
    (vertices_to_components_map : map_t component_t) (cheapest_edge : Option edge)
    (vertex : vertex) : Option edge :=
  let vertex_edges := remaining_edges vertices_to_edges_map vertices_to_components_map vertex
  match min_element edge.op_lt vertex_edges with
  | none => cheapest_edge
  | some possible_cheapest_edge =>
    match cheapest_edge with
    | none => some possible_cheapest_edge
    | some c => if possible_cheapest_edge.op_lt c then some possible_cheapest_edge else some c

/-- The value of `cheapest_edge` after `for (auto vertex : component)` (lines 25-53 of
`graph.cpp`, and the task of the parallel variant, lines 101-135). -/
def cheapest_edge (vertices_to_edges_map : vertex_to_edges_map)
    (vertices_to_components_map : map_t component_t) (component : List vertex) : Option edge :=
  component.foldl (scan_vertex vertices_to_edges_map vertices_to_components_map) none

/-- One pass of `for (auto &component : components)` in the sequential variant: each
component's cheapest edge is added to `mst` as soon as it is found. -/
def add_cheapest_edges (vertices_to_edges_map : vertex_to_edges_map)
    (vertices_to_components_map : map_t component_t) (components : components_t)
    (mst : graph) : graph :=
  components.foldl (fun mst component =>
    match cheapest_edge vertices_to_edges_map vertices_to_components_map component with
    | some x => mst.add_edge x
    | none => mst) mst

/-- The same pass in the parallel variant: first one future per component, then the
results are added to `mst` in the order of the futures. -/
def add_cheapest_edges_parallel (vertices_to_edges_map : vertex_to_edges_map)
    (vertices_to_components_map : map_t component_t) (components : components_t)
    (mst : graph) : graph :=
  let futures := components.map (fun component =>
    cheapest_edge vertices_to_edges_map vertices_to_components_map component)
  futures.foldl (fun mst future =>
    match future with
    | some x => mst.add_edge x
    | none => mst) mst

/-- The `while (components.size() > 1)` loop of `calculate_minimum_spanning_tree`.
The first `Nat` argument is the fuel of the component searches, the second the number
of loop entries allowed. -/
def mst_loop (vertices_to_edges_map : vertex_to_edges_map) (fuel : Nat) :
    Nat → graph → components_t → map_t component_t → Nat → Except error graph
  | 0, mst, components, _, _ =>
    if components.length > 1 then .error .out_of_fuel else .ok mst
  | n + 1, mst, components, vertices_to_components_map, last_components_size =>
    if components.length > 1 then
      if components.length = last_components_size then .error .domain_error
      else
        let last_components_size := components.length
        let mst := add_cheapest_edges vertices_to_edges_map vertices_to_components_map
          components mst
        match mst.get_components fuel with
        | .error x => .error x
        | .ok components =>
          mst_loop vertices_to_edges_map fuel n mst components
            (get_component_by_vertex components) last_components_size
    else .ok mst

/-- The `while` loop of `calculate_minimum_spanning_tree_parallel`. -/
def mst_loop_parallel (vertices_to_edges_map : vertex_to_edges_map) (fuel : Nat) :
    Nat → graph → components_t → map_t component_t → Nat → Except error graph
  | 0, mst, components, _, _ =>
    if components.length > 1 then .error .out_of_fuel else .ok mst
  | n + 1, mst, components, vertices_to_components_map, last_components_size =>
    if components.length > 1 then
      if components.length = last_components_size then .error .domain_error
      else
        let last_components_size := components.length
        let mst := add_cheapest_edges_parallel vertices_to_edges_map vertices_to_components_map
          components mst
        match mst.get_components_parallel fuel with
        | .error x => .error x
        | .ok components =>
          mst_loop_parallel vertices_to_edges_map fuel n mst components
            (get_component_by_vertex components) last_components_size
    else .ok mst

/-- The initial `mst` of both variants: `for (auto vertex : vertices()) mst.add_vertex(vertex)`. -/
def initial_mst (g : graph) : graph :=
  g.m_vertices.foldl (fun mst vertex => mst.add_vertex vertex) {}

/-- Source `graph::calculate_minimum_spanning_tree`. -/
def graph.calculate_minimum_spanning_tree (g : graph) (fuel : Nat) : Except error graph :=
  let mst := initial_mst g
  let vertices_to_edges_map := g.get_edges_by_vertex
  match mst.get_components fuel with
  | .error x => .error x
  | .ok components =>
    mst_loop vertices_to_edges_map fuel fuel mst components
      (get_component_by_vertex components) 0

/-- Source `graph::calculate_minimum_spanning_tree_parallel`. -/
def graph.calculate_minimum_spanning_tree_parallel (g : graph) (fuel : Nat) :
    Except error graph :=
  let mst := initial_mst g
  let vertices_to_edges_map := g.get_edges_by_vertex
  match mst.get_components_parallel fuel with
  | .error x => .error x
  | .ok components =>
    mst_loop_parallel vertices_to_edges_map fuel fuel mst components
      (get_component_by_vertex components) 0

/-- The merge loop of `get_components_parallel` (lines 231-233 of `graph.cpp`): the results of
the futures are inserted into `ret`, in the order of the list. -/
def merge_components (futures : List (Except error vertices_t)) : Except error components_t :=
  futures.foldlM (fun ret future => do
    let set ← future
    pure (set_insert lexicographical_compare set ret)) []

/-- The search `populate_set_with_connected_vertices` with a counter of its calls: the result
is the final `ret` and the number of calls of the function, this one included. -/
def populate_counted (map : vertex_to_edges_map) :
    Nat → vertex → vertices_t → Except error (vertices_t × Nat)
  | 0, _, _ => .error .out_of_fuel
  | fuel + 1, v, ret => do
    let ret := set_insert vertex_less v ret
    let edges ← map.at v
    edges.foldlM (fun (acc : vertices_t × Nat) edge => do
      let acc ← (if edge.start ∈ acc.1 then pure acc
        else do
          let r ← populate_counted map fuel edge.start acc.1
          pure (r.1, acc.2 + r.2))
      (if edge.end_ ∈ acc.1 then pure acc
        else do
          let r ← populate_counted map fuel edge.end_ acc.1
          pure (r.1, acc.2 + r.2))) (ret, 1)

/-- The number of times the body of the `while` loop of `mst_loop` is entered, the entry that
raises the error included, within the allowed number of entries. -/
def mst_loop_entries (vertices_to_edges_map : vertex_to_edges_map) (fuel : Nat) :
    Nat → graph → components_t → map_t component_t → Nat → Nat
  | 0, _, _, _, _ => 0
  | n + 1, mst, components, vertices_to_components_map, last_components_size =>
    if components.length > 1 then
      if components.length = last_components_size then 1
      else
        let last_components_size := components.length
        let mst := add_cheapest_edges vertices_to_edges_map vertices_to_components_map
          components mst
        match mst.get_components fuel with
        | .error _ => 1
        | .ok components =>
          1 + mst_loop_entries vertices_to_edges_map fuel n mst components
            (get_component_by_vertex components) last_components_size
    else 0

/-- The number of entries of the loop body in `calculate_minimum_spanning_tree`. -/
def graph.loop_entries (g : graph) (fuel : Nat) : Nat :=
  match (initial_mst g).get_components fuel with
  | .error _ => 0
  | .ok components =>
    mst_loop_entries g.get_edges_by_vertex fuel fuel (initial_mst g) components
      (get_component_by_vertex components) 0

/-- The values of the variable `mst` of `calculate_minimum_spanning_tree` at the tests of the
condition of the `while` loop, in order: the first element is the `mst` the loop starts with,
every round appends the `mst` it leaves.  It follows `mst_loop` step by step. -/
def mst_loop_states (vertices_to_edges_map : vertex_to_edges_map) (fuel : Nat) :
    Nat → graph → components_t → map_t component_t → Nat → List graph
  | 0, mst, _, _, _ => [mst]
  | n + 1, mst, components, vertices_to_components_map, last_components_size =>
    mst ::
      (if components.length > 1 then
        if components.length = last_components_size then []
        else
          let last_components_size := components.length
          let mst := add_cheapest_edges vertices_to_edges_map vertices_to_components_map
            components mst
          match mst.get_components fuel with
          | .error _ => [mst]
          | .ok components =>
            mst_loop_states vertices_to_edges_map fuel n mst components
              (get_component_by_vertex components) last_components_size
      else [])

/-- The values of `mst` at the loop tests of `calculate_minimum_spanning_tree` on `g`. -/
def graph.loop_states (g : graph) (fuel : Nat) : List graph :=
  match (initial_mst g).get_components fuel with
  | .error _ => [initial_mst g]
  | .ok components =>
    mst_loop_states g.get_edges_by_vertex fuel fuel (initial_mst g) components
      (get_component_by_vertex components) 0

/-! ## Specification vocabulary -/

/-- Two vertices are joined by a path of edges of `S`, each edge usable in either direction. -/
def Reach (S : Set edge) : vertex → vertex → Prop :=
  Relation.EqvGen (fun u v => ∃ e ∈ S, e.start = u ∧ e.end_ = v)

/-- The edges of a list, as a set. -/
def edge_set (es : List edge) : Set edge := {e | e ∈ es}

/-- The edge has exactly one endpoint in `C`. -/
def crosses (C : Set vertex) (e : edge) : Prop := ¬ (e.start ∈ C ↔ e.end_ ∈ C)

/-- Both endpoints of every edge of the graph are vertices of the graph. -/
def graph.endpoints_in_vertices (g : graph) : Prop :=
  ∀ e ∈ g.m_edges, e.start ∈ g.m_vertices ∧ e.end_ ∈ g.m_vertices

instance (g : graph) : Decidable g.endpoints_in_vertices := by
  unfold graph.endpoints_in_vertices; infer_instance

/-- Every two vertices of the graph are joined by a path of its edges. -/
def graph.connected (g : graph) : Prop :=
  ∀ u ∈ g.m_vertices, ∀ v ∈ g.m_vertices, Reach (edge_set g.m_edges) u v

/-- The graph has two vertices that no path of its edges joins, that is, it has two or more
components. -/
def graph.has_two_components (g : graph) : Prop :=
  ∃ u ∈ g.m_vertices, ∃ v ∈ g.m_vertices, ¬ Reach (edge_set g.m_edges) u v

/-- The edges of `S` join every two vertices of `V`. -/
def spans (S : Set edge) (V : List vertex) : Prop :=
  ∀ u ∈ V, ∀ v ∈ V, Reach S u v

/-- The edges form a forest: no edge joins two vertices that the other edges of the list
already join, so no edge lies on a cycle. -/
def is_forest (es : List edge) : Prop :=
  ∀ e ∈ es, ¬ Reach {f | f ∈ es ∧ f ≠ e} e.start e.end_

/-- Sum of the weights of a list of edges, in the natural numbers. -/
def total_weight (es : List edge) : Nat := (es.map edge.weight).sum

/-- The list `C` is the component of `k`: the increasing list of the vertices joined to `k`. -/
def is_component_of (S : Set edge) (C : List vertex) (k : vertex) : Prop :=
  C.Pairwise (fun a b => a < b) ∧ ∀ x, x ∈ C ↔ Reach S k x

/-- The list `comps` lists, without repetition, the components of the vertices `K`. -/
def is_component_list (S : Set edge) (K : List vertex) (comps : List (List vertex)) : Prop :=
  comps.Nodup ∧ (∀ C ∈ comps, ∃ k ∈ K, is_component_of S C k) ∧
    (∀ k ∈ K, ∃ C ∈ comps, is_component_of S C k)

/-- The set `R` is the set of the least vertices of the components of `(K, S)`. -/
def is_root_set (S : Set edge) (K : List vertex) (R : Finset vertex) : Prop :=
  ∀ k, k ∈ R ↔ k ∈ K ∧ ∀ x ∈ K, Reach S k x → k ≤ x

/-- Edge lists grown from the empty list by the cut rule: the new edge `e` of `E` crosses a
cut `C` that no edge chosen so far crosses, and no edge of `E` across `C` is lighter. -/
inductive cut_built (E : List edge) : List edge → Prop where
  | nil : cut_built E []
  | cons {F : List edge} {e : edge} (C : Set vertex) :
      cut_built E F → e ∈ E → crosses C e → (∀ f ∈ F, ¬ crosses C f) →
      (∀ f ∈ E, crosses C f → e.weight ≤ f.weight) → cut_built E (e :: F)

/-- The stored triple in the precedence of `edge::operator<`. -/
def edge.key (e : edge) : Nat ×ₗ Nat ×ₗ Nat := toLex (e.weight, toLex (e.start, e.end_))

instance : LinearOrder edge :=
  LinearOrder.lift' edge.key (by
    intro a b h
    cases a; cases b
    simp only [edge.key, EmbeddingLike.apply_eq_iff_eq, Prod.mk.injEq] at h
    obtain ⟨h1, h2, h3⟩ := h
    subst h1 h2 h3; rfl)

/-- Number of keys of the map that are not yet in `ret`. -/
def unvisited (map : vertex_to_edges_map) (ret : List vertex) : Nat :=
  (map.keys.toFinset \ ret.toFinset).card

/-- What a search from `v` guarantees about the set `ret'` it leaves, given the set `ret` it
was handed: nothing is lost, the set stays increasing and within the keys of `map`, and every
added vertex has the endpoints of all its incident edges in `ret'` and is related to `v`. -/
def search_post (map : vertex_to_edges_map) (Q : vertex → vertex → Prop) (v : vertex)
    (ret ret' : List vertex) : Prop :=
  (∀ x ∈ ret, x ∈ ret') ∧ ret'.Pairwise (fun a b => a < b) ∧ (∀ x ∈ ret', x ∈ map.keys) ∧
    ∀ x ∈ ret', x ∉ ret → (∀ e ∈ map.index x, e.start ∈ ret' ∧ e.end_ ∈ ret') ∧ Q v x

/-- The edge `e` has one endpoint in the component `C` and the other endpoint in a different
component of the list `comps`. -/
def cross_edge (comps : List (List vertex)) (C : List vertex) (e : edge) : Prop :=
  ∃ D ∈ comps, D ≠ C ∧ ((e.start ∈ C ∧ e.end_ ∈ D) ∨ (e.end_ ∈ C ∧ e.start ∈ D))

/-- Invariant of the `mst` variable for the input `g`: same vertices, an increasing edge list,
and the edges are those of a list grown from the input's edges by the cut rule. -/
def mst_inv (g mst : graph) : Prop :=
  mst.m_vertices = g.m_vertices ∧ mst.m_edges.Pairwise (fun a b => a.op_lt b = true) ∧
    ∃ F, cut_built g.m_edges F ∧ ∀ e, e ∈ mst.m_edges ↔ e ∈ F

/-! ## The scenario graphs of the specification -/

/-- Vertices `0,1,2,3` with the edges `(0,1,1)`, `(1,2,2)`, `(2,3,3)`, `(0,3,10)`, `(0,2,5)`
(as `(start, end, weight)`), stored in the order of `operator<`. -/
def scenario_graph : graph :=
  ⟨[⟨0, 1, 1⟩, ⟨1, 2, 2⟩, ⟨2, 3, 3⟩, ⟨0, 2, 5⟩, ⟨0, 3, 10⟩], [0, 1, 2, 3]⟩

/-- Vertices `0,1,2,3` with the edges `(0,1,1)` and `(2,3,1)`: two components. -/
def disconnected_scenario : graph :=
  ⟨[⟨0, 1, 1⟩, ⟨2, 3, 1⟩], [0, 1, 2, 3]⟩

/-- Vertices `1,2,3` with the equal-weight edges `(1,2,5)` and `(1,3,5)`. -/
def tie_scenario : graph :=
  ⟨[⟨1, 2, 5⟩, ⟨1, 3, 5⟩], [1, 2, 3]⟩

/-- Vertices `0,1,2` with the edge `(0,1,1)`: the vertex `2` is isolated. -/
def isolated_scenario : graph :=
  ⟨[⟨0, 1, 1⟩], [0, 1, 2]⟩

/-- Vertices `0,1,2` with the three edges `(0,1,5)`, `(0,2,5)`, `(1,2,5)` of equal weight. -/
def triangle_scenario : graph :=
  ⟨[⟨0, 1, 5⟩, ⟨0, 2, 5⟩, ⟨1, 2, 5⟩], [0, 1, 2]⟩

/-- The graph that stores the single edge `(0,1,5)`. -/
def one_edge_graph : graph :=
  ⟨[⟨0, 1, 5⟩], [0, 1]⟩

/-! ## The edge order and the edge equality -/

theorem edge.op_lt_iff (a b : edge) :
    a.op_lt b = true ↔
      a.weight < b.weight ∨
        (a.weight = b.weight ∧ (a.start < b.start ∨ (a.start = b.start ∧ a.end_ < b.end_))) := by
  unfold edge.op_lt
  simp only [vertex] at *
  split_ifs <;> simp <;> omega

theorem edge.op_lt_irrefl (a : edge) : a.op_lt a = false := by
  rw [← Bool.not_eq_true, edge.op_lt_iff]; simp only [vertex] at *; omega

theorem edge.op_lt_trans {a b c : edge} (h1 : a.op_lt b = true) (h2 : b.op_lt c = true) :
    a.op_lt c = true := by
  rw [edge.op_lt_iff] at *; simp only [vertex] at *; omega

theorem edge.op_lt_asymm {a b : edge} (h1 : a.op_lt b = true) : b.op_lt a = false := by
  rw [← Bool.not_eq_true]; rw [edge.op_lt_iff] at *; simp only [vertex] at *; omega

theorem edge.eq_of_not_op_lt {a b : edge} (h1 : a.op_lt b = false) (h2 : b.op_lt a = false) :
    a = b := by
  rw [← Bool.not_eq_true, edge.op_lt_iff] at h1 h2
  cases a; cases b
  simp only [edge.mk.injEq, vertex] at *
  omega

theorem edge.lt_iff_op_lt (a b : edge) : a < b ↔ a.op_lt b = true := by
  rw [edge.op_lt_iff]
  show edge.key a < edge.key b ↔ _
  simp only [edge.key, Prod.Lex.lt_iff, ofLex_toLex]

theorem edge.le_iff_not_op_lt (a b : edge) : a ≤ b ↔ b.op_lt a = false := by
  rw [← not_lt, edge.lt_iff_op_lt, Bool.not_eq_true]

theorem edge.weight_le_of_le {a b : edge} (h : a ≤ b) : a.weight ≤ b.weight := by
  rw [edge.le_iff_not_op_lt, ← Bool.not_eq_true, edge.op_lt_iff] at h
  simp only [vertex] at *
  omega

theorem edge.op_eq_iff (a b : edge) :
    a.op_eq b = true ↔
      a.weight = b.weight ∧
        ((a.start = b.start ∧ a.end_ = b.end_) ∨ (a.start = b.end_ ∧ a.end_ = b.start)) := by
  simp [edge.op_eq]

/-! ## `std::set` insertion -/

section set_insert

variable {α : Type} (less : α → α → Bool)

theorem mem_set_insert (htot : ∀ a b, less a b = false → less b a = false → a = b)
    (a x : α) (l : List α) : x ∈ set_insert less a l ↔ x = a ∨ x ∈ l := by
  induction l with
  | nil => simp [set_insert]
  | cons b l ih =>
    unfold set_insert
    by_cases h1 : less a b = true
    · simp [h1]
    · by_cases h2 : less b a = true
      · rw [if_neg h1, if_pos h2]
        simp only [List.mem_cons, ih]
        tauto
      · have hab : a = b := htot a b (by simpa using h1) (by simpa using h2)
        rw [if_neg h1, if_neg h2]
        subst hab
        simp

theorem mem_of_mem_set_insert (a x : α) (l : List α) (h : x ∈ set_insert less a l) :
    x = a ∨ x ∈ l := by
  induction l with
  | nil => simpa [set_insert] using h
  | cons b l ih =>
    unfold set_insert at h
    split_ifs at h
    · simpa using h
    · rcases List.mem_cons.1 h with rfl | h
      · simp
      · rcases ih h with rfl | h
        · simp
        · simp [h]
    · simp [List.mem_cons.1 h]

theorem set_insert_pairwise (htrans : ∀ a b c, less a b = true → less b c = true → less a c = true)
    (a : α) (l : List α) (hl : l.Pairwise (fun x y => less x y = true)) :
    (set_insert less a l).Pairwise (fun x y => less x y = true) := by
  induction l with
  | nil => simp [set_insert]
  | cons b l ih =>
    rw [List.pairwise_cons] at hl
    unfold set_insert
    by_cases h1 : less a b = true
    · simp only [h1, if_true]
      refine List.Pairwise.cons ?_ (List.Pairwise.cons hl.1 hl.2)
      intro y hy
      rcases List.mem_cons.1 hy with rfl | hy
      · exact h1
      · exact htrans _ _ _ h1 (hl.1 y hy)
    · by_cases h2 : less b a = true
      · simp only [h1, h2, if_true, if_false]
        refine List.Pairwise.cons ?_ (ih hl.2)
        intro y hy
        rcases mem_of_mem_set_insert less a y l hy with rfl | hy
        · exact h2
        · exact hl.1 y hy
      · simp only [h1, h2, if_false]
        exact List.Pairwise.cons hl.1 hl.2

theorem set_insert_of_mem (hirr : ∀ a, less a a = false)
    (hasymm : ∀ a b, less a b = true → less b a = false)
    (a : α) (l : List α) (hl : l.Pairwise (fun x y => less x y = true)) (ha : a ∈ l) :
    set_insert less a l = l := by
  induction l with
  | nil => simp at ha
  | cons b l ih =>
    rw [List.pairwise_cons] at hl
    unfold set_insert
    rcases List.mem_cons.1 ha with rfl | ha
    · simp [hirr]
    · have hba : less b a = true := hl.1 a ha
      simp [hasymm _ _ hba, hba, ih hl.2 ha]

theorem length_set_insert_of_not_mem
    (htot : ∀ a b, less a b = false → less b a = false → a = b)
    (a : α) (l : List α) (ha : a ∉ l) :
    (set_insert less a l).length = l.length + 1 := by
  induction l with
  | nil => simp [set_insert]
  | cons b l ih =>
    unfold set_insert
    by_cases h1 : less a b = true
    · simp [h1]
    · by_cases h2 : less b a = true
      · rw [if_neg h1, if_pos h2, List.length_cons,
          ih (fun h => ha (List.mem_cons_of_mem _ h)), List.length_cons]
      · exact absurd (htot a b (by simpa using h1) (by simpa using h2))
          (fun h => ha (by simp [h]))

end set_insert

theorem vertex_less_total (a b : Nat) (h1 : vertex_less a b = false)
    (h2 : vertex_less b a = false) : a = b := by
  simp only [vertex_less, vertex, decide_eq_false_iff_not, not_lt] at h1 h2; omega

theorem vertex_less_trans (a b c : Nat) (h1 : vertex_less a b = true)
    (h2 : vertex_less b c = true) : vertex_less a c = true := by
  simp only [vertex_less, vertex, decide_eq_true_eq] at *; omega

theorem mem_vertex_insert (a x : vertex) (l : List vertex) :
    x ∈ set_insert vertex_less a l ↔ x = a ∨ x ∈ l :=
  mem_set_insert vertex_less vertex_less_total a x l

theorem vertex_insert_sorted (a : vertex) (l : List vertex)
    (hl : l.Pairwise (fun x y => x < y)) :
    (set_insert vertex_less a l).Pairwise (fun x y => x < y) := by
  have h : ∀ l : List vertex, l.Pairwise (fun x y => vertex_less x y = true) ↔
      l.Pairwise (fun x y => x < y) := by
    intro l; simp [vertex_less]
  rw [← h] at hl ⊢
  exact set_insert_pairwise vertex_less vertex_less_trans a l hl

theorem mem_edge_insert (a x : edge) (l : List edge) :
    x ∈ set_insert edge.op_lt a l ↔ x = a ∨ x ∈ l :=
  mem_set_insert edge.op_lt (fun _ _ h1 h2 => edge.eq_of_not_op_lt h1 h2) a x l

theorem edge_insert_sorted (a : edge) (l : List edge)
    (hl : l.Pairwise (fun x y => x.op_lt y = true)) :
    (set_insert edge.op_lt a l).Pairwise (fun x y => x.op_lt y = true) :=
  set_insert_pairwise edge.op_lt (fun _ _ _ h1 h2 => edge.op_lt_trans h1 h2) a l hl

theorem edges_nodup_of_sorted {l : List edge} (hl : l.Pairwise (fun x y => x.op_lt y = true)) :
    l.Nodup := by
  refine List.Pairwise.imp ?_ hl
  intro a b h hab
  subst hab
  rw [edge.op_lt_irrefl] at h
  exact Bool.false_ne_true h

/-- Increasing lists of vertices with the same elements are equal. -/
theorem sorted_vertices_ext {l1 l2 : List vertex} (h1 : l1.Pairwise (fun a b => a < b))
    (h2 : l2.Pairwise (fun a b => a < b)) (h : ∀ x, x ∈ l1 ↔ x ∈ l2) : l1 = l2 := by
  have n1 : l1.Nodup := List.Pairwise.imp (fun hab => Nat.ne_of_lt hab) h1
  have n2 : l2.Nodup := List.Pairwise.imp (fun hab => Nat.ne_of_lt hab) h2
  exact List.eq_of_perm_of_sorted ((List.perm_ext_iff_of_nodup n1 n2).2 h) h1 h2

/-- Increasing lists of edges with the same elements are equal. -/
theorem sorted_edges_ext {l1 l2 : List edge} (h1 : l1.Pairwise (fun a b => a.op_lt b = true))
    (h2 : l2.Pairwise (fun a b => a.op_lt b = true)) (h : ∀ x, x ∈ l1 ↔ x ∈ l2) : l1 = l2 := by
  have e : ∀ l : List edge, l.Pairwise (fun a b => a.op_lt b = true) → l.Pairwise (fun a b => a < b) :=
    fun l hl => List.Pairwise.imp (fun hab => (edge.lt_iff_op_lt _ _).2 hab) hl
  exact List.eq_of_perm_of_sorted
    ((List.perm_ext_iff_of_nodup (edges_nodup_of_sorted h1) (edges_nodup_of_sorted h2)).2 h)
    (e _ h1) (e _ h2)

/-! ## The comparator of `components_t` -/

theorem lexicographical_compare_irrefl (a : List vertex) :
    lexicographical_compare a a = false := by
  induction a with
  | nil => rfl
  | cons x a ih => simp [lexicographical_compare, ih]

theorem lexicographical_compare_total :
    ∀ a b : List Nat, lexicographical_compare a b = false →
      lexicographical_compare b a = false → a = b
  | [], [], _, _ => rfl
  | [], _ :: _, h, _ => by simp [lexicographical_compare] at h
  | _ :: _, [], _, h => by simp [lexicographical_compare] at h
  | x :: a, y :: b, h1, h2 => by
    unfold lexicographical_compare at h1 h2
    by_cases hxy : x < y
    · simp [hxy] at h1
    · by_cases hyx : y < x
      · simp [hyx] at h2
      · have : x = y := by omega
        subst this
        simp only [hxy, if_false] at h1 h2
        rw [lexicographical_compare_total a b h1 h2]

theorem lexicographical_compare_trans :
    ∀ a b c : List Nat, lexicographical_compare a b = true →
      lexicographical_compare b c = true → lexicographical_compare a c = true
  | a, [], _, h, _ => by cases a <;> simp [lexicographical_compare] at h
  | _, _ :: _, [], _, h => by simp [lexicographical_compare] at h
  | [], _ :: _, _ :: _, _, _ => by simp [lexicographical_compare]
  | x :: a, y :: b, z :: c, h1, h2 => by
    unfold lexicographical_compare at h1 h2 ⊢
    by_cases hxy : x < y
    · by_cases hyz : y < z
      · have : x < z := by omega
        simp [this]
      · by_cases hzy : z < y
        · simp [hyz, hzy] at h2
        · have : y = z := by omega
          subst this
          simp [hxy]
    · by_cases hyx : y < x
      · simp [hxy, hyx] at h1
      · have : x = y := by omega
        subst this
        simp only [hxy, if_false] at h1
        by_cases hyz : x < z
        · simp [hyz]
        · by_cases hzy : z < x
          · simp [hyz, hzy] at h2
          · simp only [hyz, hzy, if_false] at h2 ⊢
            exact lexicographical_compare_trans a b c (by simpa using h1) (by simpa using h2)

theorem mem_component_insert (a x : List vertex) (l : List (List vertex)) :
    x ∈ set_insert lexicographical_compare a l ↔ x = a ∨ x ∈ l :=
  mem_set_insert lexicographical_compare lexicographical_compare_total a x l

theorem component_insert_sorted (a : List vertex) (l : List (List vertex))
    (hl : l.Pairwise (fun x y => lexicographical_compare x y = true)) :
    (set_insert lexicographical_compare a l).Pairwise
      (fun x y => lexicographical_compare x y = true) :=
  set_insert_pairwise lexicographical_compare lexicographical_compare_trans a l hl

theorem components_nodup_of_sorted {l : List (List vertex)}
    (hl : l.Pairwise (fun x y => lexicographical_compare x y = true)) : l.Nodup := by
  refine List.Pairwise.imp ?_ hl
  intro a b h hab
  subst hab
  rw [lexicographical_compare_irrefl] at h
  exact Bool.false_ne_true h

/-! ## Reachability -/

theorem Reach.refl (S : Set edge) (u : vertex) : Reach S u u := Relation.EqvGen.refl u

theorem Reach.symm {S : Set edge} {u v : vertex} (h : Reach S u v) : Reach S v u :=
  Relation.EqvGen.symm _ _ h

theorem Reach.trans {S : Set edge} {u v w : vertex} (h1 : Reach S u v) (h2 : Reach S v w) :
    Reach S u w :=
  Relation.EqvGen.trans _ _ _ h1 h2

theorem Reach.of_edge {S : Set edge} {e : edge} (h : e ∈ S) : Reach S e.start e.end_ :=
  Relation.EqvGen.rel _ _ ⟨e, h, rfl, rfl⟩

/-- Reachability is the least equivalence relating the endpoints of every edge. -/
theorem Reach.induction_rel {S : Set edge} {Q : vertex → vertex → Prop}
    (hrefl : ∀ x, Q x x) (hsymm : ∀ x y, Q x y → Q y x) (htrans : ∀ x y z, Q x y → Q y z → Q x z)
    (hedge : ∀ e ∈ S, Q e.start e.end_) {u v : vertex} (h : Reach S u v) : Q u v := by
  induction h with
  | rel x y hxy =>
    obtain ⟨e, he, rfl, rfl⟩ := hxy
    exact hedge e he
  | refl x => exact hrefl x
  | symm x y _ ih => exact hsymm _ _ ih
  | trans x y z _ _ ih1 ih2 => exact htrans _ _ _ ih1 ih2

theorem Reach.of_edges {S T : Set edge} (h : ∀ e ∈ S, Reach T e.start e.end_) {u v : vertex}
    (huv : Reach S u v) : Reach T u v :=
  Reach.induction_rel (Reach.refl T) (fun _ _ h => h.symm) (fun _ _ _ h1 h2 => h1.trans h2) h huv

theorem Reach.mono {S T : Set edge} (h : S ⊆ T) {u v : vertex} (huv : Reach S u v) :
    Reach T u v :=
  Reach.of_edges (fun _ he => Reach.of_edge (h he)) huv

/-- A set of vertices that no edge crosses is closed under reachability. -/
theorem Reach.mem_iff_of_not_crosses {S : Set edge} {C : Set vertex}
    (h : ∀ e ∈ S, ¬ crosses C e) {u v : vertex} (huv : Reach S u v) : u ∈ C ↔ v ∈ C := by
  refine Reach.induction_rel (Q := fun u v => (u ∈ C ↔ v ∈ C)) (fun _ => Iff.rfl)
    (fun _ _ h => h.symm) (fun _ _ _ h1 h2 => h1.trans h2) ?_ huv
  intro e he
  exact not_not.1 (h e he)

theorem Reach.eq_of_empty {u v : vertex} (h : Reach (edge_set []) u v) : u = v := by
  refine Reach.induction_rel (Q := fun u v => u = v) (fun _ => rfl) (fun _ _ h => h.symm)
    (fun _ _ _ h1 h2 => h1.trans h2) ?_ h
  intro e he
  simp [edge_set] at he

theorem edge_set_cons (e : edge) (F : List edge) : edge_set (e :: F) = insert e (edge_set F) := by
  ext x; simp [edge_set]

/-- Reachability after one more edge. -/
theorem reach_insert_iff {S : Set edge} {f : edge} {u v : vertex} :
    Reach (insert f S) u v ↔
      Reach S u v ∨ (Reach S u f.start ∧ Reach S f.end_ v) ∨
        (Reach S u f.end_ ∧ Reach S f.start v) := by
  constructor
  · intro h
    refine Reach.induction_rel
      (Q := fun u v => Reach S u v ∨ (Reach S u f.start ∧ Reach S f.end_ v) ∨
        (Reach S u f.end_ ∧ Reach S f.start v)) ?_ ?_ ?_ ?_ h
    · intro x; exact Or.inl (Reach.refl S x)
    · intro x y hxy
      rcases hxy with h | ⟨h1, h2⟩ | ⟨h1, h2⟩
      · exact Or.inl h.symm
      · exact Or.inr (Or.inr ⟨h2.symm, h1.symm⟩)
      · exact Or.inr (Or.inl ⟨h2.symm, h1.symm⟩)
    · intro x y z hxy hyz
      rcases hxy with h | ⟨h1, h2⟩ | ⟨h1, h2⟩ <;> rcases hyz with k | ⟨k1, k2⟩ | ⟨k1, k2⟩
      · exact Or.inl (h.trans k)
      · exact Or.inr (Or.inl ⟨h.trans k1, k2⟩)
      · exact Or.inr (Or.inr ⟨h.trans k1, k2⟩)
      · exact Or.inr (Or.inl ⟨h1, h2.trans k⟩)
      · exact Or.inr (Or.inl ⟨h1, k2⟩)
      · exact Or.inl (h1.trans k2)
      · exact Or.inr (Or.inr ⟨h1, h2.trans k⟩)
      · exact Or.inl (h1.trans k2)
      · exact Or.inr (Or.inr ⟨h1, k2⟩)
    · intro e he
      rcases he with rfl | he
      · exact Or.inr (Or.inl ⟨Reach.refl S _, Reach.refl S _⟩)
      · exact Or.inl (Reach.of_edge he)
  · intro h
    have hm : S ⊆ insert f S := Set.subset_insert f S
    have hf : Reach (insert f S) f.start f.end_ := Reach.of_edge (Set.mem_insert f S)
    rcases h with h | ⟨h1, h2⟩ | ⟨h1, h2⟩
    · exact h.mono hm
    · exact ((h1.mono hm).trans hf).trans (h2.mono hm)
    · exact ((h1.mono hm).trans hf.symm).trans (h2.mono hm)

/-- Exchange: when `f` is what joins `e`'s endpoints, `e` joins `f`'s endpoints. -/
theorem reach_exchange {T : Set edge} {e f : edge} (h0 : ¬ Reach T e.start e.end_)
    (h1 : Reach (insert f T) e.start e.end_) : Reach (insert e T) f.start f.end_ := by
  have hm : T ⊆ insert e T := Set.subset_insert e T
  have he : Reach (insert e T) e.start e.end_ := Reach.of_edge (Set.mem_insert e T)
  rcases reach_insert_iff.1 h1 with h | ⟨k1, k2⟩ | ⟨k1, k2⟩
  · exact absurd h h0
  · exact ((k1.symm.mono hm).trans he).trans (k2.symm.mono hm)
  · exact ((k2.mono hm).trans he.symm).trans (k1.mono hm)

/-- Among edges `X` that together join `u` and `v`, one is decisive. -/
theorem exists_bridge (X : Finset edge) (T : Set edge) (u v : vertex)
    (h0 : ¬ Reach T u v) (h1 : Reach (T ∪ ↑X) u v) :
    ∃ f ∈ X, ∃ T' : Set edge, T' ⊆ T ∪ ↑(X.erase f) ∧ ¬ Reach T' u v ∧
      Reach (insert f T') u v := by
  induction X using Finset.induction_on with
  | empty => simp at h1; exact absurd h1 h0
  | insert ha ih =>
    rename_i a X0
    by_cases hX : Reach (T ∪ ↑X0) u v
    · obtain ⟨f, hf, T', hT', h2, h3⟩ := ih hX
      refine ⟨f, Finset.mem_insert_of_mem hf, T', ?_, h2, h3⟩
      intro x hx
      rcases hT' hx with hx | hx
      · exact Or.inl hx
      · refine Or.inr ?_
        simp only [Finset.coe_erase, Set.mem_diff, Finset.mem_coe, Set.mem_singleton_iff,
          Finset.mem_insert] at hx ⊢
        exact ⟨Or.inr hx.1, hx.2⟩
    · refine ⟨a, Finset.mem_insert_self a X0, T ∪ ↑X0, ?_, hX, ?_⟩
      · intro x hx
        rcases hx with hx | hx
        · exact Or.inl hx
        · refine Or.inr ?_
          simp only [Finset.coe_erase, Set.mem_diff, Finset.mem_coe, Set.mem_singleton_iff,
            Finset.mem_insert] at hx ⊢
          exact ⟨Or.inr hx, fun h => ha (h ▸ hx)⟩
      · refine h1.mono ?_
        intro x hx
        rcases hx with hx | hx
        · exact Or.inr (Or.inl hx)
        · simp only [Finset.coe_insert, Set.mem_insert_iff, Finset.mem_coe] at hx
          rcases hx with rfl | hx
          · exact Or.inl rfl
          · exact Or.inr (Or.inr hx)

/-- An edge `e` across a cut can replace some edge of `S` across the same cut without
losing any connection. -/
theorem exists_swap (S : Finset edge) (C : Set vertex) (e : edge) (hc : crosses C e)
    (hr : Reach (↑S : Set edge) e.start e.end_) :
    ∃ f ∈ S, crosses C f ∧
      ∀ x y, Reach (↑S : Set edge) x y → Reach (↑(insert e (S.erase f)) : Set edge) x y := by
  classical
  have h0 : ¬ Reach {x : edge | x ∈ S ∧ ¬ crosses C x} e.start e.end_ := by
    intro h
    exact hc (Reach.mem_iff_of_not_crosses (fun x hx => hx.2) h)
  have h1 : Reach ({x : edge | x ∈ S ∧ ¬ crosses C x} ∪ ↑(S.filter (fun x => crosses C x)))
      e.start e.end_ := by
    refine hr.mono ?_
    intro x hx
    by_cases hxc : crosses C x
    · exact Or.inr (by simpa using ⟨hx, hxc⟩)
    · exact Or.inl ⟨hx, hxc⟩
  obtain ⟨f, hf, T', hT', h2, h3⟩ := exists_bridge _ _ _ _ h0 h1
  have hfS : f ∈ S := (Finset.mem_filter.1 hf).1
  have hfc : crosses C f := (Finset.mem_filter.1 hf).2
  refine ⟨f, hfS, hfc, ?_⟩
  have hsub : insert e T' ⊆ (↑(insert e (S.erase f)) : Set edge) := by
    intro x hx
    rcases hx with rfl | hx
    · simp
    · rcases hT' hx with hx | hx
      · have : x ≠ f := fun h => hx.2 (h ▸ hfc)
        simp [this, hx.1]
      · simp only [Finset.coe_erase, Set.mem_diff, Finset.mem_coe, Finset.mem_filter,
          Set.mem_singleton_iff] at hx
        simp [hx.2, hx.1.1]
  have hff : Reach (↑(insert e (S.erase f)) : Set edge) f.start f.end_ :=
    (reach_exchange h2 h3).mono hsub
  intro x y hxy
  refine Reach.of_edges ?_ hxy
  intro g hg
  by_cases hgf : g = f
  · subst hgf; exact hff
  · exact Reach.of_edge (by simp [hgf, Finset.mem_coe.1 hg])

/-! ## Edge lists grown by the cut rule -/

theorem cut_built.subset {E F : List edge} (hb : cut_built E F) : ∀ e ∈ F, e ∈ E := by
  induction hb with
  | nil => simp
  | cons C _ he _ _ _ ih =>
    intro x hx
    rcases List.mem_cons.1 hx with rfl | hx
    · exact he
    · exact ih x hx

theorem cut_built.nodup {E F : List edge} (hb : cut_built E F) : F.Nodup := by
  induction hb with
  | nil => simp
  | cons C _ _ hc hF _ ih =>
    exact List.nodup_cons.2 ⟨fun h => hF _ h hc, ih⟩

/-- Every connecting set of input edges can be traded, at no extra weight, for one that
contains the edges chosen so far. -/
theorem cut_built.exists_superset {E F : List edge} (hb : cut_built E F) (V : List vertex)
    (hV : ∀ e ∈ E, e.start ∈ V ∧ e.end_ ∈ V) (S : Finset edge) (hS : ∀ e ∈ S, e ∈ E)
    (hsp : spans (↑S : Set edge) V) :
    ∃ S' : Finset edge, (∀ e ∈ S', e ∈ E) ∧ spans (↑S' : Set edge) V ∧ (∀ e ∈ F, e ∈ S') ∧
      S'.sum edge.weight ≤ S.sum edge.weight := by
  induction hb with
  | nil => exact ⟨S, hS, hsp, by simp, le_refl _⟩
  | @cons F e C _ he hc hF hlight ih =>
    obtain ⟨S', hS'E, hS'sp, hFS', hw⟩ := ih
    by_cases heS : e ∈ S'
    · refine ⟨S', hS'E, hS'sp, ?_, hw⟩
      intro x hx
      rcases List.mem_cons.1 hx with rfl | hx
      · exact heS
      · exact hFS' x hx
    · obtain ⟨f, hfS, hfc, hreach⟩ :=
        exists_swap S' C e hc (hS'sp _ (hV e he).1 _ (hV e he).2)
      refine ⟨insert e (S'.erase f), ?_, ?_, ?_, ?_⟩
      · intro x hx
        rcases Finset.mem_insert.1 hx with rfl | hx
        · exact he
        · exact hS'E x (Finset.mem_of_mem_erase hx)
      · intro u hu v hv
        exact hreach u v (hS'sp u hu v hv)
      · intro x hx
        rcases List.mem_cons.1 hx with rfl | hx
        · exact Finset.mem_insert_self _ _
        · refine Finset.mem_insert_of_mem (Finset.mem_erase.2 ⟨?_, hFS' x hx⟩)
          intro h
          exact hF x hx (h ▸ hfc)
      · have h1 : e ∉ S'.erase f := fun h => heS (Finset.mem_of_mem_erase h)
        have h4 : (insert e (S'.erase f)).sum edge.weight =
            e.weight + (S'.erase f).sum edge.weight := Finset.sum_insert h1
        have h2 : f.weight + (S'.erase f).sum edge.weight = S'.sum edge.weight :=
          Finset.add_sum_erase S' edge.weight hfS
        have h3 := hlight f (hS'E f hfS) hfc
        omega

/-! ## Counting components by their least vertices -/

theorem exists_root_set (S : Set edge) (K : List vertex) : ∃ R, is_root_set S K R := by
  classical
  refine ⟨K.toFinset.filter (fun k => ∀ x ∈ K, Reach S k x → k ≤ x), ?_⟩
  intro k
  simp

theorem is_root_set.exists_root {S : Set edge} {K : List vertex} {R : Finset vertex}
    (hR : is_root_set S K R) {k : vertex} (hk : k ∈ K) : ∃ r ∈ R, Reach S k r := by
  classical
  have hex : ∃ n : Nat, n ∈ K ∧ Reach S k n := ⟨k, hk, Reach.refl S k⟩
  refine ⟨Nat.find hex, (hR _).2 ⟨(Nat.find_spec hex).1, ?_⟩, (Nat.find_spec hex).2⟩
  intro x hx hrx
  exact Nat.find_min' hex ⟨hx, (Nat.find_spec hex).2.trans hrx⟩

theorem is_root_set.eq_of_reach {S : Set edge} {K : List vertex} {R : Finset vertex}
    (hR : is_root_set S K R) {a b : vertex} (ha : a ∈ R) (hb : b ∈ R) (h : Reach S a b) :
    a = b :=
  Nat.le_antisymm (((hR a).1 ha).2 b ((hR b).1 hb).1 h) (((hR b).1 hb).2 a ((hR a).1 ha).1 h.symm)

/-- An edge between two different components lowers the number of components by one. -/
theorem root_set_card_insert {S : Set edge} {K : List vertex} {R R' : Finset vertex} {e : edge}
    (hR : is_root_set S K R) (hR' : is_root_set (insert e S) K R') (hs : e.start ∈ K)
    (ht : e.end_ ∈ K) (hne : ¬ Reach S e.start e.end_) : R'.card + 1 = R.card := by
  classical
  obtain ⟨ra, hra, hsa⟩ := hR.exists_root hs
  obtain ⟨rb, hrb, htb⟩ := hR.exists_root ht
  have hab : ra ≠ rb := by
    intro h
    apply hne
    rw [← h] at htb
    exact hsa.trans htb.symm
  have hraK := ((hR ra).1 hra).1
  have hrbK := ((hR rb).1 hrb).1
  have hrr : Reach (insert e S) ra rb :=
    reach_insert_iff.2 (Or.inr (Or.inl ⟨hsa.symm, htb⟩))
  have key : R' = R.erase (max ra rb) := by
    ext k
    rw [Finset.mem_erase, hR' k, hR k]
    constructor
    · rintro ⟨hk, hmin⟩
      refine ⟨?_, hk, fun x hx hr => hmin x hx (hr.mono (Set.subset_insert _ _))⟩
      intro hkm
      rcases le_total ra rb with h | h
      · rw [max_eq_right h] at hkm
        subst hkm
        exact hab (Nat.le_antisymm h (hmin ra hraK hrr.symm))
      · rw [max_eq_left h] at hkm
        subst hkm
        exact hab (Nat.le_antisymm (hmin rb hrbK hrr) h)
    · rintro ⟨hkm, hk, hmin⟩
      have hkR : k ∈ R := (hR k).2 ⟨hk, hmin⟩
      refine ⟨hk, ?_⟩
      intro x hx hr
      rcases reach_insert_iff.1 hr with h | ⟨h1, h2⟩ | ⟨h1, h2⟩
      · exact hmin x hx h
      · have hka : k = ra := hR.eq_of_reach hkR hra (h1.trans hsa)
        have hbx : rb ≤ x := ((hR rb).1 hrb).2 x hx (htb.symm.trans h2)
        subst hka
        rcases le_total k rb with h | h
        · exact le_trans h hbx
        · exact absurd (max_eq_left h) (Ne.symm hkm)
      · have hkb : k = rb := hR.eq_of_reach hkR hrb (h1.trans htb)
        have hax : ra ≤ x := ((hR ra).1 hra).2 x hx (hsa.symm.trans h2)
        subst hkb
        rcases le_total ra k with h | h
        · exact absurd (max_eq_right h) (Ne.symm hkm)
        · exact le_trans h hax
  have hmem : max ra rb ∈ R := by
    rcases le_total ra rb with h | h
    · rw [max_eq_right h]; exact hrb
    · rw [max_eq_left h]; exact hra
  rw [key]
  exact Finset.card_erase_add_one hmem

/-- Forest identity: each edge chosen by the cut rule removes exactly one component. -/
theorem cut_built.length_add_card {E F : List edge} (hb : cut_built E F) {K : List vertex}
    (hK : K.Nodup) (hV : ∀ e ∈ E, e.start ∈ K ∧ e.end_ ∈ K) :
    ∀ R, is_root_set (edge_set F) K R → F.length + R.card = K.length := by
  induction hb with
  | nil =>
    intro R hR
    have : R = K.toFinset := by
      ext k
      rw [hR k, List.mem_toFinset]
      constructor
      · exact fun h => h.1
      · intro h
        refine ⟨h, fun x _ hx => ?_⟩
        rw [Reach.eq_of_empty hx]
    rw [this, List.toFinset_card_of_nodup hK]
    simp
  | @cons F e C _ he hc hF _ ih =>
    intro R hR
    obtain ⟨R0, hR0⟩ := exists_root_set (edge_set F) K
    have h0 := ih R0 hR0
    rw [edge_set_cons] at hR
    have hne : ¬ Reach (edge_set F) e.start e.end_ := by
      intro h
      exact hc (Reach.mem_iff_of_not_crosses (fun f hf => hF f hf) h)
    have h1 := root_set_card_insert hR0 hR (hV e he).1 (hV e he).2 hne
    rw [List.length_cons]
    omega

/-- A set of edges, each the least edge (in the edge order) across a cut that the current
list does not cross, can be appended in increasing order by the cut rule. -/
theorem cut_built.append_of_least {E F : List edge} (hb : cut_built E F) (M : Finset edge) :
    (∀ m ∈ M, m ∈ E ∧ ∃ C : Set vertex, crosses C m ∧ (∀ f ∈ F, ¬ crosses C f) ∧
      ∀ f ∈ E, crosses C f → m ≤ f) →
    ∃ L : List edge, (∀ x, x ∈ L ↔ x ∈ M) ∧ cut_built E (L ++ F) := by
  refine Finset.induction_on_max M ?_ ?_
  · intro _
    exact ⟨[], by simp, hb⟩
  · intro a s hlt ih hM
    obtain ⟨L, hL, hLb⟩ := ih (fun m hm => hM m (Finset.mem_insert_of_mem hm))
    obtain ⟨haE, C, hc, hF, hleast⟩ := hM a (Finset.mem_insert_self a s)
    refine ⟨a :: L, ?_, ?_⟩
    · intro x
      rw [List.mem_cons, Finset.mem_insert, hL]
    · refine cut_built.cons C hLb haE hc ?_ ?_
      · intro f hf hfc
        rcases List.mem_append.1 hf with hfL | hfF
        · have hfs : f ∈ s := (hL f).1 hfL
          have h1 : f < a := hlt f hfs
          have h2 : a ≤ f := hleast f (hM f (Finset.mem_insert_of_mem hfs)).1 hfc
          exact absurd h1 (not_lt.2 h2)
        · exact hF f hfF hfc
      · intro f hf hfc
        exact edge.weight_le_of_le (hleast f hf hfc)

/-! ## Component lists -/

theorem is_component_of.mem_self {S : Set edge} {C : List vertex} {k : vertex}
    (h : is_component_of S C k) : k ∈ C :=
  (h.2 k).2 (Reach.refl S k)

theorem is_component_of.of_mem {S : Set edge} {C : List vertex} {k j : vertex}
    (h : is_component_of S C k) (hj : j ∈ C) : is_component_of S C j := by
  refine ⟨h.1, fun x => ?_⟩
  have hkj : Reach S k j := (h.2 j).1 hj
  rw [h.2 x]
  exact ⟨fun hx => hkj.symm.trans hx, fun hx => hkj.trans hx⟩

theorem is_component_of.eq {S : Set edge} {C D : List vertex} {k : vertex}
    (h1 : is_component_of S C k) (h2 : is_component_of S D k) : C = D :=
  sorted_vertices_ext h1.1 h2.1 (fun x => by rw [h1.2 x, h2.2 x])

theorem reach_mem_of_endpoints {S : Set edge} {K : List vertex}
    (hV : ∀ e ∈ S, e.start ∈ K ∧ e.end_ ∈ K) {u v : vertex} (huv : Reach S u v) (hu : u ∈ K) :
    v ∈ K := by
  have h := Reach.mem_iff_of_not_crosses (C := {x | x ∈ K}) (S := S) ?_ huv
  · exact h.1 hu
  · intro e he hc
    exact hc ⟨fun _ => (hV e he).2, fun _ => (hV e he).1⟩

theorem is_component_list.eq_of_mem {S : Set edge} {K : List vertex} {comps : List (List vertex)}
    (h : is_component_list S K comps) {C D : List vertex} (hC : C ∈ comps) (hD : D ∈ comps)
    {x : vertex} (hxC : x ∈ C) (hxD : x ∈ D) : C = D := by
  obtain ⟨k, _, hk⟩ := h.2.1 C hC
  obtain ⟨j, _, hj⟩ := h.2.1 D hD
  exact (hk.of_mem hxC).eq (hj.of_mem hxD)

theorem head_le_of_sorted {C : List vertex} (hs : C.Pairwise (fun a b => a < b)) {x : vertex}
    (hx : x ∈ C) : C.headI ≤ x := by
  cases C with
  | nil => simp at hx
  | cons a t =>
    rw [List.pairwise_cons] at hs
    rcases List.mem_cons.1 hx with rfl | hx
    · exact le_refl _
    · exact le_of_lt (hs.1 x hx)

theorem headI_mem {C : List vertex} {x : vertex} (hx : x ∈ C) : C.headI ∈ C := by
  cases C with
  | nil => simp at hx
  | cons a t => simp

/-- The length of a component list is the number of components. -/
theorem is_component_list.length_eq_card {S : Set edge} {K : List vertex}
    {comps : List (List vertex)} (h : is_component_list S K comps)
    (hV : ∀ e ∈ S, e.start ∈ K ∧ e.end_ ∈ K) {R : Finset vertex} (hR : is_root_set S K R) :
    comps.length = R.card := by
  classical
  have hnd : (comps.map List.headI).Nodup := by
    refine List.Nodup.map_on ?_ h.1
    intro C hC D hD hCD
    obtain ⟨k, _, hk⟩ := h.2.1 C hC
    obtain ⟨j, _, hj⟩ := h.2.1 D hD
    have h1 : C.headI ∈ C := headI_mem hk.mem_self
    have h2 : C.headI ∈ D := hCD ▸ headI_mem hj.mem_self
    exact h.eq_of_mem hC hD h1 h2
  have hset : R = (comps.map List.headI).toFinset := by
    ext r
    rw [List.mem_toFinset, List.mem_map, hR r]
    constructor
    · rintro ⟨hrK, hmin⟩
      obtain ⟨C, hC, hCr⟩ := h.2.2 r hrK
      refine ⟨C, hC, ?_⟩
      have h1 : C.headI ∈ C := headI_mem hCr.mem_self
      have h2 : C.headI ≤ r := head_le_of_sorted hCr.1 hCr.mem_self
      have h3 : Reach S r C.headI := (hCr.2 _).1 h1
      have h4 : r ≤ C.headI := hmin _ (reach_mem_of_endpoints hV h3 hrK) h3
      exact Nat.le_antisymm h2 h4
    · rintro ⟨C, hC, rfl⟩
      obtain ⟨k, hkK, hk⟩ := h.2.1 C hC
      have h1 : C.headI ∈ C := headI_mem hk.mem_self
      have h2 : Reach S k C.headI := (hk.2 _).1 h1
      refine ⟨reach_mem_of_endpoints hV h2 hkK, ?_⟩
      intro x _ hx
      exact head_le_of_sorted hk.1 ((hk.2 x).2 (h2.trans hx))
  rw [hset, List.toFinset_card_of_nodup hnd, List.length_map]

/-- With at most one component, every two vertices are joined. -/
theorem is_component_list.spans_of_length_le_one {S : Set edge} {K : List vertex}
    {comps : List (List vertex)} (h : is_component_list S K comps) (hlen : comps.length ≤ 1) :
    spans S K := by
  intro u hu v hv
  obtain ⟨C, hC, hCu⟩ := h.2.2 u hu
  obtain ⟨D, hD, hDv⟩ := h.2.2 v hv
  have hCD : C = D := by
    match comps, hlen, hC, hD with
    | [X], _, hC, hD =>
      rw [List.mem_singleton] at hC hD
      rw [hC, hD]
  subst hCD
  exact (hCu.2 v).1 hDv.mem_self

/-- If every two vertices are joined, the component list of a non-empty vertex list is the
vertex list itself, alone. -/
theorem is_component_list.eq_singleton_of_spans {S : Set edge} {K : List vertex}
    {comps : List (List vertex)} (h : is_component_list S K comps)
    (hV : ∀ e ∈ S, e.start ∈ K ∧ e.end_ ∈ K) (hK : K.Pairwise (fun a b => a < b))
    (hne : K ≠ []) (hsp : spans S K) : comps = [K] := by
  have hall : ∀ C ∈ comps, C = K := by
    intro C hC
    obtain ⟨k, hkK, hk⟩ := h.2.1 C hC
    refine sorted_vertices_ext hk.1 hK (fun x => ?_)
    rw [hk.2 x]
    exact ⟨fun hx => reach_mem_of_endpoints hV hx hkK, fun hx => hsp k hkK x hx⟩
  obtain ⟨k, hk⟩ := List.exists_mem_of_ne_nil K hne
  obtain ⟨C, hC, _⟩ := h.2.2 k hk
  have hnd := h.1
  match comps, hall, hC, hnd with
  | [X], hall, _, _ => rw [hall X (List.mem_singleton_self X)]
  | X :: Y :: t, hall, _, hnd =>
    have h1 := hall X (by simp)
    have h2 := hall Y (by simp)
    rw [h1, h2] at hnd
    simp at hnd

/-! ## `std::map` operations -/

theorem map_t.mem_keys_assign {β : Type} (m : map_t β) (k j : vertex) (x : β) :
    j ∈ (m.assign k x).keys ↔ j = k ∨ j ∈ m.keys :=
  mem_vertex_insert k j m.keys

theorem map_t.keys_assign_sorted {β : Type} (m : map_t β) (k : vertex) (x : β)
    (h : m.keys.Pairwise (fun a b => a < b)) :
    (m.assign k x).keys.Pairwise (fun a b => a < b) :=
  vertex_insert_sorted k m.keys h

theorem map_t.index_assign {β : Type} [Inhabited β] (m : map_t β) (k j : vertex) (x : β) :
    (m.assign k x).index j = if j = k then x else m.index j := by
  have hk := map_t.mem_keys_assign m k j x
  by_cases h : j = k
  · have h1 : j ∈ (m.assign k x).keys := hk.2 (Or.inl h)
    unfold map_t.index
    rw [if_pos h1, if_pos h]
    simp [map_t.assign, h]
  · by_cases h2 : j ∈ m.keys
    · have h1 : j ∈ (m.assign k x).keys := hk.2 (Or.inr h2)
      unfold map_t.index
      rw [if_pos h1, if_neg h, if_pos h2]
      simp [map_t.assign, h]
    · have h1 : j ∉ (m.assign k x).keys := fun h3 => (hk.1 h3).elim h h2
      unfold map_t.index
      rw [if_neg h1, if_neg h, if_neg h2]

theorem map_t.index_empty {β : Type} [Inhabited β] (j : vertex) :
    (map_t.empty : map_t β).index j = default := by
  simp [map_t.index, map_t.empty]

theorem map_t.val_eq_index {β : Type} [Inhabited β] (m : map_t β) {j : vertex}
    (h : j ∈ m.keys) : m.val j = m.index j := by
  simp [map_t.index, h]

theorem map_t.at_eq {β : Type} [Inhabited β] (m : map_t β) {j : vertex} (h : j ∈ m.keys) :
    m.at j = .ok (m.index j) := by
  simp [map_t.at, map_t.index, h]

/-! ## `get_edges_by_vertex` -/

theorem fold_assign_nil_spec (vs : List vertex) (m : vertex_to_edges_map) :
    let r := vs.foldl (fun map vertex => map.assign vertex []) m
    (∀ j, j ∈ r.keys ↔ j ∈ vs ∨ j ∈ m.keys) ∧
      (m.keys.Pairwise (fun a b => a < b) → r.keys.Pairwise (fun a b => a < b)) ∧
      (∀ j, r.index j = if j ∈ vs then [] else m.index j) := by
  induction vs generalizing m with
  | nil => simp
  | cons v vs ih =>
    simp only [List.foldl_cons]
    obtain ⟨h1, h2, h3⟩ := ih (m.assign v [])
    refine ⟨?_, ?_, ?_⟩
    · intro j
      rw [h1 j, map_t.mem_keys_assign, List.mem_cons]
      tauto
    · intro h
      exact h2 (map_t.keys_assign_sorted m v [] h)
    · intro j
      rw [h3 j, map_t.index_assign]
      by_cases hj : j ∈ vs
      · simp [hj]
      · by_cases hjv : j = v
        · simp [hjv]
        · simp [hj, hjv]

theorem mem_index_push_back (m : vertex_to_edges_map) (e x : edge) (j : vertex) :
    x ∈ ((m.assign e.start (m.index e.start ++ [e])).assign e.end_
        ((m.assign e.start (m.index e.start ++ [e])).index e.end_ ++ [e])).index j ↔
      x ∈ m.index j ∨ (x = e ∧ (e.start = j ∨ e.end_ = j)) := by
  simp only [map_t.index_assign]
  by_cases hje : j = e.end_
  · subst hje
    by_cases hes : e.end_ = e.start
    · simp [hes]
    · simp [hes]
  · by_cases hjs : j = e.start
    · subst hjs
      simp [hje]
    · have h1 : ¬ e.start = j := fun h => hjs h.symm
      have h2 : ¬ e.end_ = j := fun h => hje h.symm
      simp [hje, hjs, h1, h2]

theorem fold_push_back_spec (es : List edge) (m : vertex_to_edges_map) :
    let r := es.foldl (fun map m_edge =>
      let map := map.assign m_edge.start (map.index m_edge.start ++ [m_edge])
      map.assign m_edge.end_ (map.index m_edge.end_ ++ [m_edge])) m
    (∀ j, j ∈ r.keys ↔ j ∈ m.keys ∨ ∃ e ∈ es, e.start = j ∨ e.end_ = j) ∧
      (m.keys.Pairwise (fun a b => a < b) → r.keys.Pairwise (fun a b => a < b)) ∧
      (∀ j x, x ∈ r.index j ↔ x ∈ m.index j ∨ (x ∈ es ∧ (x.start = j ∨ x.end_ = j))) := by
  induction es generalizing m with
  | nil => simp
  | cons e es ih =>
    simp only [List.foldl_cons]
    obtain ⟨h1, h2, h3⟩ := ih ((m.assign e.start (m.index e.start ++ [e])).assign e.end_
      ((m.assign e.start (m.index e.start ++ [e])).index e.end_ ++ [e]))
    refine ⟨?_, ?_, ?_⟩
    · intro j
      rw [h1 j, map_t.mem_keys_assign, map_t.mem_keys_assign]
      constructor
      · rintro ((h | h | h) | ⟨x, hx, hxj⟩)
        · exact Or.inr ⟨e, by simp, Or.inr h.symm⟩
        · exact Or.inr ⟨e, by simp, Or.inl h.symm⟩
        · exact Or.inl h
        · exact Or.inr ⟨x, List.mem_cons_of_mem _ hx, hxj⟩
      · rintro (h | ⟨x, hx, hxj⟩)
        · exact Or.inl (Or.inr (Or.inr h))
        · rcases List.mem_cons.1 hx with rfl | hx
          · rcases hxj with h | h
            · exact Or.inl (Or.inr (Or.inl h.symm))
            · exact Or.inl (Or.inl h.symm)
          · exact Or.inr ⟨x, hx, hxj⟩
    · intro h
      exact h2 (map_t.keys_assign_sorted _ _ _ (map_t.keys_assign_sorted _ _ _ h))
    · intro j x
      rw [h3 j x, mem_index_push_back, List.mem_cons]
      constructor
      · rintro ((h | ⟨rfl, h⟩) | ⟨h, h'⟩)
        · exact Or.inl h
        · exact Or.inr ⟨Or.inl rfl, h⟩
        · exact Or.inr ⟨Or.inr h, h'⟩
      · rintro (h | ⟨rfl | h, h'⟩)
        · exact Or.inl (Or.inl h)
        · exact Or.inl (Or.inr ⟨rfl, h'⟩)
        · exact Or.inr ⟨h, h'⟩

theorem graph.mem_keys_get_edges_by_vertex (g : graph) (j : vertex) :
    j ∈ g.get_edges_by_vertex.keys ↔
      j ∈ g.m_vertices ∨ ∃ e ∈ g.m_edges, e.start = j ∨ e.end_ = j := by
  unfold graph.get_edges_by_vertex
  rw [(fold_push_back_spec g.m_edges _).1 j, (fold_assign_nil_spec g.m_vertices _).1 j]
  simp [map_t.empty]

theorem graph.keys_get_edges_by_vertex_sorted (g : graph) :
    g.get_edges_by_vertex.keys.Pairwise (fun a b => a < b) := by
  unfold graph.get_edges_by_vertex
  refine (fold_push_back_spec g.m_edges _).2.1 ((fold_assign_nil_spec g.m_vertices _).2.1 ?_)
  simp [map_t.empty]

theorem graph.mem_index_get_edges_by_vertex (g : graph) (j : vertex) (x : edge) :
    x ∈ g.get_edges_by_vertex.index j ↔ x ∈ g.m_edges ∧ (x.start = j ∨ x.end_ = j) := by
  unfold graph.get_edges_by_vertex
  rw [(fold_push_back_spec g.m_edges _).2.2 j x, (fold_assign_nil_spec g.m_vertices _).2.2 j]
  have : (map_t.empty : vertex_to_edges_map).index j = [] := map_t.index_empty j
  simp [this]

/-- When the edges' endpoints are vertices, the keys of the adjacency map are the vertices. -/
theorem graph.keys_get_edges_by_vertex (g : graph)
    (hs : g.m_vertices.Pairwise (fun a b => a < b)) (hc : g.endpoints_in_vertices) :
    g.get_edges_by_vertex.keys = g.m_vertices := by
  refine sorted_vertices_ext g.keys_get_edges_by_vertex_sorted hs (fun j => ?_)
  rw [g.mem_keys_get_edges_by_vertex]
  constructor
  · rintro (h | ⟨e, he, rfl | rfl⟩)
    · exact h
    · exact (hc e he).1
    · exact (hc e he).2
  · exact Or.inl

/-! ## The recursive search `populate_set_with_connected_vertices` -/

theorem unvisited_le_of_subset (map : vertex_to_edges_map) {a b : List vertex}
    (h : ∀ x ∈ a, x ∈ b) : unvisited map b ≤ unvisited map a := by
  unfold unvisited
  refine Finset.card_le_card ?_
  intro x hx
  simp only [Finset.mem_sdiff, List.mem_toFinset] at hx ⊢
  exact ⟨hx.1, fun hxa => hx.2 (h x hxa)⟩

theorem unvisited_lt (map : vertex_to_edges_map) {a b : List vertex} {v : vertex}
    (h : ∀ x ∈ a, x ∈ b) (hk : v ∈ map.keys) (hva : v ∉ a) (hvb : v ∈ b) :
    unvisited map b < unvisited map a := by
  unfold unvisited
  refine Finset.card_lt_card ?_
  rw [Finset.ssubset_iff_of_subset]
  · exact ⟨v, by simp [hk, hva], by simp [hvb]⟩
  · intro x hx
    simp only [Finset.mem_sdiff, List.mem_toFinset] at hx ⊢
    exact ⟨hx.1, fun hxa => hx.2 (h x hxa)⟩

theorem search_post.self (map : vertex_to_edges_map) (Q : vertex → vertex → Prop) (v : vertex)
    {ret : List vertex} (hs : ret.Pairwise (fun a b => a < b)) (hk : ∀ x ∈ ret, x ∈ map.keys) :
    search_post map Q v ret ret :=
  ⟨fun _ h => h, hs, hk, fun _ hx hnx => absurd hx hnx⟩

theorem search_post.step {map : vertex_to_edges_map} {Q : vertex → vertex → Prop}
    (htrans : ∀ x y z, Q x y → Q y z → Q x z) {v x : vertex} {ret acc acc' : List vertex}
    (h1 : search_post map Q v ret acc) (h2 : search_post map Q x acc acc') (hvx : Q v x) :
    search_post map Q v ret acc' := by
  refine ⟨fun y hy => h2.1 y (h1.1 y hy), h2.2.1, h2.2.2.1, ?_⟩
  intro y hy hyr
  by_cases hya : y ∈ acc
  · obtain ⟨hc, hq⟩ := h1.2.2.2 y hya hyr
    exact ⟨fun e he => ⟨h2.1 _ (hc e he).1, h2.1 _ (hc e he).2⟩, hq⟩
  · obtain ⟨hc, hq⟩ := h2.2.2.2 y hy hya
    exact ⟨hc, htrans _ _ _ hvx hq⟩

section search

variable (map : vertex_to_edges_map) (Q : vertex → vertex → Prop)

/-- One test-and-recurse of the search loop, given the correctness of the recursive call. -/
theorem populate_visit (htrans : ∀ x y z, Q x y → Q y z → Q x z) (fuel : Nat)
    (ih : ∀ x acc, x ∈ map.keys → x ∉ acc → (∀ y ∈ acc, y ∈ map.keys) →
      acc.Pairwise (fun a b => a < b) → unvisited map acc ≤ fuel →
      ∃ acc', populate_set_with_connected_vertices map fuel x acc = .ok acc' ∧ x ∈ acc' ∧
        search_post map Q x acc acc')
    (v x : vertex) (ret acc : List vertex) (hinv : search_post map Q v ret acc)
    (hfuel : unvisited map acc ≤ fuel) (hx : x ∈ map.keys) (hvx : Q v x) :
    ∃ acc', (if x ∈ acc then pure acc
        else populate_set_with_connected_vertices map fuel x acc) = Except.ok acc' ∧
      x ∈ acc' ∧ search_post map Q v ret acc' ∧ (∀ y ∈ acc, y ∈ acc') := by
  by_cases hxa : x ∈ acc
  · exact ⟨acc, by simp [hxa, pure, Except.pure], hxa, hinv, fun _ h => h⟩
  · obtain ⟨acc', h1, h2, h3⟩ := ih x acc hx hxa hinv.2.2.1 hinv.2.1 hfuel
    exact ⟨acc', by simp [hxa, h1], h2, hinv.step htrans h3 hvx, h3.1⟩

/-- The loop over the incident edges of `v`. -/
theorem populate_fold (htrans : ∀ x y z, Q x y → Q y z → Q x z) (fuel : Nat)
    (ih : ∀ x acc, x ∈ map.keys → x ∉ acc → (∀ y ∈ acc, y ∈ map.keys) →
      acc.Pairwise (fun a b => a < b) → unvisited map acc ≤ fuel →
      ∃ acc', populate_set_with_connected_vertices map fuel x acc = .ok acc' ∧ x ∈ acc' ∧
        search_post map Q x acc acc')
    (v : vertex) (ret : List vertex) (edges : List edge)
    (hedges : ∀ e ∈ edges, (e.start ∈ map.keys ∧ e.end_ ∈ map.keys) ∧ Q v e.start ∧ Q v e.end_) :
    ∀ acc, search_post map Q v ret acc → unvisited map acc ≤ fuel →
      ∃ acc', edges.foldlM (fun ret edge => do
          let ret ← (if edge.start ∈ ret then pure ret
            else populate_set_with_connected_vertices map fuel edge.start ret)
          (if edge.end_ ∈ ret then pure ret
            else populate_set_with_connected_vertices map fuel edge.end_ ret)) acc = Except.ok acc' ∧
        search_post map Q v ret acc' ∧ (∀ y ∈ acc, y ∈ acc') ∧
        ∀ e ∈ edges, e.start ∈ acc' ∧ e.end_ ∈ acc' := by
  induction edges with
  | nil =>
    intro acc hinv _
    exact ⟨acc, rfl, hinv, fun _ h => h, by simp⟩
  | cons e edges ihl =>
    intro acc hinv hfuel
    obtain ⟨⟨hs, ht⟩, hqs, hqt⟩ := hedges e (List.mem_cons_self _ _)
    obtain ⟨a1, e1, m1, p1, s1⟩ :=
      populate_visit map Q htrans fuel ih v e.start ret acc hinv hfuel hs hqs
    have f1 : unvisited map a1 ≤ fuel := le_trans (unvisited_le_of_subset map s1) hfuel
    obtain ⟨a2, e2, m2, p2, s2⟩ :=
      populate_visit map Q htrans fuel ih v e.end_ ret a1 p1 f1 ht hqt
    have f2 : unvisited map a2 ≤ fuel := le_trans (unvisited_le_of_subset map s2) f1
    obtain ⟨a3, e3, p3, s3, c3⟩ :=
      ihl (fun x hx => hedges x (List.mem_cons_of_mem _ hx)) a2 p2 f2
    refine ⟨a3, ?_, p3, fun y hy => s3 y (s2 y (s1 y hy)), ?_⟩
    · rw [List.foldlM_cons, e1]
      show (do
          let ret ← (if e.end_ ∈ a1 then pure a1
            else populate_set_with_connected_vertices map fuel e.end_ a1)
          List.foldlM _ ret edges) = Except.ok a3
      rw [e2]
      exact e3
    · intro x hx
      rcases List.mem_cons.1 hx with rfl | hx
      · exact ⟨s3 _ (s2 _ m1), s3 _ m2⟩
      · exact c3 x hx

/-- The search from a key `v` not yet in `ret` returns, given fuel for every key still
outside `ret`; the set it leaves satisfies `search_post`. -/
theorem populate_spec (hrefl : ∀ x, Q x x) (htrans : ∀ x y z, Q x y → Q y z → Q x z)
    (hmap : ∀ k ∈ map.keys, ∀ e ∈ map.index k,
      (e.start ∈ map.keys ∧ e.end_ ∈ map.keys) ∧ Q k e.start ∧ Q k e.end_) :
    ∀ fuel v ret, v ∈ map.keys → v ∉ ret → (∀ y ∈ ret, y ∈ map.keys) →
      ret.Pairwise (fun a b => a < b) → unvisited map ret ≤ fuel →
      ∃ ret', populate_set_with_connected_vertices map fuel v ret = .ok ret' ∧ v ∈ ret' ∧
        search_post map Q v ret ret' := by
  intro fuel
  induction fuel with
  | zero =>
    intro v ret hv hvr _ _ hf
    have : unvisited map (v :: ret) < unvisited map ret :=
      unvisited_lt map (fun x hx => List.mem_cons_of_mem _ hx) hv hvr (List.mem_cons_self _ _)
    omega
  | succ fuel ih =>
    intro v ret hv hvr hk hs hf
    have hsub : ∀ x ∈ ret, x ∈ set_insert vertex_less v ret :=
      fun x hx => (mem_vertex_insert v x ret).2 (Or.inr hx)
    have hvm : v ∈ set_insert vertex_less v ret := (mem_vertex_insert v v ret).2 (Or.inl rfl)
    have hk1 : ∀ x ∈ set_insert vertex_less v ret, x ∈ map.keys := by
      intro x hx
      rcases (mem_vertex_insert v x ret).1 hx with rfl | hx
      · exact hv
      · exact hk x hx
    have hf1 : unvisited map (set_insert vertex_less v ret) ≤ fuel := by
      have := unvisited_lt map hsub hv hvr hvm
      omega
    have hinv : search_post map Q v (set_insert vertex_less v ret)
        (set_insert vertex_less v ret) :=
      search_post.self map Q v (vertex_insert_sorted v ret hs) hk1
    obtain ⟨acc', e1, p1, s1, c1⟩ := populate_fold map Q htrans fuel ih v
      (set_insert vertex_less v ret) (map.index v) (hmap v hv) _ hinv hf1
    refine ⟨acc', ?_, s1 v hvm, fun x hx => s1 x (hsub x hx), p1.2.1, p1.2.2.1, ?_⟩
    · unfold populate_set_with_connected_vertices
      rw [map_t.at_eq map hv]
      exact e1
    · intro x hx hxr
      by_cases hxv : x = v
      · subst hxv
        exact ⟨c1, hrefl x⟩
      · refine p1.2.2.2 x hx ?_
        intro hx1
        rcases (mem_vertex_insert v x ret).1 hx1 with h | h
        · exact hxv h
        · exact hxr h

end search

/-! ## `get_components` -/

theorem graph.adjacency_closed (g : graph) :
    ∀ k ∈ g.get_edges_by_vertex.keys, ∀ e ∈ g.get_edges_by_vertex.index k,
      (e.start ∈ g.get_edges_by_vertex.keys ∧ e.end_ ∈ g.get_edges_by_vertex.keys) ∧
        Reach (edge_set g.m_edges) k e.start ∧ Reach (edge_set g.m_edges) k e.end_ := by
  intro k _ e he
  rw [g.mem_index_get_edges_by_vertex] at he
  obtain ⟨heE, hk⟩ := he
  have hr : Reach (edge_set g.m_edges) e.start e.end_ := Reach.of_edge heE
  refine ⟨⟨?_, ?_⟩, ?_⟩
  · exact (g.mem_keys_get_edges_by_vertex _).2 (Or.inr ⟨e, heE, Or.inl rfl⟩)
  · exact (g.mem_keys_get_edges_by_vertex _).2 (Or.inr ⟨e, heE, Or.inr rfl⟩)
  · rcases hk with rfl | rfl
    · exact ⟨Reach.refl _ _, hr⟩
    · exact ⟨hr.symm, Reach.refl _ _⟩

/-- The search from a key with the empty set returns the component of the key. -/
theorem graph.populate_component (g : graph) (fuel : Nat)
    (hfuel : g.get_edges_by_vertex.keys.length ≤ fuel) {k : vertex}
    (hk : k ∈ g.get_edges_by_vertex.keys) :
    ∃ C, populate_set_with_connected_vertices g.get_edges_by_vertex fuel k [] = .ok C ∧
      is_component_of (edge_set g.m_edges) C k := by
  have hf : unvisited g.get_edges_by_vertex [] ≤ fuel := by
    unfold unvisited
    refine le_trans (Finset.card_le_card Finset.sdiff_subset) (le_trans ?_ hfuel)
    exact List.toFinset_card_le _
  obtain ⟨C, h1, h2, h3⟩ := populate_spec g.get_edges_by_vertex (Reach (edge_set g.m_edges))
    (Reach.refl _) (fun _ _ _ h1 h2 => h1.trans h2) g.adjacency_closed fuel k [] hk
    (by simp) (by simp) List.Pairwise.nil hf
  refine ⟨C, h1, h3.2.1, fun x => ⟨fun hx => (h3.2.2.2 x hx (by simp)).2, fun hx => ?_⟩⟩
  have hcl : ∀ e ∈ edge_set g.m_edges, ¬ crosses {y | y ∈ C} e := by
    intro e he hc
    apply hc
    constructor
    · intro hs
      have hmem : e ∈ g.get_edges_by_vertex.index e.start :=
        (g.mem_index_get_edges_by_vertex _ _).2 ⟨he, Or.inl rfl⟩
      exact ((h3.2.2.2 _ hs (by simp)).1 e hmem).2
    · intro ht
      have hmem : e ∈ g.get_edges_by_vertex.index e.end_ :=
        (g.mem_index_get_edges_by_vertex _ _).2 ⟨he, Or.inr rfl⟩
      exact ((h3.2.2.2 _ ht (by simp)).1 e hmem).1
  exact (Reach.mem_iff_of_not_crosses hcl hx).1 h2

theorem get_components_fold (g : graph) (fuel : Nat)
    (hfuel : g.get_edges_by_vertex.keys.length ≤ fuel) (ks : List vertex)
    (hks : ∀ k ∈ ks, k ∈ g.get_edges_by_vertex.keys) :
    ∀ acc : components_t, acc.Pairwise (fun x y => lexicographical_compare x y = true) →
      ∃ acc', ks.foldlM (fun components entry => do
          let set ← populate_set_with_connected_vertices g.get_edges_by_vertex fuel entry []
          pure (set_insert lexicographical_compare set components)) acc = Except.ok acc' ∧
        acc'.Pairwise (fun x y => lexicographical_compare x y = true) ∧
        ∀ C, C ∈ acc' ↔ C ∈ acc ∨ ∃ k ∈ ks, is_component_of (edge_set g.m_edges) C k := by
  induction ks with
  | nil =>
    intro acc hacc
    exact ⟨acc, rfl, hacc, by simp⟩
  | cons k ks ih =>
    intro acc hacc
    obtain ⟨C, h1, h2⟩ := g.populate_component fuel hfuel (hks k (List.mem_cons_self _ _))
    obtain ⟨acc', e1, s1, m1⟩ := ih (fun x hx => hks x (List.mem_cons_of_mem _ hx))
      (set_insert lexicographical_compare C acc) (component_insert_sorted C acc hacc)
    refine ⟨acc', ?_, s1, ?_⟩
    · rw [List.foldlM_cons, h1]
      exact e1
    · intro D
      rw [m1 D, mem_component_insert]
      constructor
      · rintro ((rfl | h) | ⟨j, hj, hD⟩)
        · exact Or.inr ⟨k, List.mem_cons_self _ _, h2⟩
        · exact Or.inl h
        · exact Or.inr ⟨j, List.mem_cons_of_mem _ hj, hD⟩
      · rintro (h | ⟨j, hj, hD⟩)
        · exact Or.inl (Or.inr h)
        · rcases List.mem_cons.1 hj with rfl | hj
          · exact Or.inl (Or.inl (hD.eq h2))
          · exact Or.inr ⟨j, hj, hD⟩

/-- Given fuel for every key, `get_components` returns the increasing list of the
components of the keys of the adjacency map. -/
theorem graph.get_components_spec (g : graph) (fuel : Nat)
    (hfuel : g.get_edges_by_vertex.keys.length ≤ fuel) :
    ∃ comps, g.get_components fuel = .ok comps ∧
      comps.Pairwise (fun x y => lexicographical_compare x y = true) ∧
      is_component_list (edge_set g.m_edges) g.get_edges_by_vertex.keys comps := by
  obtain ⟨comps, h1, h2, h3⟩ := get_components_fold g fuel hfuel g.get_edges_by_vertex.keys
    (fun _ h => h) [] List.Pairwise.nil
  refine ⟨comps, h1, h2, components_nodup_of_sorted h2, ?_, ?_⟩
  · intro C hC
    rcases (h3 C).1 hC with h | h
    · simp at h
    · exact h
  · intro k hk
    obtain ⟨C, _, hC⟩ := g.populate_component fuel hfuel hk
    exact ⟨C, (h3 C).2 (Or.inr ⟨k, hk, hC⟩), hC⟩

/-- The parallel component search computes the same value as the sequential one. -/
theorem graph.get_components_parallel_eq (g : graph) (fuel : Nat) :
    g.get_components_parallel fuel = g.get_components fuel := by
  unfold graph.get_components_parallel graph.get_components
  simp only [List.foldlM_map]

/-! ## `get_component_by_vertex` -/

theorem fold_assign_component (C : List vertex) (vs : List vertex) (m : map_t component_t)
    (j : vertex) :
    (vs.foldl (fun map vertex => map.assign vertex C) m).index j =
      if j ∈ vs then C else m.index j := by
  induction vs generalizing m with
  | nil => simp
  | cons v vs ih =>
    rw [List.foldl_cons, ih, map_t.index_assign]
    by_cases h1 : j ∈ vs
    · simp [h1]
    · by_cases h2 : j = v
      · simp [h2]
      · simp [h1, h2]

theorem get_component_by_vertex_fold (comps : List (List vertex)) (m : map_t component_t)
    (j : vertex) :
    (∀ C ∈ comps, j ∉ C) →
      (comps.foldl (fun map component =>
        component.foldl (fun map vertex => map.assign vertex component) map) m).index j =
      m.index j := by
  induction comps generalizing m with
  | nil => intro _; rfl
  | cons C comps ih =>
    intro h
    rw [List.foldl_cons, ih _ (fun D hD => h D (List.mem_cons_of_mem _ hD)),
      fold_assign_component, if_neg (h C (List.mem_cons_self _ _))]

/-- The reverse index maps every vertex of a component to that component, when no vertex
lies in two components. -/
theorem get_component_by_vertex_of_mem (comps : List (List vertex))
    (hdisj : ∀ C ∈ comps, ∀ D ∈ comps, ∀ x, x ∈ C → x ∈ D → C = D) {C : List vertex}
    (hC : C ∈ comps) {j : vertex} (hj : j ∈ C) : (get_component_by_vertex comps).index j = C := by
  unfold get_component_by_vertex
  generalize (map_t.empty : map_t component_t) = m
  induction comps generalizing m with
  | nil => simp at hC
  | cons D comps ih =>
    rw [List.foldl_cons]
    by_cases hex : ∃ D' ∈ comps, j ∈ D'
    · obtain ⟨D', hD', hjD'⟩ := hex
      have hCD' : C = D' := hdisj C hC D' (List.mem_cons_of_mem _ hD') j hj hjD'
      exact ih (fun A hA B hB => hdisj A (List.mem_cons_of_mem _ hA) B (List.mem_cons_of_mem _ hB))
        (hCD' ▸ hD') _
    · have hno : ∀ D' ∈ comps, j ∉ D' := fun D' hD' hjD' => hex ⟨D', hD', hjD'⟩
      rw [get_component_by_vertex_fold comps _ j hno, fold_assign_component]
      rcases List.mem_cons.1 hC with rfl | hC'
      · rw [if_pos hj]
      · exact absurd hj (hno C hC')

theorem get_component_by_vertex_of_not_mem (comps : List (List vertex)) {j : vertex}
    (hj : ∀ C ∈ comps, j ∉ C) : (get_component_by_vertex comps).index j = [] := by
  unfold get_component_by_vertex
  rw [get_component_by_vertex_fold comps _ j hj]
  exact map_t.index_empty j

/-! ## The cheapest edge of a component -/

theorem min_element_eq_none {α : Type} (comp : α → α → Bool) (l : List α) :
    min_element comp l = none ↔ l = [] := by
  cases l <;> simp [min_element]

theorem min_fold_spec (l : List edge) (a : edge) :
    let r := l.foldl (fun smallest x => if edge.op_lt x smallest then x else smallest) a
    r ∈ a :: l ∧ r ≤ a ∧ ∀ x ∈ l, r ≤ x := by
  induction l generalizing a with
  | nil => simp
  | cons b l ih =>
    simp only [List.foldl_cons]
    by_cases hba : edge.op_lt b a = true
    · obtain ⟨h1, h2, h3⟩ := ih b
      rw [if_pos hba]
      have hlt : b < a := (edge.lt_iff_op_lt b a).2 hba
      refine ⟨List.mem_cons_of_mem _ h1, le_trans h2 (le_of_lt hlt), ?_⟩
      intro x hx
      rcases List.mem_cons.1 hx with rfl | hx
      · exact h2
      · exact h3 x hx
    · obtain ⟨h1, h2, h3⟩ := ih a
      rw [if_neg hba]
      have hle : a ≤ b := (edge.le_iff_not_op_lt a b).2 (by simpa using hba)
      refine ⟨?_, h2, ?_⟩
      · rcases List.mem_cons.1 h1 with h | h
        · rw [h]; simp
        · simp [h]
      · intro x hx
        rcases List.mem_cons.1 hx with rfl | hx
        · exact le_trans h2 hle
        · exact h3 x hx

theorem min_element_some {l : List edge} {m : edge} (h : min_element edge.op_lt l = some m) :
    m ∈ l ∧ ∀ x ∈ l, m ≤ x := by
  cases l with
  | nil => simp [min_element] at h
  | cons a l =>
    simp only [min_element, Option.some.injEq] at h
    obtain ⟨h1, h2, h3⟩ := min_fold_spec l a
    rw [h] at h1 h2 h3
    refine ⟨h1, ?_⟩
    intro x hx
    rcases List.mem_cons.1 hx with rfl | hx
    · exact h2
    · exact h3 x hx

theorem scan_vertex_spec (v2e : vertex_to_edges_map) (v2c : map_t component_t)
    (acc : Option edge) (v : vertex) :
    (scan_vertex v2e v2c acc v = none ↔ acc = none ∧ remaining_edges v2e v2c v = []) ∧
      ∀ m, scan_vertex v2e v2c acc v = some m →
        (acc = some m ∨ m ∈ remaining_edges v2e v2c v) ∧ (∀ a, acc = some a → m ≤ a) ∧
          ∀ e ∈ remaining_edges v2e v2c v, m ≤ e := by
  cases hmin : min_element edge.op_lt (remaining_edges v2e v2c v) with
  | none =>
    have hnil := (min_element_eq_none _ _).1 hmin
    have hsc : scan_vertex v2e v2c acc v = acc := by
      unfold scan_vertex
      simp only [hmin]
    rw [hsc]
    refine ⟨by simp [hnil], ?_⟩
    intro m hm
    refine ⟨Or.inl hm, ?_, by simp [hnil]⟩
    intro a ha
    rw [hm] at ha
    rw [Option.some.inj ha]
  | some p =>
    obtain ⟨hp1, hp2⟩ := min_element_some hmin
    have hne : remaining_edges v2e v2c v ≠ [] := List.ne_nil_of_mem hp1
    cases acc with
    | none =>
      have hsc : scan_vertex v2e v2c none v = some p := by
        unfold scan_vertex
        simp only [hmin]
      rw [hsc]
      refine ⟨by simp [hne], ?_⟩
      intro m hm
      rw [Option.some.injEq] at hm
      subst hm
      exact ⟨Or.inr hp1, by simp, hp2⟩
    | some c =>
      by_cases hpc : edge.op_lt p c = true
      · have hsc : scan_vertex v2e v2c (some c) v = some p := by
          unfold scan_vertex
          simp only [hmin, hpc, if_true]
        rw [hsc]
        have hlt : p < c := (edge.lt_iff_op_lt p c).2 hpc
        refine ⟨by simp, ?_⟩
        intro m hm
        rw [Option.some.injEq] at hm
        subst hm
        refine ⟨Or.inr hp1, ?_, hp2⟩
        intro a ha
        rw [Option.some.injEq] at ha
        subst ha
        exact le_of_lt hlt
      · have hsc : scan_vertex v2e v2c (some c) v = some c := by
          unfold scan_vertex
          simp only [hmin]
          rw [if_neg hpc]
        rw [hsc]
        have hle : c ≤ p := (edge.le_iff_not_op_lt c p).2 (by simpa using hpc)
        refine ⟨by simp, ?_⟩
        intro m hm
        rw [Option.some.injEq] at hm
        subst hm
        refine ⟨Or.inl rfl, ?_, fun e he => le_trans hle (hp2 e he)⟩
        intro a ha
        rw [Option.some.injEq] at ha
        subst ha
        exact le_refl _

theorem scan_fold_spec (v2e : vertex_to_edges_map) (v2c : map_t component_t)
    (vs : List vertex) (acc : Option edge) :
    let r := vs.foldl (scan_vertex v2e v2c) acc
    (r = none ↔ acc = none ∧ ∀ v ∈ vs, remaining_edges v2e v2c v = []) ∧
      ∀ m, r = some m →
        (acc = some m ∨ ∃ v ∈ vs, m ∈ remaining_edges v2e v2c v) ∧ (∀ a, acc = some a → m ≤ a) ∧
          ∀ v ∈ vs, ∀ e ∈ remaining_edges v2e v2c v, m ≤ e := by
  induction vs generalizing acc with
  | nil =>
    simp only [List.foldl_nil, List.not_mem_nil, false_implies, implies_true, and_true,
      false_and, exists_false, or_false, true_and]
    intro m hm
    refine ⟨hm, fun a ha => ?_⟩
    rw [hm, Option.some.injEq] at ha
    rw [ha]
  | cons v vs ih =>
    simp only [List.foldl_cons]
    obtain ⟨s1, s2⟩ := scan_vertex_spec v2e v2c acc v
    obtain ⟨h1, h2⟩ := ih (scan_vertex v2e v2c acc v)
    refine ⟨?_, ?_⟩
    · rw [h1, s1]
      simp only [List.mem_cons, forall_eq_or_imp]
      tauto
    · intro m hm
      obtain ⟨k1, k2, k3⟩ := h2 m hm
      have key : (acc = some m ∨ ∃ w ∈ v :: vs, m ∈ remaining_edges v2e v2c w) ∧
          (∀ a, acc = some a → m ≤ a) ∧ ∀ e ∈ remaining_edges v2e v2c v, m ≤ e := by
        rcases k1 with k1 | ⟨w, hw, hmw⟩
        · obtain ⟨t1, t2, t3⟩ := s2 m k1
          refine ⟨?_, t2, t3⟩
          rcases t1 with t1 | t1
          · exact Or.inl t1
          · exact Or.inr ⟨v, List.mem_cons_self _ _, t1⟩
        · refine ⟨Or.inr ⟨w, List.mem_cons_of_mem _ hw, hmw⟩, ?_, ?_⟩
          · intro a ha
            cases hsc : scan_vertex v2e v2c acc v with
            | none => rw [s1] at hsc; rw [hsc.1] at ha; simp at ha
            | some c =>
              exact le_trans (k2 c hsc) ((s2 c hsc).2.1 a ha)
          · intro e he
            cases hsc : scan_vertex v2e v2c acc v with
            | none => rw [s1] at hsc; rw [hsc.2] at he; simp at he
            | some c =>
              exact le_trans (k2 c hsc) ((s2 c hsc).2.2 e he)
      refine ⟨key.1, key.2.1, ?_⟩
      intro w hw e he
      rcases List.mem_cons.1 hw with rfl | hw
      · exact key.2.2 e he
      · exact k3 w hw e he

/-- The scan of a list of vertices yields the least remaining edge of these vertices in the
edge order, and nothing exactly when no edge remains. -/
theorem cheapest_edge_spec (v2e : vertex_to_edges_map) (v2c : map_t component_t)
    (vs : List vertex) :
    (cheapest_edge v2e v2c vs = none ↔ ∀ v ∈ vs, remaining_edges v2e v2c v = []) ∧
      ∀ m, cheapest_edge v2e v2c vs = some m →
        (∃ v ∈ vs, m ∈ remaining_edges v2e v2c v) ∧
          ∀ v ∈ vs, ∀ e ∈ remaining_edges v2e v2c v, m ≤ e := by
  obtain ⟨h1, h2⟩ := scan_fold_spec v2e v2c vs none
  refine ⟨by simpa using h1, ?_⟩
  intro m hm
  obtain ⟨k1, _, k3⟩ := h2 m hm
  refine ⟨?_, k3⟩
  rcases k1 with k1 | k1
  · simp at k1
  · exact k1

/-! ## One round of the loop -/

/-- For a graph whose edges' endpoints are vertices, `get_components` returns the list of the
components of its vertices, given fuel for every vertex. -/
theorem graph.get_components_of_wf (m : graph)
    (hs : m.m_vertices.Pairwise (fun a b => a < b)) (hc : m.endpoints_in_vertices)
    (fuel : Nat) (hfuel : m.m_vertices.length ≤ fuel) :
    ∃ comps, m.get_components fuel = .ok comps ∧
      comps.Pairwise (fun x y => lexicographical_compare x y = true) ∧
      is_component_list (edge_set m.m_edges) m.m_vertices comps := by
  have hk := m.keys_get_edges_by_vertex hs hc
  have := m.get_components_spec fuel (by rw [hk]; exact hfuel)
  rw [hk] at this
  exact this

theorem mst_inv.endpoints {g mst : graph} (h : mst_inv g mst) (hc : g.endpoints_in_vertices) :
    mst.endpoints_in_vertices := by
  obtain ⟨hv, _, F, hF, hmem⟩ := h
  intro e he
  rw [hv]
  exact hc e (hF.subset e ((hmem e).1 he))

theorem mst_inv.edges_subset {g mst : graph} (h : mst_inv g mst) : ∀ e ∈ mst.m_edges, e ∈ g.m_edges := by
  obtain ⟨_, _, F, hF, hmem⟩ := h
  intro e he
  exact hF.subset e ((hmem e).1 he)

/-- Forest identity for the `mst` variable. -/
theorem mst_inv.length_add_length {g mst : graph} (h : mst_inv g mst)
    (hs : g.m_vertices.Pairwise (fun a b => a < b)) (hc : g.endpoints_in_vertices)
    {comps : List (List vertex)}
    (hcomps : is_component_list (edge_set mst.m_edges) g.m_vertices comps) :
    mst.m_edges.length + comps.length = g.m_vertices.length := by
  have hend := h.endpoints hc
  obtain ⟨hv, hsorted, F, hF, hmem⟩ := h
  have hset : edge_set mst.m_edges = edge_set F := by
    ext e; exact hmem e
  obtain ⟨R, hR⟩ := exists_root_set (edge_set F) g.m_vertices
  have hK : g.m_vertices.Nodup := List.Pairwise.imp (fun hab => Nat.ne_of_lt hab) hs
  have h1 := hF.length_add_card hK hc R hR
  have h2 : comps.length = R.card := by
    rw [hset] at hcomps
    refine hcomps.length_eq_card ?_ hR
    intro e he
    have := hend e ((hmem e).2 he)
    rw [hv] at this
    exact this
  have h3 : mst.m_edges.length = F.length :=
    List.Perm.length_eq ((List.perm_ext_iff_of_nodup (edges_nodup_of_sorted hsorted) hF.nodup).2 hmem)
  omega

theorem crosses_iff_cross_edge {S : Set edge} {K : List vertex} {comps : List (List vertex)}
    (h : is_component_list S K comps) {C : List vertex} (hC : C ∈ comps) {e : edge}
    (hs : e.start ∈ K) (ht : e.end_ ∈ K) :
    crosses {x | x ∈ C} e ↔ cross_edge comps C e := by
  constructor
  · intro hc
    by_cases hsC : e.start ∈ C
    · have htC : e.end_ ∉ C := fun h2 => hc ⟨fun _ => h2, fun _ => hsC⟩
      obtain ⟨D, hD, hDt⟩ := h.2.2 _ ht
      refine ⟨D, hD, ?_, Or.inl ⟨hsC, hDt.mem_self⟩⟩
      intro hDC
      exact htC (hDC ▸ hDt.mem_self)
    · have htC : e.end_ ∈ C := by
        by_contra h2
        exact hc ⟨fun h3 => absurd h3 hsC, fun h3 => absurd h3 h2⟩
      obtain ⟨D, hD, hDs⟩ := h.2.2 _ hs
      refine ⟨D, hD, ?_, Or.inr ⟨htC, hDs.mem_self⟩⟩
      intro hDC
      exact hsC (hDC ▸ hDs.mem_self)
  · rintro ⟨D, hD, hne, ⟨h1, h2⟩ | ⟨h1, h2⟩⟩
    · intro hiff
      exact hne (h.eq_of_mem hD hC h2 (hiff.1 h1))
    · intro hiff
      exact hne (h.eq_of_mem hD hC h2 (hiff.2 h1))

/-- The edges left for a vertex of a component after the erase loop are its incident input
edges with exactly one endpoint in the component. -/
theorem mem_remaining_edges_iff (E : List edge) (adj : vertex_to_edges_map)
    (hadj : ∀ v e, e ∈ adj.index v ↔ e ∈ E ∧ (e.start = v ∨ e.end_ = v))
    {K : List vertex} {S : Set edge} {comps : List (List vertex)}
    (h : is_component_list S K comps) {C : List vertex} (hC : C ∈ comps) {v : vertex}
    (hv : v ∈ C) (e : edge) :
    e ∈ remaining_edges adj (get_component_by_vertex comps) v ↔
      e ∈ E ∧ (e.start = v ∨ e.end_ = v) ∧ crosses {x | x ∈ C} e := by
  unfold remaining_edges
  rw [List.mem_filter, hadj]
  have hdisj : ∀ A ∈ comps, ∀ B ∈ comps, ∀ x, x ∈ A → x ∈ B → A = B :=
    fun A hA B hB x hxA hxB => h.eq_of_mem hA hB hxA hxB
  have hne : C ≠ [] := List.ne_nil_of_mem hv
  have hback : ∀ x, (get_component_by_vertex comps).index x = C → x ∈ C := by
    intro x hx
    by_cases hex : ∃ D ∈ comps, x ∈ D
    · obtain ⟨D, hD, hxD⟩ := hex
      rw [get_component_by_vertex_of_mem comps hdisj hD hxD] at hx
      exact hx ▸ hxD
    · have hno : ∀ D ∈ comps, x ∉ D := fun D hD hxD => hex ⟨D, hD, hxD⟩
      rw [get_component_by_vertex_of_not_mem comps hno] at hx
      exact absurd hx.symm hne
  constructor
  · rintro ⟨⟨heE, hinc⟩, hne⟩
    refine ⟨heE, hinc, ?_⟩
    simp only [Bool.not_eq_true', decide_eq_false_iff_not] at hne
    intro hiff
    apply hne
    have hsC : e.start ∈ C := by
      rcases hinc with h1 | h1
      · rw [h1]; exact hv
      · exact hiff.2 (h1 ▸ hv)
    rw [get_component_by_vertex_of_mem comps hdisj hC hsC,
      get_component_by_vertex_of_mem comps hdisj hC (hiff.1 hsC)]
  · rintro ⟨heE, hinc, hcr⟩
    refine ⟨⟨heE, hinc⟩, ?_⟩
    simp only [Bool.not_eq_true', decide_eq_false_iff_not]
    intro heq
    apply hcr
    rcases hinc with h1 | h1
    · have hs : e.start ∈ C := h1 ▸ hv
      rw [get_component_by_vertex_of_mem comps hdisj hC hs] at heq
      exact ⟨fun _ => hback _ heq.symm, fun _ => hs⟩
    · have ht : e.end_ ∈ C := h1 ▸ hv
      rw [get_component_by_vertex_of_mem comps hdisj hC ht] at heq
      exact ⟨fun _ => ht, fun _ => hback _ heq⟩

/-- The cheapest edge found for a component is the least input edge, in the edge order, that
has exactly one endpoint in the component; none is found exactly when there is no such edge. -/
theorem cheapest_edge_of_component (E : List edge) (adj : vertex_to_edges_map)
    (hadj : ∀ v e, e ∈ adj.index v ↔ e ∈ E ∧ (e.start = v ∨ e.end_ = v))
    {K : List vertex} {S : Set edge} {comps : List (List vertex)}
    (h : is_component_list S K comps) {C : List vertex} (hC : C ∈ comps) (vs : List vertex)
    (hvs : ∀ x, x ∈ vs ↔ x ∈ C) :
    (cheapest_edge adj (get_component_by_vertex comps) vs = none ↔
        ∀ e ∈ E, ¬ crosses {x | x ∈ C} e) ∧
      ∀ m, cheapest_edge adj (get_component_by_vertex comps) vs = some m ↔
        (m ∈ E ∧ crosses {x | x ∈ C} m ∧
          ∀ f ∈ E, crosses {x | x ∈ C} f → m ≤ f) := by
  obtain ⟨h1, h2⟩ := cheapest_edge_spec adj (get_component_by_vertex comps) vs
  have hinc : ∀ f ∈ E, crosses {x | x ∈ C} f → ∃ v ∈ vs,
      f ∈ remaining_edges adj (get_component_by_vertex comps) v := by
    intro f hf hcr
    by_cases hs : f.start ∈ C
    · exact ⟨f.start, (hvs _).2 hs,
        (mem_remaining_edges_iff E adj hadj h hC hs f).2 ⟨hf, Or.inl rfl, hcr⟩⟩
    · have ht : f.end_ ∈ C := by
        by_contra ht
        exact hcr ⟨fun h3 => absurd h3 hs, fun h3 => absurd h3 ht⟩
      exact ⟨f.end_, (hvs _).2 ht,
        (mem_remaining_edges_iff E adj hadj h hC ht f).2 ⟨hf, Or.inr rfl, hcr⟩⟩
  have hnone : cheapest_edge adj (get_component_by_vertex comps) vs = none ↔
      ∀ e ∈ E, ¬ crosses {x | x ∈ C} e := by
    rw [h1]
    constructor
    · intro hnil f hf hcr
      obtain ⟨v, hv, hfv⟩ := hinc f hf hcr
      rw [hnil v hv] at hfv
      simp at hfv
    · intro hno v hv
      rw [List.eq_nil_iff_forall_not_mem]
      intro e he
      have := (mem_remaining_edges_iff E adj hadj h hC ((hvs v).1 hv) e).1 he
      exact hno e this.1 this.2.2
  have hsome : ∀ m, cheapest_edge adj (get_component_by_vertex comps) vs =
      some m → (m ∈ E ∧ crosses {x | x ∈ C} m ∧
          ∀ f ∈ E, crosses {x | x ∈ C} f → m ≤ f) := by
    intro m hm
    obtain ⟨⟨v, hv, hmv⟩, hmin⟩ := h2 m hm
    have := (mem_remaining_edges_iff E adj hadj h hC ((hvs v).1 hv) m).1 hmv
    refine ⟨this.1, this.2.2, ?_⟩
    intro f hf hcr
    obtain ⟨w, hw, hfw⟩ := hinc f hf hcr
    exact hmin w hw f hfw
  refine ⟨hnone, fun m => ⟨hsome m, ?_⟩⟩
  rintro ⟨hmE, hmc, hmin⟩
  cases hch : cheapest_edge adj (get_component_by_vertex comps) vs with
  | none => exact absurd hmc (hnone.1 hch m hmE)
  | some m' =>
    obtain ⟨h1', h2', h3'⟩ := hsome m' hch
    rw [le_antisymm (hmin m' h1' h2') (h3' m hmE hmc)]

theorem add_cheapest_edges_spec (v2e : vertex_to_edges_map) (v2c : map_t component_t)
    (comps : List (List vertex)) (mst : graph) :
    (add_cheapest_edges v2e v2c comps mst).m_vertices = mst.m_vertices ∧
      (mst.m_edges.Pairwise (fun a b => a.op_lt b = true) →
        (add_cheapest_edges v2e v2c comps mst).m_edges.Pairwise (fun a b => a.op_lt b = true)) ∧
      ∀ e, e ∈ (add_cheapest_edges v2e v2c comps mst).m_edges ↔
        e ∈ mst.m_edges ∨ ∃ C ∈ comps, cheapest_edge v2e v2c C = some e := by
  unfold add_cheapest_edges
  induction comps generalizing mst with
  | nil => simp
  | cons C comps ih =>
    rw [List.foldl_cons]
    cases hch : cheapest_edge v2e v2c C with
    | none =>
      obtain ⟨h1, h2, h3⟩ := ih mst
      refine ⟨h1, h2, fun e => ?_⟩
      rw [h3 e]
      constructor
      · rintro (h | ⟨D, hD, hDe⟩)
        · exact Or.inl h
        · exact Or.inr ⟨D, List.mem_cons_of_mem _ hD, hDe⟩
      · rintro (h | ⟨D, hD, hDe⟩)
        · exact Or.inl h
        · rcases List.mem_cons.1 hD with rfl | hD
          · rw [hch] at hDe; simp at hDe
          · exact Or.inr ⟨D, hD, hDe⟩
    | some x =>
      obtain ⟨h1, h2, h3⟩ := ih (mst.add_edge x)
      refine ⟨h1, fun hs => h2 (edge_insert_sorted x _ hs), fun e => ?_⟩
      rw [h3 e]
      simp only [graph.add_edge, mem_edge_insert]
      constructor
      · rintro ((rfl | h) | ⟨D, hD, hDe⟩)
        · exact Or.inr ⟨C, List.mem_cons_self _ _, hch⟩
        · exact Or.inl h
        · exact Or.inr ⟨D, List.mem_cons_of_mem _ hD, hDe⟩
      · rintro (h | ⟨D, hD, hDe⟩)
        · exact Or.inl (Or.inr h)
        · rcases List.mem_cons.1 hD with rfl | hD
          · rw [hch, Option.some.injEq] at hDe
            exact Or.inl (Or.inl hDe.symm)
          · exact Or.inr ⟨D, hD, hDe⟩

/-- A component of the graph of the edges so far is not crossed by any of these edges. -/
theorem is_component_of.not_crosses {S : Set edge} {C : List vertex} {k : vertex}
    (h : is_component_of S C k) {f : edge} (hf : f ∈ S) : ¬ crosses {x | x ∈ C} f := by
  intro hcr
  apply hcr
  have hr : Reach S f.start f.end_ := Reach.of_edge hf
  show f.start ∈ C ↔ f.end_ ∈ C
  rw [h.2, h.2]
  exact ⟨fun h1 => h1.trans hr, fun h1 => h1.trans hr.symm⟩

/-- One pass over the components keeps the invariant, loses no edge, and adds an edge as soon
as some input edge leaves some component. -/
theorem add_cheapest_edges_inv (g mst : graph)
    (hinv : mst_inv g mst) {comps : List (List vertex)}
    (hcomps : is_component_list (edge_set mst.m_edges) g.m_vertices comps) :
    mst_inv g (add_cheapest_edges g.get_edges_by_vertex (get_component_by_vertex comps)
        comps mst) ∧
      mst.m_edges.length ≤ (add_cheapest_edges g.get_edges_by_vertex
        (get_component_by_vertex comps) comps mst).m_edges.length ∧
      ((∃ C ∈ comps, ∃ e ∈ g.m_edges, crosses {x | x ∈ C} e) →
        mst.m_edges.length < (add_cheapest_edges g.get_edges_by_vertex
          (get_component_by_vertex comps) comps mst).m_edges.length) := by
  classical
  obtain ⟨hv, hsorted, F, hF, hmem⟩ := hinv
  obtain ⟨a1, a2, a3⟩ := add_cheapest_edges_spec g.get_edges_by_vertex
    (get_component_by_vertex comps) comps mst
  have hchoice : ∀ C ∈ comps, ∀ m,
      cheapest_edge g.get_edges_by_vertex (get_component_by_vertex comps) C = some m ↔
        (m ∈ g.m_edges ∧ crosses {x | x ∈ C} m ∧
          ∀ f ∈ g.m_edges, crosses {x | x ∈ C} f → m ≤ f) :=
    fun C hC => (cheapest_edge_of_component g.m_edges g.get_edges_by_vertex
      (fun v e => g.mem_index_get_edges_by_vertex v e) hcomps hC C (fun _ => Iff.rfl)).2
  have hnone : ∀ C ∈ comps,
      cheapest_edge g.get_edges_by_vertex (get_component_by_vertex comps) C = none ↔
        ∀ e ∈ g.m_edges, ¬ crosses {x | x ∈ C} e :=
    fun C hC => (cheapest_edge_of_component g.m_edges g.get_edges_by_vertex
      (fun v e => g.mem_index_get_edges_by_vertex v e) hcomps hC C (fun _ => Iff.rfl)).1
  have hM : ∀ m ∈ (comps.filterMap
      (cheapest_edge g.get_edges_by_vertex (get_component_by_vertex comps))).toFinset,
      m ∈ g.m_edges ∧ ∃ C : Set vertex, crosses C m ∧ (∀ f ∈ F, ¬ crosses C f) ∧
        ∀ f ∈ g.m_edges, crosses C f → m ≤ f := by
    intro m hm
    rw [List.mem_toFinset, List.mem_filterMap] at hm
    obtain ⟨C, hC, hCm⟩ := hm
    obtain ⟨h1, h2, h3⟩ := (hchoice C hC m).1 hCm
    obtain ⟨k, _, hk⟩ := hcomps.2.1 C hC
    exact ⟨h1, {x | x ∈ C}, h2, fun f hf => hk.not_crosses ((hmem f).2 hf), h3⟩
  obtain ⟨L, hL, hLF⟩ := hF.append_of_least _ hM
  have hmem' : ∀ e, e ∈ (add_cheapest_edges g.get_edges_by_vertex
      (get_component_by_vertex comps) comps mst).m_edges ↔ e ∈ L ++ F := by
    intro e
    rw [a3 e, List.mem_append, hL e, List.mem_toFinset, List.mem_filterMap, hmem e]
    exact or_comm
  have hlen : (add_cheapest_edges g.get_edges_by_vertex
      (get_component_by_vertex comps) comps mst).m_edges.length = L.length + F.length := by
    rw [← List.length_append]
    exact List.Perm.length_eq
      ((List.perm_ext_iff_of_nodup (edges_nodup_of_sorted (a2 hsorted)) hLF.nodup).2 hmem')
  have hlen0 : mst.m_edges.length = F.length :=
    List.Perm.length_eq ((List.perm_ext_iff_of_nodup (edges_nodup_of_sorted hsorted) hF.nodup).2 hmem)
  refine ⟨⟨a1.trans hv, a2 hsorted, L ++ F, hLF, hmem'⟩, by omega, ?_⟩
  rintro ⟨C, hC, e, he, hcr⟩
  have hsome : ∃ m, cheapest_edge g.get_edges_by_vertex (get_component_by_vertex comps) C =
      some m := by
    cases hch : cheapest_edge g.get_edges_by_vertex (get_component_by_vertex comps) C with
    | none => exact absurd hcr ((hnone C hC).1 hch e he)
    | some m => exact ⟨m, rfl⟩
  obtain ⟨m, hm⟩ := hsome
  have hmL : m ∈ L := by
    rw [hL m, List.mem_toFinset, List.mem_filterMap]
    exact ⟨C, hC, hm⟩
  have : 0 < L.length := List.length_pos_of_mem hmL
  omega

/-- In a connected graph with two components of the edges chosen so far, some input edge
leaves some component. -/
theorem exists_crossing_of_connected {E S : Set edge} {K : List vertex}
    {comps : List (List vertex)} (h : is_component_list S K comps) (hsp : spans E K)
    (hlen : 1 < comps.length) : ∃ C ∈ comps, ∃ e ∈ E, crosses {x | x ∈ C} e := by
  match comps, h, hlen with
  | C :: D :: t, h, _ =>
    obtain ⟨k, hk, hCk⟩ := h.2.1 C (by simp)
    obtain ⟨j, hj, hDj⟩ := h.2.1 D (by simp)
    have hne : C ≠ D := by
      have := h.1
      rw [List.nodup_cons] at this
      intro hCD
      exact this.1 (hCD ▸ List.mem_cons_self _ _)
    have hjC : j ∉ C := fun hjC => hne (h.eq_of_mem (by simp) (by simp) hjC hDj.mem_self)
    refine ⟨C, by simp, ?_⟩
    by_contra hno
    have hno' : ∀ e ∈ E, ¬ crosses {x | x ∈ C} e := fun e he hcr => hno ⟨e, he, hcr⟩
    exact hjC ((Reach.mem_iff_of_not_crosses hno' (hsp k hk j hj)).1 hCk.mem_self)

/-! ## The loop -/

theorem get_components_unique {m : graph} {fuel : Nat} {c1 c2 : components_t}
    (h1 : m.get_components fuel = .ok c1) (h2 : m.get_components fuel = .ok c2) : c1 = c2 := by
  rw [h1] at h2
  exact Except.ok.inj h2

/-- The `while` loop, started in a state that satisfies the invariant with enough fuel, either
returns a graph that satisfies the invariant and has at most one component, or raises the
domain error, the latter only for an input that is not connected. -/
theorem mst_loop_spec (g : graph) (hs : g.m_vertices.Pairwise (fun a b => a < b))
    (hc : g.endpoints_in_vertices) (fuel : Nat) (hfuel : g.m_vertices.length ≤ fuel) :
    ∀ (n : Nat) (mst : graph) (comps : components_t) (last : Nat), mst_inv g mst →
      mst.get_components fuel = .ok comps →
      (1 < comps.length → comps.length = last → ¬ g.connected ∧ 1 ≤ n) →
      (1 < comps.length → comps.length ≠ last → comps.length ≤ n) →
      (∃ mst' comps', mst_loop g.get_edges_by_vertex fuel n mst comps
            (get_component_by_vertex comps) last = .ok mst' ∧
          mst_inv g mst' ∧ mst'.get_components fuel = .ok comps' ∧ comps'.length ≤ 1) ∨
        (mst_loop g.get_edges_by_vertex fuel n mst comps
            (get_component_by_vertex comps) last = .error .domain_error ∧ ¬ g.connected) := by
  intro n
  induction n with
  | zero =>
    intro mst comps last hinv hcomps h1 h2
    have hle : ¬ 1 < comps.length := by
      intro hlt
      by_cases heq : comps.length = last
      · have := (h1 hlt heq).2
        omega
      · have := h2 hlt heq
        omega
    refine Or.inl ⟨mst, comps, ?_, hinv, hcomps, by omega⟩
    simp only [mst_loop, gt_iff_lt, hle, if_false]
  | succ n ih =>
    intro mst comps last hinv hcomps h1 h2
    by_cases hlt : 1 < comps.length
    · by_cases heq : comps.length = last
      · refine Or.inr ⟨?_, (h1 hlt heq).1⟩
        subst heq
        simp only [mst_loop, gt_iff_lt, hlt, if_true]
      · have hvs : mst.m_vertices.Pairwise (fun a b => a < b) := by rw [hinv.1]; exact hs
        obtain ⟨c0, e0, _, l0⟩ := mst.get_components_of_wf hvs (hinv.endpoints hc) fuel
          (by rw [hinv.1]; exact hfuel)
        rw [get_components_unique e0 hcomps, hinv.1] at l0
        obtain ⟨hinv', hlen1, hlen2⟩ := add_cheapest_edges_inv g mst hinv l0
        have hvs' : (add_cheapest_edges g.get_edges_by_vertex (get_component_by_vertex comps)
            comps mst).m_vertices.Pairwise (fun a b => a < b) := by rw [hinv'.1]; exact hs
        obtain ⟨c1, e1, _, l1⟩ := graph.get_components_of_wf _ hvs' (hinv'.endpoints hc) fuel
          (by rw [hinv'.1]; exact hfuel)
        have l1' := l1
        rw [hinv'.1] at l1'
        have f0 := hinv.length_add_length hs hc l0
        have f1 := hinv'.length_add_length hs hc l1'
        have hstep : mst_loop g.get_edges_by_vertex fuel (n + 1) mst comps
            (get_component_by_vertex comps) last =
            mst_loop g.get_edges_by_vertex fuel n
              (add_cheapest_edges g.get_edges_by_vertex (get_component_by_vertex comps) comps mst)
              c1 (get_component_by_vertex c1) comps.length := by
          simp only [mst_loop, gt_iff_lt, hlt, heq, if_true, if_false, e1]
        rw [hstep]
        refine ih _ c1 comps.length hinv' e1 ?_ ?_
        · intro _ heq1
          refine ⟨?_, by have := h2 hlt heq; omega⟩
          intro hconn
          have := hlen2 (exists_crossing_of_connected l0 hconn hlt)
          omega
        · intro _ hne1
          have := h2 hlt heq
          omega
    · refine Or.inl ⟨mst, comps, ?_, hinv, hcomps, by omega⟩
      simp only [mst_loop, gt_iff_lt, hlt, if_false]

theorem fold_add_vertex_spec (vs : List vertex) (m : graph) :
    (vs.foldl (fun mst vertex => mst.add_vertex vertex) m).m_edges = m.m_edges ∧
      (m.m_vertices.Pairwise (fun a b => a < b) →
        (vs.foldl (fun mst vertex => mst.add_vertex vertex) m).m_vertices.Pairwise
          (fun a b => a < b)) ∧
      ∀ x, x ∈ (vs.foldl (fun mst vertex => mst.add_vertex vertex) m).m_vertices ↔
        x ∈ vs ∨ x ∈ m.m_vertices := by
  induction vs generalizing m with
  | nil => simp
  | cons v vs ih =>
    rw [List.foldl_cons]
    obtain ⟨h1, h2, h3⟩ := ih (m.add_vertex v)
    refine ⟨h1, fun h => h2 (vertex_insert_sorted v _ h), fun x => ?_⟩
    rw [h3 x]
    simp only [graph.add_vertex, mem_vertex_insert, List.mem_cons]
    tauto

theorem initial_mst_edges (g : graph) : (initial_mst g).m_edges = [] :=
  (fold_add_vertex_spec g.m_vertices {}).1

theorem initial_mst_vertices (g : graph) (hs : g.m_vertices.Pairwise (fun a b => a < b)) :
    (initial_mst g).m_vertices = g.m_vertices := by
  obtain ⟨_, h2, h3⟩ := fold_add_vertex_spec g.m_vertices {}
  refine sorted_vertices_ext (h2 List.Pairwise.nil) hs (fun x => ?_)
  unfold initial_mst
  rw [h3 x]
  simp

theorem initial_mst_inv (g : graph) (hs : g.m_vertices.Pairwise (fun a b => a < b)) :
    mst_inv g (initial_mst g) := by
  refine ⟨initial_mst_vertices g hs, ?_, [], cut_built.nil, ?_⟩
  · rw [initial_mst_edges]; exact List.Pairwise.nil
  · intro e; rw [initial_mst_edges]

/-- Outcome of `calculate_minimum_spanning_tree` on a graph whose edges' endpoints are
vertices, with fuel for every vertex. -/
theorem calculate_minimum_spanning_tree_spec (g : graph)
    (hs : g.m_vertices.Pairwise (fun a b => a < b)) (hc : g.endpoints_in_vertices)
    (fuel : Nat) (hfuel : g.m_vertices.length ≤ fuel) :
    (∃ mst comps, g.calculate_minimum_spanning_tree fuel = .ok mst ∧ mst_inv g mst ∧
        mst.get_components fuel = .ok comps ∧
        is_component_list (edge_set mst.m_edges) g.m_vertices comps ∧ comps.length ≤ 1) ∨
      (g.calculate_minimum_spanning_tree fuel = .error .domain_error ∧ ¬ g.connected) := by
  have hinv := initial_mst_inv g hs
  have hvs : (initial_mst g).m_vertices.Pairwise (fun a b => a < b) := by
    rw [hinv.1]; exact hs
  obtain ⟨c0, e0, _, l0⟩ := (initial_mst g).get_components_of_wf hvs (hinv.endpoints hc) fuel
    (by rw [hinv.1]; exact hfuel)
  rw [hinv.1] at l0
  have f0 := hinv.length_add_length hs hc l0
  have hunf : g.calculate_minimum_spanning_tree fuel =
      mst_loop g.get_edges_by_vertex fuel fuel (initial_mst g) c0
        (get_component_by_vertex c0) 0 := by
    simp only [graph.calculate_minimum_spanning_tree, e0]
  rw [hunf]
  rcases mst_loop_spec g hs hc fuel hfuel fuel (initial_mst g) c0 0 hinv e0
      (by intro h1 h2; omega) (by intro _ _; omega) with ⟨mst, comps, h1, h2, h3, h4⟩ | h
  · refine Or.inl ⟨mst, comps, h1, h2, h3, ?_, h4⟩
    have hvs' : mst.m_vertices.Pairwise (fun a b => a < b) := by rw [h2.1]; exact hs
    obtain ⟨c1, e1, _, l1⟩ := mst.get_components_of_wf hvs' (h2.endpoints hc) fuel
      (by rw [h2.1]; exact hfuel)
    rw [get_components_unique e1 h3, h2.1] at l1
    exact l1
  · exact Or.inr h

/-! ## The parallel variant -/

theorem add_cheapest_edges_parallel_eq (v2e : vertex_to_edges_map) (v2c : map_t component_t)
    (comps : components_t) (mst : graph) :
    add_cheapest_edges_parallel v2e v2c comps mst = add_cheapest_edges v2e v2c comps mst := by
  unfold add_cheapest_edges_parallel add_cheapest_edges
  simp only [List.foldl_map]

theorem mst_loop_parallel_eq (v2e : vertex_to_edges_map) (fuel : Nat) :
    ∀ (n : Nat) (mst : graph) (comps : components_t) (v2c : map_t component_t) (last : Nat),
      mst_loop_parallel v2e fuel n mst comps v2c last = mst_loop v2e fuel n mst comps v2c last := by
  intro n
  induction n with
  | zero => intro mst comps v2c last; rfl
  | succ n ih =>
    intro mst comps v2c last
    simp only [mst_loop_parallel, mst_loop, add_cheapest_edges_parallel_eq,
      graph.get_components_parallel_eq, ih]

/-! ## More fuel does not change a result -/

theorem error_ne_out_of_fuel {α β : Type} {x : error}
    (h : (Except.error x : Except error α) ≠ .error .out_of_fuel) :
    (Except.error x : Except error β) ≠ .error .out_of_fuel := by
  intro h2
  apply h
  rw [Except.error.injEq] at h2 ⊢
  exact h2

theorem foldlM_stable {α β : Type} (f f' : β → α → Except error β)
    (h : ∀ acc a r, f acc a = r → r ≠ .error .out_of_fuel → f' acc a = r) :
    ∀ (l : List α) (acc : β) (r : Except error β), l.foldlM f acc = r →
      r ≠ .error .out_of_fuel → l.foldlM f' acc = r := by
  intro l
  induction l with
  | nil => intro acc r hr _; exact hr
  | cons a l ih =>
    intro acc r hr hne
    rw [List.foldlM_cons] at hr ⊢
    cases hfa : f acc a with
    | error x =>
      rw [hfa] at hr
      have hr' : r = .error x := hr.symm
      rw [h acc a (.error x) hfa (fun h2 => hne (hr'.trans h2))]
      exact hr
    | ok b =>
      rw [hfa] at hr
      rw [h acc a (.ok b) hfa (by simp)]
      exact ih b r hr hne

theorem populate_stable_succ (map : vertex_to_edges_map) :
    ∀ (fuel : Nat) (v : vertex) (ret : vertices_t) (r : Except error vertices_t),
      populate_set_with_connected_vertices map fuel v ret = r → r ≠ .error .out_of_fuel →
      populate_set_with_connected_vertices map (fuel + 1) v ret = r := by
  intro fuel
  induction fuel with
  | zero =>
    intro v ret r hr hne
    exact absurd hr.symm hne
  | succ k ih =>
    intro v ret r hr hne
    rw [populate_set_with_connected_vertices] at hr ⊢
    cases hat : map.at v with
    | error x =>
      rw [hat] at hr
      exact hr
    | ok edges =>
      rw [hat] at hr
      refine foldlM_stable _ _ ?_ edges _ r hr hne
      intro acc e q hq hqne
      have hvisit : ∀ (x : vertex) (a : vertices_t) (q : Except error vertices_t),
          (if x ∈ a then pure a else populate_set_with_connected_vertices map k x a) = q →
          q ≠ .error .out_of_fuel →
          (if x ∈ a then pure a else populate_set_with_connected_vertices map (k + 1) x a) = q := by
        intro x a q hq hqne
        by_cases hxa : x ∈ a
        · rw [if_pos hxa] at hq ⊢
          exact hq
        · rw [if_neg hxa] at hq ⊢
          exact ih x a q hq hqne
      cases h1 : (if e.start ∈ acc then pure acc
          else populate_set_with_connected_vertices map k e.start acc :
            Except error vertices_t) with
      | error x =>
        have hq' : q = .error x := by
          rw [← hq]
          show (do
            let ret ← (if e.start ∈ acc then pure acc
              else populate_set_with_connected_vertices map k e.start acc)
            (if e.end_ ∈ ret then pure ret
              else populate_set_with_connected_vertices map k e.end_ ret)) = _
          rw [h1]
          rfl
        have h1' := hvisit e.start acc (.error x) h1 (fun h => hqne (hq'.trans h))
        show (do
            let ret ← (if e.start ∈ acc then pure acc
              else populate_set_with_connected_vertices map (k + 1) e.start acc)
            (if e.end_ ∈ ret then pure ret
              else populate_set_with_connected_vertices map (k + 1) e.end_ ret)) = _
        rw [h1', hq']
        rfl
      | ok b =>
        have h1' := hvisit e.start acc (.ok b) h1 (by simp)
        have hq2 : (if e.end_ ∈ b then pure b
            else populate_set_with_connected_vertices map k e.end_ b) = q := by
          rw [← hq]
          show _ = (do
            let ret ← (if e.start ∈ acc then pure acc
              else populate_set_with_connected_vertices map k e.start acc)
            (if e.end_ ∈ ret then pure ret
              else populate_set_with_connected_vertices map k e.end_ ret))
          rw [h1]
          rfl
        show (do
            let ret ← (if e.start ∈ acc then pure acc
              else populate_set_with_connected_vertices map (k + 1) e.start acc)
            (if e.end_ ∈ ret then pure ret
              else populate_set_with_connected_vertices map (k + 1) e.end_ ret)) = _
        rw [h1']
        exact hvisit e.end_ b q hq2 hqne

theorem populate_stable (map : vertex_to_edges_map) {fuel fuel' : Nat} (hle : fuel ≤ fuel')
    (v : vertex) (ret : vertices_t) (r : Except error vertices_t)
    (hr : populate_set_with_connected_vertices map fuel v ret = r)
    (hne : r ≠ .error .out_of_fuel) :
    populate_set_with_connected_vertices map fuel' v ret = r := by
  induction hle with
  | refl => exact hr
  | step _ ih => exact populate_stable_succ map _ v ret r ih hne

theorem graph.get_components_stable (g : graph) {fuel fuel' : Nat} (hle : fuel ≤ fuel')
    (r : Except error components_t) (hr : g.get_components fuel = r)
    (hne : r ≠ .error .out_of_fuel) : g.get_components fuel' = r := by
  unfold graph.get_components at hr ⊢
  refine foldlM_stable _ _ ?_ _ _ r hr hne
  intro acc k q hq hqne
  cases hp : populate_set_with_connected_vertices g.get_edges_by_vertex fuel k [] with
  | error x =>
    have hq' : q = .error x := by
      rw [← hq]
      show (do
        let set ← populate_set_with_connected_vertices g.get_edges_by_vertex fuel k []
        pure (set_insert lexicographical_compare set acc)) = _
      rw [hp]
      rfl
    show (do
        let set ← populate_set_with_connected_vertices g.get_edges_by_vertex fuel' k []
        pure (set_insert lexicographical_compare set acc)) = _
    rw [populate_stable _ hle k [] (.error x) hp
      (error_ne_out_of_fuel (fun h => hqne (hq'.trans h))), hq']
    rfl
  | ok b =>
    show (do
        let set ← populate_set_with_connected_vertices g.get_edges_by_vertex fuel' k []
        pure (set_insert lexicographical_compare set acc)) = _
    rw [populate_stable _ hle k [] (.ok b) hp (by simp), ← hq]
    show _ = (do
        let set ← populate_set_with_connected_vertices g.get_edges_by_vertex fuel k []
        pure (set_insert lexicographical_compare set acc))
    rw [hp]

theorem mst_loop_stable (v2e : vertex_to_edges_map) {fuel fuel' : Nat} (hle : fuel ≤ fuel') :
    ∀ (n n' : Nat), n ≤ n' → ∀ (mst : graph) (comps : components_t) (v2c : map_t component_t)
      (last : Nat) (r : Except error graph), mst_loop v2e fuel n mst comps v2c last = r →
      r ≠ .error .out_of_fuel → mst_loop v2e fuel' n' mst comps v2c last = r := by
  intro n
  induction n with
  | zero =>
    intro n' _ mst comps v2c last r hr hne
    by_cases hlt : 1 < comps.length
    · simp only [mst_loop, gt_iff_lt, hlt, if_true] at hr
      exact absurd hr.symm hne
    · simp only [mst_loop, gt_iff_lt, hlt, if_false] at hr
      cases n' with
      | zero => simp only [mst_loop, gt_iff_lt, hlt, if_false]; exact hr
      | succ m => simp only [mst_loop, gt_iff_lt, hlt, if_false]; exact hr
  | succ n ih =>
    intro n' hn mst comps v2c last r hr hne
    obtain ⟨m, rfl⟩ : ∃ m, n' = m + 1 := ⟨n' - 1, by omega⟩
    by_cases hlt : 1 < comps.length
    · by_cases heq : comps.length = last
      · subst heq
        simp only [mst_loop, gt_iff_lt, hlt, if_true] at hr ⊢
        exact hr
      · simp only [mst_loop, gt_iff_lt, hlt, heq, if_true, if_false] at hr ⊢
        cases hgc : (add_cheapest_edges v2e v2c comps mst).get_components fuel with
        | error x =>
          rw [hgc] at hr
          simp only at hr
          rw [graph.get_components_stable _ hle (.error x) hgc
            (error_ne_out_of_fuel (fun h => hne (hr.symm.trans h)))]
          exact hr
        | ok c =>
          rw [hgc] at hr
          simp only at hr
          rw [graph.get_components_stable _ hle (.ok c) hgc (by simp)]
          exact ih m (by omega) _ _ _ _ r hr hne
    · simp only [mst_loop, gt_iff_lt, hlt, if_false] at hr ⊢
      exact hr

/-- A result other than running out of fuel is the result for every larger fuel. -/
theorem calculate_minimum_spanning_tree_stable (g : graph) {fuel fuel' : Nat}
    (hle : fuel ≤ fuel') (r : Except error graph)
    (hr : g.calculate_minimum_spanning_tree fuel = r) (hne : r ≠ .error .out_of_fuel) :
    g.calculate_minimum_spanning_tree fuel' = r := by
  simp only [graph.calculate_minimum_spanning_tree] at hr ⊢
  cases hgc : (initial_mst g).get_components fuel with
  | error x =>
    rw [hgc] at hr
    simp only at hr
    rw [graph.get_components_stable _ hle (.error x) hgc
            (error_ne_out_of_fuel (fun h => hne (hr.symm.trans h)))]
    exact hr
  | ok c =>
    rw [hgc] at hr
    simp only at hr
    rw [graph.get_components_stable _ hle (.ok c) hgc (by simp)]
    exact mst_loop_stable _ hle fuel fuel' hle _ _ _ _ r hr hne

/-! ## Consequences used by the claims -/

/-- A graph for which `get_components` finds at most one component is connected. -/
theorem graph.connected_of_get_components (g : graph)
    (hs : g.m_vertices.Pairwise (fun a b => a < b)) (hend : g.endpoints_in_vertices)
    (fuel : Nat) (hfuel : g.m_vertices.length ≤ fuel) (comps : components_t)
    (hcomps : g.get_components fuel = .ok comps) (hlen : comps.length ≤ 1) : g.connected := by
  obtain ⟨c0, e0, _, l0⟩ := g.get_components_of_wf hs hend fuel hfuel
  rw [get_components_unique e0 hcomps] at l0
  exact l0.spans_of_length_le_one hlen

theorem graph.has_two_components_iff (g : graph) : g.has_two_components ↔ ¬ g.connected := by
  unfold graph.has_two_components graph.connected
  push_neg
  rfl

/-- The number of components found by `get_components` is at least two exactly for a graph
with two vertices that are not joined. -/
theorem graph.two_le_length_get_components (g : graph)
    (hs : g.m_vertices.Pairwise (fun a b => a < b)) (hend : g.endpoints_in_vertices)
    (fuel : Nat) (hfuel : g.m_vertices.length ≤ fuel) :
    ∃ comps, g.get_components fuel = .ok comps ∧ (g.has_two_components ↔ 2 ≤ comps.length) := by
  obtain ⟨comps, e0, _, l0⟩ := g.get_components_of_wf hs hend fuel hfuel
  refine ⟨comps, e0, ?_⟩
  rw [g.has_two_components_iff]
  constructor
  · intro hnc
    by_contra hlen
    exact hnc (l0.spans_of_length_le_one (by omega))
  · intro hlen hconn
    by_cases hV : g.m_vertices = []
    · match comps, l0, hlen with
      | C :: _, l0, _ =>
        obtain ⟨k, hk, _⟩ := l0.2.1 C (List.mem_cons_self _ _)
        rw [hV] at hk
        simp at hk
    · have := l0.eq_singleton_of_spans hend hs hV hconn
      rw [this] at hlen
      simp at hlen

/-- The result of `calculate_minimum_spanning_tree`, when it returns, satisfies the invariant
and has at most one component. -/
theorem calculate_minimum_spanning_tree_ok (g : graph)
    (hs : g.m_vertices.Pairwise (fun a b => a < b)) (hend : g.endpoints_in_vertices)
    (hconn : g.connected) (fuel : Nat) (hfuel : g.m_vertices.length ≤ fuel) :
    ∃ mst comps, g.calculate_minimum_spanning_tree fuel = .ok mst ∧ mst_inv g mst ∧
      mst.get_components fuel = .ok comps ∧
      is_component_list (edge_set mst.m_edges) g.m_vertices comps ∧ comps.length ≤ 1 := by
  rcases calculate_minimum_spanning_tree_spec g hs hend fuel hfuel with h | h
  · exact h
  · exact absurd hconn h.2

/-! ## The claims -/

/-- C1: on a graph whose edges have both endpoints in its vertex set, with at least one vertex
and every two vertices joined by a path (one component), `calculate_minimum_spanning_tree`
returns, for every fuel that is at least the number of vertices; the returned graph has the
vertex set of the input, exactly `V - 1` edges, and exactly one component, both as a path
property and as computed by `get_components` and `is_connected`. -/
theorem calculate_minimum_spanning_tree_spanning (g : graph) (hwf : g.wf)
    (hend : g.endpoints_in_vertices) (hV : 1 ≤ g.m_vertices.length) (hconn : g.connected)
    (fuel : Nat) (hfuel : g.m_vertices.length ≤ fuel) :
    ∃ mst, g.calculate_minimum_spanning_tree fuel = .ok mst ∧
      mst.m_vertices = g.m_vertices ∧
      mst.m_edges.length = g.m_vertices.length - 1 ∧
      mst.connected ∧
      mst.get_components fuel = .ok [g.m_vertices] ∧
      mst.is_connected fuel = .ok true := by
  obtain ⟨mst, comps, h1, hinv, h3, hlist, hlen⟩ :=
    calculate_minimum_spanning_tree_ok g hwf.2 hend hconn fuel hfuel
  have hsp : spans (edge_set mst.m_edges) g.m_vertices := hlist.spans_of_length_le_one hlen
  have hne : g.m_vertices ≠ [] := by
    intro h
    rw [h] at hV
    simp at hV
  have hme : ∀ e ∈ edge_set mst.m_edges, e.start ∈ g.m_vertices ∧ e.end_ ∈ g.m_vertices := by
    intro e he
    have := hinv.endpoints hend e he
    rw [hinv.1] at this
    exact this
  have hcomps : comps = [g.m_vertices] := hlist.eq_singleton_of_spans hme hwf.2 hne hsp
  have hf := hinv.length_add_length hwf.2 hend hlist
  rw [hcomps] at hf h3
  refine ⟨mst, h1, hinv.1, ?_, ?_, h3, ?_⟩
  · simp only [List.length_singleton] at hf
    omega
  · unfold graph.connected
    rw [hinv.1]
    exact hsp
  · unfold graph.is_connected
    rw [h3]
    rfl

/-- C2: on a connected graph whose edges have both endpoints in its vertex set, the graph
returned by `calculate_minimum_spanning_tree` consists of input edges that join all the
vertices, and the sum of its edge weights (in the natural numbers) is at most the sum of the
weights of every set of input edges that joins all the vertices. -/
theorem calculate_minimum_spanning_tree_minimal (g : graph) (hwf : g.wf)
    (hend : g.endpoints_in_vertices) (hconn : g.connected)
    (fuel : Nat) (hfuel : g.m_vertices.length ≤ fuel) :
    ∃ mst, g.calculate_minimum_spanning_tree fuel = .ok mst ∧
      (∀ e ∈ mst.m_edges, e ∈ g.m_edges) ∧
      spans (edge_set mst.m_edges) g.m_vertices ∧
      ∀ S : Finset edge, (∀ e ∈ S, e ∈ g.m_edges) → spans (↑S : Set edge) g.m_vertices →
        total_weight mst.m_edges ≤ S.sum edge.weight := by
  obtain ⟨mst, comps, h1, hinv, h3, hlist, hlen⟩ :=
    calculate_minimum_spanning_tree_ok g hwf.2 hend hconn fuel hfuel
  refine ⟨mst, h1, hinv.edges_subset, hlist.spans_of_length_le_one hlen, ?_⟩
  intro S hS hsp
  obtain ⟨_, hsorted, F, hF, hmem⟩ := hinv
  obtain ⟨S', _, _, hFS', hw⟩ := hF.exists_superset g.m_vertices hend S hS hsp
  refine le_trans ?_ hw
  unfold total_weight
  rw [← List.sum_toFinset edge.weight (edges_nodup_of_sorted hsorted)]
  refine Finset.sum_le_sum_of_subset ?_
  intro e he
  exact hFS' e ((hmem e).1 (List.mem_toFinset.1 he))

/-- C3: on a graph whose edges have both endpoints in its vertex set,
`calculate_minimum_spanning_tree` terminates (with fuel at least the number of vertices it
returns or raises the domain error, it never runs out of fuel), and it raises the domain error
if and only if the graph has two or more components (two vertices joined by no path;
equivalently `get_components` finds at least two components).  It returns for every connected
graph and for the empty graph, and it raises the error for the vertices `0,1,2,3` with the
edges `(0,1,1)` and `(2,3,1)`. -/
theorem calculate_minimum_spanning_tree_raises_iff (g : graph) (hwf : g.wf)
    (hend : g.endpoints_in_vertices) (fuel : Nat) (hfuel : g.m_vertices.length ≤ fuel) :
    ((∃ mst, g.calculate_minimum_spanning_tree fuel = .ok mst) ∨
        g.calculate_minimum_spanning_tree fuel = .error .domain_error) ∧
      (g.calculate_minimum_spanning_tree fuel = .error .domain_error ↔
        g.has_two_components) ∧
      (∃ comps, g.get_components fuel = .ok comps ∧
        (g.calculate_minimum_spanning_tree fuel = .error .domain_error ↔ 2 ≤ comps.length)) ∧
      (g.connected → ∃ mst, g.calculate_minimum_spanning_tree fuel = .ok mst) ∧
      (g.m_vertices = [] → ∃ mst, g.calculate_minimum_spanning_tree fuel = .ok mst) ∧
      (∀ n, 4 ≤ n →
        disconnected_scenario.calculate_minimum_spanning_tree n = .error .domain_error) := by
  have hspec := calculate_minimum_spanning_tree_spec g hwf.2 hend fuel hfuel
  have hiff : g.calculate_minimum_spanning_tree fuel = .error .domain_error ↔
      g.has_two_components := by
    rw [g.has_two_components_iff]
    constructor
    · intro herr
      rcases hspec with ⟨mst, _, h1, _⟩ | h
      · rw [h1] at herr
        simp at herr
      · exact h.2
    · intro hnc
      rcases hspec with ⟨mst, comps, _, hinv, _, hlist, hlen⟩ | h
      · exfalso
        apply hnc
        intro u hu v hv
        refine (hlist.spans_of_length_le_one hlen u hu v hv).mono ?_
        intro e he
        exact hinv.edges_subset e he
      · exact h.1
  have hconn : g.connected → ∃ mst, g.calculate_minimum_spanning_tree fuel = .ok mst := by
    intro hc
    obtain ⟨mst, _, h1, _⟩ := calculate_minimum_spanning_tree_ok g hwf.2 hend hc fuel hfuel
    exact ⟨mst, h1⟩
  refine ⟨?_, hiff, ?_, hconn, ?_, ?_⟩
  · rcases hspec with ⟨mst, _, h1, _⟩ | h
    · exact Or.inl ⟨mst, h1⟩
    · exact Or.inr h.1
  · obtain ⟨comps, h1, h2⟩ := g.two_le_length_get_components hwf.2 hend fuel hfuel
    exact ⟨comps, h1, hiff.trans h2⟩
  · intro hV
    apply hconn
    intro u hu
    rw [hV] at hu
    simp at hu
  · intro n hn
    exact calculate_minimum_spanning_tree_stable _ hn _ (by decide) (by decide)

/-- C4: the parallel variant, modelled with one independent cheapest-edge task per component
whose results are applied to `mst` after all tasks have finished (and one independent search
per vertex in `get_components_parallel`), has the same outcome as the sequential variant on
every input graph and for every fuel: the same error, or the same returned graph (same vertex
set, same edge set, hence same weight). -/
theorem calculate_minimum_spanning_tree_parallel_eq (g : graph) (fuel : Nat) :
    g.calculate_minimum_spanning_tree_parallel fuel = g.calculate_minimum_spanning_tree fuel := by
  simp only [graph.calculate_minimum_spanning_tree_parallel,
    graph.calculate_minimum_spanning_tree, graph.get_components_parallel_eq,
    mst_loop_parallel_eq]

/-- C5 as stated fails: the graph stores `(0,1,5)`, which is `==` to `(1,0,5)`, and
`add_edge` of `(1,0,5)` makes the number of stored edges two. -/
theorem add_edge_reversed_duplicate_grows :
    one_edge_graph.wf ∧
      (∃ e' ∈ one_edge_graph.m_edges, e'.op_eq ⟨1, 0, 5⟩ = true) ∧
      (one_edge_graph.add_edge ⟨1, 0, 5⟩).m_edges.length = 2 ∧
      one_edge_graph.m_edges.length = 1 := by
  decide

/-- C5 amended: `add_edge` leaves the graph unchanged when an edge with the same stored
start, end and weight is already stored, and otherwise stores one more edge; so the number of
stored edges is unchanged exactly when the same stored triple is present. -/
theorem add_edge_length (g : graph) (hwf : g.wf) (e : edge) :
    (e ∈ g.m_edges → g.add_edge e = g) ∧
      (e ∉ g.m_edges → (g.add_edge e).m_edges.length = g.m_edges.length + 1) ∧
      ((g.add_edge e).m_edges.length = g.m_edges.length ↔ e ∈ g.m_edges) := by
  have h1 : e ∈ g.m_edges → g.add_edge e = g := by
    intro he
    unfold graph.add_edge
    rw [set_insert_of_mem edge.op_lt edge.op_lt_irrefl (fun _ _ h => edge.op_lt_asymm h) e
      g.m_edges hwf.1 he]
  have h2 : e ∉ g.m_edges → (g.add_edge e).m_edges.length = g.m_edges.length + 1 := by
    intro he
    exact length_set_insert_of_not_mem edge.op_lt (fun _ _ h1 h2 => edge.eq_of_not_op_lt h1 h2)
      e g.m_edges he
  refine ⟨h1, h2, ?_⟩
  constructor
  · intro hlen
    by_contra he
    have := h2 he
    omega
  · intro he
    rw [h1 he]

/-- C6: in any round, that is for any graph `mst` built so far, for the components `comps`
that `get_components` finds for it and for every component `C`, the value of `cheapest_edge`
is the least, in the order of `operator<`, of the input edges with exactly one endpoint in `C`,
and it is `nullptr` exactly when there is no such edge.  When the input's edges have both
endpoints among the vertices of `mst`, as in every round on an input whose edges join its own
vertices, these are the input edges with one endpoint in `C` and the other endpoint in a
different component.  This holds for every order (and repetition) `vs` in which the vertices
of `C` are scanned and every adjacency map `adj` with the same edges per vertex in any order.
For the vertices `1,2,3` with the edges `(1,2,5)` and `(1,3,5)`, the first round's components
are the singletons and the edge chosen for the component of `1` is `(1,2,5)`. -/
theorem cheapest_edge_is_least_cross_edge (g mst : graph) (fuel : Nat)
    (hfuel : mst.get_edges_by_vertex.keys.length ≤ fuel) :
    (∃ comps, mst.get_components fuel = .ok comps ∧
      ∀ C ∈ comps, ∀ (adj : vertex_to_edges_map) (vs : List vertex),
        (∀ v e, e ∈ adj.index v ↔ e ∈ g.get_edges_by_vertex.index v) →
        (∀ x, x ∈ vs ↔ x ∈ C) →
        (∀ m, cheapest_edge adj (get_component_by_vertex comps) vs = some m ↔
          (m ∈ g.m_edges ∧ crosses {x | x ∈ C} m ∧
            ∀ f ∈ g.m_edges, crosses {x | x ∈ C} f → f.op_lt m = false)) ∧
        (cheapest_edge adj (get_component_by_vertex comps) vs = none ↔
          ∀ f ∈ g.m_edges, ¬ crosses {x | x ∈ C} f) ∧
        ((∀ f ∈ g.m_edges, f.start ∈ mst.m_vertices ∧ f.end_ ∈ mst.m_vertices) →
          ∀ f ∈ g.m_edges, (crosses {x | x ∈ C} f ↔ cross_edge comps C f))) ∧
      (initial_mst tie_scenario).get_components 3 = .ok [[1], [2], [3]] ∧
      cheapest_edge tie_scenario.get_edges_by_vertex
        (get_component_by_vertex [[1], [2], [3]]) [1] = some ⟨1, 2, 5⟩ := by
  refine ⟨?_, by decide, by decide⟩
  obtain ⟨comps, e0, _, l0⟩ := mst.get_components_spec fuel hfuel
  refine ⟨comps, e0, ?_⟩
  intro C hC adj vs hadj hvsC
  have hadj' : ∀ v e, e ∈ adj.index v ↔ e ∈ g.m_edges ∧ (e.start = v ∨ e.end_ = v) :=
    fun v e => (hadj v e).trans (g.mem_index_get_edges_by_vertex v e)
  obtain ⟨k1, k2⟩ := cheapest_edge_of_component g.m_edges adj hadj' l0 hC vs hvsC
  refine ⟨?_, k1, ?_⟩
  · intro m
    rw [k2 m]
    constructor
    · rintro ⟨h1, h2, h3⟩
      exact ⟨h1, h2, fun f hf hfc => (edge.le_iff_not_op_lt m f).1 (h3 f hf hfc)⟩
    · rintro ⟨h1, h2, h3⟩
      exact ⟨h1, h2, fun f hf hfc => (edge.le_iff_not_op_lt m f).2 (h3 f hf hfc)⟩
  · intro hin f hf
    have hkey : ∀ x ∈ mst.m_vertices, x ∈ mst.get_edges_by_vertex.keys :=
      fun x hx => (mst.mem_keys_get_edges_by_vertex x).2 (Or.inl hx)
    exact crosses_iff_cross_edge l0 hC (hkey _ (hin f hf).1) (hkey _ (hin f hf).2)

/-- C7: for `scenario_graph`, the vertices `0,1,2,3` and the edges `(0,1,1)`, `(1,2,2)`,
`(2,3,3)`, `(0,3,10)`, `(0,2,5)`, `calculate_minimum_spanning_tree` returns (for every fuel from 4 on) the graph with
the same vertices and exactly the edges `(0,1,1)`, `(1,2,2)`, `(2,3,3)`, of total weight 6. -/
theorem calculate_minimum_spanning_tree_scenario (fuel : Nat) (hfuel : 4 ≤ fuel) :
    scenario_graph.calculate_minimum_spanning_tree fuel =
      .ok ⟨[⟨0, 1, 1⟩, ⟨1, 2, 2⟩, ⟨2, 3, 3⟩], [0, 1, 2, 3]⟩ ∧
      total_weight [⟨0, 1, 1⟩, ⟨1, 2, 2⟩, ⟨2, 3, 3⟩] = 6 :=
  ⟨calculate_minimum_spanning_tree_stable _ hfuel _ (by decide) (by decide), by decide⟩

/-- C8: for a graph with exactly one vertex and no edges, `calculate_minimum_spanning_tree`
returns the graph with that vertex and no edges; the initial component list has one element,
so the loop returns without any entry allowed (fuel 0 for the loop): its body is not entered. -/
theorem calculate_minimum_spanning_tree_single_vertex (v : vertex) (fuel : Nat)
    (hfuel : 1 ≤ fuel) :
    (graph.mk [] [v]).calculate_minimum_spanning_tree fuel = .ok ⟨[], [v]⟩ ∧
      (initial_mst (graph.mk [] [v])).get_components fuel = .ok [[v]] ∧
      ∀ last, mst_loop (graph.mk [] [v]).get_edges_by_vertex fuel 0 (initial_mst (graph.mk [] [v]))
        [[v]] (get_component_by_vertex [[v]]) last = .ok ⟨[], [v]⟩ := by
  obtain ⟨k, rfl⟩ : ∃ k, fuel = k + 1 := ⟨fuel - 1, by omega⟩
  have hinit : initial_mst (graph.mk [] [v]) = ⟨[], [v]⟩ := rfl
  have hcomp : (graph.mk [] [v]).get_components (k + 1) = .ok [[v]] := by
    simp [graph.get_components, graph.get_edges_by_vertex, map_t.assign, map_t.empty,
      set_insert, populate_set_with_connected_vertices, map_t.at, pure, Except.pure, bind,
      Except.bind]
  refine ⟨?_, ?_, ?_⟩
  · simp only [graph.calculate_minimum_spanning_tree, hinit, hcomp]
    cases k <;> simp [mst_loop]
  · rw [hinit]; exact hcomp
  · intro last
    rw [hinit]
    simp [mst_loop]

/-- C9: `a == b` holds exactly when the weights are equal and the unordered endpoint pairs are
equal; an edge equals its reversal, and edges of different weights are never equal. -/
theorem edge_op_eq_spec :
    (∀ a b : edge, a.op_eq b = true ↔
      a.weight = b.weight ∧ s(a.start, a.end_) = s(b.start, b.end_)) ∧
      (∀ u v : vertex, ∀ w : Nat, (edge.mk u v w).op_eq (edge.mk v u w) = true) ∧
      (∀ a b : edge, a.weight ≠ b.weight → a.op_eq b = false) := by
  refine ⟨?_, ?_, ?_⟩
  · intro a b
    rw [edge.op_eq_iff, Sym2.eq_iff]
  · intro u v w
    rw [edge.op_eq_iff]
    exact ⟨rfl, Or.inr ⟨rfl, rfl⟩⟩
  · intro a b h
    rw [← Bool.not_eq_true, edge.op_eq_iff]
    exact fun h2 => h h2.1

/-- C10: `operator<` is the lexicographic order of the stored triples `(weight, start, end)`:
it is irreflexive and transitive, of two different edges exactly one is less than the other,
and an edge with different endpoints and its reversal are `==` yet strictly ordered. -/
theorem edge_op_lt_strict_total_order :
    (∀ a b : edge, a.op_lt b = true ↔
      toLex (a.weight, toLex (a.start, a.end_)) < toLex (b.weight, toLex (b.start, b.end_))) ∧
      (∀ a : edge, a.op_lt a = false) ∧
      (∀ a b c : edge, a.op_lt b = true → b.op_lt c = true → a.op_lt c = true) ∧
      (∀ a b : edge, a ≠ b →
        (a.op_lt b = true ∧ b.op_lt a = false) ∨ (a.op_lt b = false ∧ b.op_lt a = true)) ∧
      (∀ u v : vertex, ∀ w : Nat, u ≠ v →
        (edge.mk u v w).op_eq (edge.mk v u w) = true ∧
          (((edge.mk u v w).op_lt (edge.mk v u w) = true ∧
              (edge.mk v u w).op_lt (edge.mk u v w) = false) ∨
            ((edge.mk u v w).op_lt (edge.mk v u w) = false ∧
              (edge.mk v u w).op_lt (edge.mk u v w) = true))) := by
  have htri : ∀ a b : edge, a ≠ b →
      (a.op_lt b = true ∧ b.op_lt a = false) ∨ (a.op_lt b = false ∧ b.op_lt a = true) := by
    intro a b hab
    by_cases h1 : a.op_lt b = true
    · exact Or.inl ⟨h1, edge.op_lt_asymm h1⟩
    · have h1f : a.op_lt b = false := by simpa using h1
      by_cases h2 : b.op_lt a = true
      · exact Or.inr ⟨h1f, h2⟩
      · exact absurd (edge.eq_of_not_op_lt h1f (by simpa using h2)) hab
  refine ⟨?_, edge.op_lt_irrefl, fun a b c => edge.op_lt_trans, htri, ?_⟩
  · intro a b
    exact ((edge.lt_iff_op_lt a b).symm.trans Iff.rfl)
  · intro u v w huv
    refine ⟨?_, htri _ _ ?_⟩
    · rw [edge.op_eq_iff]
      exact ⟨rfl, Or.inr ⟨rfl, rfl⟩⟩
    · intro h
      rw [edge.mk.injEq] at h
      exact huv h.1

/-! ## Instances of the claims at the scenario graphs -/

theorem scenario_graph_connected : scenario_graph.connected :=
  scenario_graph.connected_of_get_components (by decide) (by decide) 4 (by decide)
    [[0, 1, 2, 3]] (by decide) (by decide)

/-- C1 at `scenario_graph` with fuel 4. -/
theorem calculate_minimum_spanning_tree_spanning_witness :
    ∃ mst, scenario_graph.calculate_minimum_spanning_tree 4 = .ok mst ∧
      mst.m_vertices = scenario_graph.m_vertices ∧
      mst.m_edges.length = scenario_graph.m_vertices.length - 1 ∧
      mst.connected ∧
      mst.get_components 4 = .ok [scenario_graph.m_vertices] ∧
      mst.is_connected 4 = .ok true :=
  calculate_minimum_spanning_tree_spanning scenario_graph (by decide) (by decide) (by decide)
    scenario_graph_connected 4 (by decide)

/-- C2 at `scenario_graph` with fuel 4. -/
theorem calculate_minimum_spanning_tree_minimal_witness :
    ∃ mst, scenario_graph.calculate_minimum_spanning_tree 4 = .ok mst ∧
      (∀ e ∈ mst.m_edges, e ∈ scenario_graph.m_edges) ∧
      spans (edge_set mst.m_edges) scenario_graph.m_vertices ∧
      ∀ S : Finset edge, (∀ e ∈ S, e ∈ scenario_graph.m_edges) →
        spans (↑S : Set edge) scenario_graph.m_vertices →
        total_weight mst.m_edges ≤ S.sum edge.weight :=
  calculate_minimum_spanning_tree_minimal scenario_graph (by decide) (by decide)
    scenario_graph_connected 4 (by decide)

/-- C3 at `disconnected_scenario` with fuel 4: the error is raised and the graph has two
vertices that are not joined. -/
theorem calculate_minimum_spanning_tree_raises_iff_witness :
    disconnected_scenario.wf ∧ disconnected_scenario.endpoints_in_vertices ∧
      disconnected_scenario.calculate_minimum_spanning_tree 4 = .error .domain_error ∧
      disconnected_scenario.has_two_components :=
  ⟨by decide, by decide, by decide,
    (calculate_minimum_spanning_tree_raises_iff disconnected_scenario (by decide) (by decide) 4
      (by decide)).2.1.1 (by decide)⟩

/-- C5 (amended) at `one_edge_graph`: adding the stored edge `(0,1,5)` again changes nothing. -/
theorem add_edge_length_witness :
    one_edge_graph.wf ∧ one_edge_graph.add_edge ⟨0, 1, 5⟩ = one_edge_graph :=
  ⟨by decide, (add_edge_length one_edge_graph (by decide) ⟨0, 1, 5⟩).1 (by decide)⟩

/-- C6 at `tie_scenario`, first round, component of vertex `1`: the edge found, `(1,2,5)`, is an
input edge with exactly one endpoint in the component and no such edge is less. -/
theorem cheapest_edge_is_least_cross_edge_witness :
    (initial_mst tie_scenario).get_edges_by_vertex.keys.length ≤ 3 ∧
      ((⟨1, 2, 5⟩ : edge) ∈ tie_scenario.m_edges ∧
        crosses {x | x ∈ ([1] : List vertex)} ⟨1, 2, 5⟩ ∧
        ∀ f ∈ tie_scenario.m_edges, crosses {x | x ∈ ([1] : List vertex)} f →
          f.op_lt ⟨1, 2, 5⟩ = false) := by
  refine ⟨by decide, ?_⟩
  obtain ⟨comps, hc, h⟩ :=
    (cheapest_edge_is_least_cross_edge tie_scenario (initial_mst tie_scenario) 3 (by decide)).1
  have hcomps : comps = [[1], [2], [3]] := get_components_unique hc (by decide)
  subst hcomps
  exact ((h [1] (by decide) tie_scenario.get_edges_by_vertex [1] (fun _ _ => Iff.rfl)
    (fun _ => Iff.rfl)).1 ⟨1, 2, 5⟩).1 (by decide)

/-- C7 with fuel 4. -/
theorem calculate_minimum_spanning_tree_scenario_witness :
    scenario_graph.calculate_minimum_spanning_tree 4 =
      .ok ⟨[⟨0, 1, 1⟩, ⟨1, 2, 2⟩, ⟨2, 3, 3⟩], [0, 1, 2, 3]⟩ ∧
      total_weight [⟨0, 1, 1⟩, ⟨1, 2, 2⟩, ⟨2, 3, 3⟩] = 6 :=
  calculate_minimum_spanning_tree_scenario 4 (by decide)

/-- C8 for the vertex `7` with fuel 1. -/
theorem calculate_minimum_spanning_tree_single_vertex_witness :
    (graph.mk [] [7]).calculate_minimum_spanning_tree 1 = .ok ⟨[], [7]⟩ :=
  (calculate_minimum_spanning_tree_single_vertex 7 1 (by decide)).1

/-! ## `has_edge` -/

theorem graph.has_edge_iff (g : graph) (e : edge) :
    g.has_edge e = true ↔
      ∃ x ∈ g.m_edges,
        (e.start = x.start ∧ e.end_ = x.end_) ∨ (e.start = x.end_ ∧ e.end_ = x.start) := by
  simp [graph.has_edge, List.any_eq_true]

/-! ## How often an edge occurs in a vertex's list -/

theorem count_index_push_back (m : vertex_to_edges_map) (e x : edge) (j : vertex) :
    (((m.assign e.start (m.index e.start ++ [e])).assign e.end_
        ((m.assign e.start (m.index e.start ++ [e])).index e.end_ ++ [e])).index j).count x =
      (m.index j).count x +
        (if x = e then (if e.start = j then 1 else 0) + (if e.end_ = j then 1 else 0) else 0) := by
  simp only [map_t.index_assign]
  by_cases hxe : x = e
  · subst hxe
    by_cases hje : j = x.end_
    · subst hje
      by_cases hes : x.end_ = x.start
      · simp [hes, List.count_append]
      · have hse : ¬ x.start = x.end_ := fun h => hes h.symm
        simp [hes, hse, List.count_append]
    · have h2 : ¬ x.end_ = j := fun h => hje h.symm
      by_cases hjs : j = x.start
      · subst hjs
        simp [hje, h2, List.count_append]
      · have h1 : ¬ x.start = j := fun h => hjs h.symm
        simp [hje, hjs, h1, h2]
  · have hex : ¬ e = x := fun h => hxe h.symm
    by_cases hje : j = e.end_
    · subst hje
      by_cases hes : e.end_ = e.start
      · simp [hes, hxe, hex, List.count_append, List.count_cons]
      · simp [hes, hxe, hex, List.count_append, List.count_cons]
    · by_cases hjs : j = e.start
      · subst hjs
        simp [hje, hxe, hex, List.count_append, List.count_cons]
      · simp [hje, hjs, hxe]

theorem fold_push_back_count (es : List edge) (m : vertex_to_edges_map) (x : edge) (j : vertex) :
    ((es.foldl (fun map m_edge =>
      let map := map.assign m_edge.start (map.index m_edge.start ++ [m_edge])
      map.assign m_edge.end_ (map.index m_edge.end_ ++ [m_edge])) m).index j).count x =
      (m.index j).count x +
        es.count x * ((if x.start = j then 1 else 0) + (if x.end_ = j then 1 else 0)) := by
  induction es generalizing m with
  | nil => simp
  | cons e es ih =>
    simp only [List.foldl_cons]
    rw [ih, count_index_push_back, List.count_cons]
    by_cases hxe : x = e
    · subst hxe
      simp only [if_true, beq_self_eq_true]
      ring
    · have hex : ¬ (e == x) = true := by
        intro h
        exact hxe (beq_iff_eq.1 h).symm
      simp only [hxe, if_false, hex, add_zero]
      simp

/-- The number of occurrences of an edge in the list of a vertex. -/
theorem graph.count_index_get_edges_by_vertex (g : graph) (x : edge) (j : vertex) :
    (g.get_edges_by_vertex.index j).count x =
      g.m_edges.count x * ((if x.start = j then 1 else 0) + (if x.end_ = j then 1 else 0)) := by
  unfold graph.get_edges_by_vertex
  rw [fold_push_back_count]
  have h := (fold_assign_nil_spec g.m_vertices map_t.empty).2.2 j
  have h0 : (map_t.empty : vertex_to_edges_map).index j = [] := map_t.index_empty j
  simp only at h
  rw [h, h0]
  simp

/-! ## Components as a sorted list -/

/-- Lists of components, increasing in the order of `components_t`, with the same elements
are equal. -/
theorem sorted_components_ext {l1 l2 : List (List vertex)}
    (h1 : l1.Pairwise (fun x y => lexicographical_compare x y = true))
    (h2 : l2.Pairwise (fun x y => lexicographical_compare x y = true))
    (h : ∀ x, x ∈ l1 ↔ x ∈ l2) : l1 = l2 := by
  haveI : IsAntisymm (List vertex) (fun x y => lexicographical_compare x y = true) :=
    ⟨fun a b hab hba => by
      have := lexicographical_compare_trans a b a hab hba
      rw [lexicographical_compare_irrefl] at this
      exact absurd this Bool.false_ne_true⟩
  exact List.eq_of_perm_of_sorted
    ((List.perm_ext_iff_of_nodup (components_nodup_of_sorted h1)
      (components_nodup_of_sorted h2)).2 h) h1 h2

/-! ## The merge of the parallel component search -/

theorem merge_fold_spec (l : List (Except error vertices_t))
    (hall : ∀ r ∈ l, ∃ C, r = Except.ok C) :
    ∀ acc : components_t, acc.Pairwise (fun x y => lexicographical_compare x y = true) →
      ∃ acc', l.foldlM (fun ret future => do
          let set ← future
          pure (set_insert lexicographical_compare set ret)) acc = Except.ok acc' ∧
        acc'.Pairwise (fun x y => lexicographical_compare x y = true) ∧
        ∀ D, D ∈ acc' ↔ D ∈ acc ∨ Except.ok D ∈ l := by
  induction l with
  | nil =>
    intro acc hacc
    exact ⟨acc, rfl, hacc, by simp⟩
  | cons r l ih =>
    intro acc hacc
    obtain ⟨C, rfl⟩ := hall _ (List.mem_cons_self _ _)
    obtain ⟨acc', e1, s1, m1⟩ := ih (fun x hx => hall x (List.mem_cons_of_mem _ hx))
      (set_insert lexicographical_compare C acc) (component_insert_sorted C acc hacc)
    refine ⟨acc', ?_, s1, ?_⟩
    · rw [List.foldlM_cons]
      exact e1
    · intro D
      rw [m1 D, mem_component_insert, List.mem_cons]
      constructor
      · rintro ((rfl | h) | h)
        · exact Or.inr (Or.inl rfl)
        · exact Or.inl h
        · exact Or.inr (Or.inr h)
      · rintro (h | h | h)
        · exact Or.inl (Or.inr h)
        · exact Or.inl (Or.inl (Except.ok.inj h))
        · exact Or.inr h

/-- Results that all returned are merged into the same set of components in every order. -/
theorem merge_components_perm {l l0 : List (Except error vertices_t)} (hperm : l.Perm l0)
    (hall : ∀ r ∈ l0, ∃ C, r = Except.ok C) : merge_components l = merge_components l0 := by
  have hall' : ∀ r ∈ l, ∃ C, r = Except.ok C := fun r hr => hall r (hperm.mem_iff.1 hr)
  obtain ⟨a, e1, s1, m1⟩ := merge_fold_spec l hall' [] List.Pairwise.nil
  obtain ⟨a0, e0, s0, m0⟩ := merge_fold_spec l0 hall [] List.Pairwise.nil
  unfold merge_components
  rw [e1, e0]
  congr 1
  refine sorted_components_ext s1 s0 (fun D => ?_)
  rw [m1 D, m0 D, hperm.mem_iff]

theorem graph.get_components_parallel_eq_merge (g : graph) (fuel : Nat) :
    g.get_components_parallel fuel =
      merge_components (g.get_edges_by_vertex.keys.map (fun entry =>
        populate_set_with_connected_vertices g.get_edges_by_vertex fuel entry [])) :=
  rfl

/-! ## Isolated vertices -/

theorem is_component_of.eq_singleton {S : Set edge} {C : List vertex} {v : vertex}
    (h : is_component_of S C v) (hv : ∀ e ∈ S, e.start ≠ v ∧ e.end_ ≠ v) : C = [v] := by
  refine sorted_vertices_ext h.1 (List.pairwise_singleton _ _) (fun x => ?_)
  rw [h.2 x, List.mem_singleton]
  constructor
  · intro hr
    have hno : ∀ e ∈ S, ¬ crosses {y | y = v} e := by
      intro e he hc
      apply hc
      exact ⟨fun h1 => absurd h1 (hv e he).1, fun h1 => absurd h1 (hv e he).2⟩
    exact ((Reach.mem_iff_of_not_crosses hno hr).1 rfl)
  · intro hx
    rw [hx]
    exact Reach.refl S v

theorem singleton_is_component_of (S : Set edge) (v : vertex)
    (hv : ∀ e ∈ S, e.start ≠ v ∧ e.end_ ≠ v) : is_component_of S [v] v := by
  refine ⟨List.pairwise_singleton _ _, fun x => ?_⟩
  rw [List.mem_singleton]
  constructor
  · intro hx
    rw [hx]
    exact Reach.refl S v
  · intro hr
    have hno : ∀ e ∈ S, ¬ crosses {y | y = v} e := by
      intro e he hc
      apply hc
      exact ⟨fun h1 => absurd h1 (hv e he).1, fun h1 => absurd h1 (hv e he).2⟩
    exact ((Reach.mem_iff_of_not_crosses hno hr).1 rfl)

/-- A vertex that no edge touches is a component by itself. -/
theorem graph.singleton_mem_get_components (g : graph) (fuel : Nat)
    (hfuel : g.get_edges_by_vertex.keys.length ≤ fuel) {v : vertex} (hv : v ∈ g.m_vertices)
    (hiso : ∀ e ∈ g.m_edges, e.start ≠ v ∧ e.end_ ≠ v) :
    ∃ comps, g.get_components fuel = .ok comps ∧ [v] ∈ comps := by
  obtain ⟨comps, e0, _, l0⟩ := g.get_components_spec fuel hfuel
  refine ⟨comps, e0, ?_⟩
  obtain ⟨C, hC, hCv⟩ := l0.2.2 v ((g.mem_keys_get_edges_by_vertex v).2 (Or.inl hv))
  rw [← hCv.eq_singleton hiso]
  exact hC

/-- The components of a graph without edges are the singletons of its vertices. -/
theorem graph.get_components_of_no_edges (V : List vertex)
    (hs : V.Pairwise (fun a b => a < b)) (fuel : Nat) (hfuel : V.length ≤ fuel) :
    (graph.mk [] V).get_components fuel = .ok (V.map (fun v => [v])) := by
  have hend : (graph.mk [] V).endpoints_in_vertices := by
    intro e he
    simp at he
  obtain ⟨comps, e0, s0, l0⟩ := (graph.mk [] V).get_components_of_wf hs hend fuel hfuel
  rw [e0]
  congr 1
  refine sorted_components_ext s0 ?_ (fun C => ?_)
  · rw [List.pairwise_map]
    refine List.Pairwise.imp ?_ hs
    intro a b hab
    simp [lexicographical_compare, hab]
  · rw [List.mem_map]
    have hiso : ∀ v : vertex, ∀ e ∈ edge_set (graph.mk [] V).m_edges, e.start ≠ v ∧ e.end_ ≠ v := by
      intro v e he
      simp [edge_set] at he
    constructor
    · intro hC
      obtain ⟨k, hk, hCk⟩ := l0.2.1 C hC
      exact ⟨k, hk, (hCk.eq_singleton (hiso k)).symm⟩
    · rintro ⟨k, hk, rfl⟩
      obtain ⟨D, hD, hDk⟩ := l0.2.2 k hk
      rw [← hDk.eq_singleton (hiso k)]
      exact hD

/-! ## The number of calls of the search -/

theorem foldlM_map_fst {α β γ : Type} (f : β → α → Except error β)
    (f' : β × γ → α → Except error (β × γ))
    (h : ∀ acc a, (f' acc a).map Prod.fst = f acc.1 a) :
    ∀ (l : List α) (acc : β × γ), (l.foldlM f' acc).map Prod.fst = l.foldlM f acc.1 := by
  intro l
  induction l with
  | nil => intro acc; rfl
  | cons a l ih =>
    intro acc
    rw [List.foldlM_cons, List.foldlM_cons]
    have ha := h acc a
    cases hfa : f' acc a with
    | error x =>
      rw [hfa] at ha
      rw [← ha]
      rfl
    | ok b =>
      rw [hfa] at ha
      rw [← ha]
      exact ih b

theorem foldlM_ok_invariant {α β : Type} (P : β → Prop) (f : β → α → Except error β)
    (h : ∀ acc a acc', P acc → f acc a = .ok acc' → P acc') :
    ∀ (l : List α) (acc r : β), P acc → l.foldlM f acc = .ok r → P r := by
  intro l
  induction l with
  | nil =>
    intro acc r hP hr
    have : acc = r := Except.ok.inj hr
    exact this ▸ hP
  | cons a l ih =>
    intro acc r hP hr
    rw [List.foldlM_cons] at hr
    cases hfa : f acc a with
    | error x =>
      rw [hfa] at hr
      exact absurd hr (by simp [bind, Except.bind])
    | ok b =>
      rw [hfa] at hr
      exact ih b r (h acc a b hP hfa) hr

/-- The counted search computes the same set as the search. -/
theorem populate_counted_fst (map : vertex_to_edges_map) :
    ∀ (fuel : Nat) (v : vertex) (ret : vertices_t),
      (populate_counted map fuel v ret).map Prod.fst =
        populate_set_with_connected_vertices map fuel v ret := by
  intro fuel
  induction fuel with
  | zero => intro v ret; rfl
  | succ k ih =>
    intro v ret
    rw [populate_counted, populate_set_with_connected_vertices]
    cases hat : map.at v with
    | error x => rfl
    | ok edges =>
      have hvisit : ∀ (x : vertex) (acc : vertices_t × Nat),
          (Except.map Prod.fst (if x ∈ acc.1 then pure acc
            else do
              let r ← populate_counted map k x acc.1
              pure (r.1, acc.2 + r.2)) : Except error vertices_t) =
          (if x ∈ acc.1 then pure acc.1
            else populate_set_with_connected_vertices map k x acc.1) := by
        intro x acc
        by_cases hx : x ∈ acc.1
        · rw [if_pos hx, if_pos hx]
          rfl
        · rw [if_neg hx, if_neg hx, ← ih x acc.1]
          cases populate_counted map k x acc.1 with
          | error y => rfl
          | ok b => rfl
      refine foldlM_map_fst _ _ ?_ edges (set_insert vertex_less v ret, 1)
      intro acc e
      have h1 := hvisit e.start acc
      cases hs : (if e.start ∈ acc.1 then pure acc
          else do
            let r ← populate_counted map k e.start acc.1
            pure (r.1, acc.2 + r.2) : Except error (vertices_t × Nat)) with
      | error y =>
        rw [hs] at h1
        rw [← h1]
        rfl
      | ok b =>
        rw [hs] at h1
        rw [← h1]
        exact hvisit e.end_ b

/-- Every call of the search adds one vertex: the set grows by the number of calls. -/
theorem populate_counted_length (map : vertex_to_edges_map) :
    ∀ (fuel : Nat) (v : vertex) (ret r : vertices_t) (c : Nat),
      populate_counted map fuel v ret = .ok (r, c) → v ∉ ret → r.length = ret.length + c := by
  intro fuel
  induction fuel with
  | zero =>
    intro v ret r c h _
    simp [populate_counted] at h
  | succ k ih =>
    intro v ret r c h hv
    rw [populate_counted] at h
    cases hat : map.at v with
    | error x =>
      rw [hat] at h
      simp [bind, Except.bind] at h
    | ok edges =>
      rw [hat] at h
      have hvisit : ∀ (x : vertex) (acc acc' : vertices_t × Nat),
          acc.1.length = ret.length + acc.2 →
          (if x ∈ acc.1 then pure acc
            else do
              let r ← populate_counted map k x acc.1
              pure (r.1, acc.2 + r.2) : Except error (vertices_t × Nat)) = .ok acc' →
          acc'.1.length = ret.length + acc'.2 := by
        intro x acc acc' hacc hx
        by_cases hxa : x ∈ acc.1
        · rw [if_pos hxa] at hx
          have : acc = acc' := Except.ok.inj hx
          rw [← this]
          exact hacc
        · rw [if_neg hxa] at hx
          cases hp : populate_counted map k x acc.1 with
          | error y =>
            rw [hp] at hx
            simp [bind, Except.bind] at hx
          | ok b =>
            rw [hp] at hx
            have hb : (b.1, acc.2 + b.2) = acc' := Except.ok.inj hx
            have := ih x acc.1 b.1 b.2 hp hxa
            rw [← hb]
            simp only
            omega
      have hinv := foldlM_ok_invariant
        (fun acc : vertices_t × Nat => acc.1.length = ret.length + acc.2) _ ?_ edges
        (set_insert vertex_less v ret, 1) (r, c) ?_ h
      · exact hinv
      · intro acc e acc' hacc hstep
        cases hs : (if e.start ∈ acc.1 then pure acc
            else do
              let r ← populate_counted map k e.start acc.1
              pure (r.1, acc.2 + r.2) : Except error (vertices_t × Nat)) with
        | error y =>
          exfalso
          have : (do
              let acc ← (if e.start ∈ acc.1 then pure acc
                else do
                  let r ← populate_counted map k e.start acc.1
                  pure (r.1, acc.2 + r.2))
              (if e.end_ ∈ acc.1 then pure acc
                else do
                  let r ← populate_counted map k e.end_ acc.1
                  pure (r.1, acc.2 + r.2)) : Except error (vertices_t × Nat)) = .ok acc' := hstep
          rw [hs] at this
          simp [bind, Except.bind] at this
        | ok b =>
          have hb := hvisit e.start acc b hacc hs
          have : (do
              let acc ← (if e.start ∈ acc.1 then pure acc
                else do
                  let r ← populate_counted map k e.start acc.1
                  pure (r.1, acc.2 + r.2))
              (if e.end_ ∈ acc.1 then pure acc
                else do
                  let r ← populate_counted map k e.end_ acc.1
                  pure (r.1, acc.2 + r.2)) : Except error (vertices_t × Nat)) = .ok acc' := hstep
          rw [hs] at this
          exact hvisit e.end_ b acc' hb this
      · show (set_insert vertex_less v ret).length = ret.length + 1
        exact length_set_insert_of_not_mem vertex_less vertex_less_total v ret hv

/-- The search on the adjacency map of a graph, from a key outside an increasing set of keys,
with fuel for every key: it returns, and the set grows by the number of calls. -/
theorem graph.populate_terminates (g : graph) (fuel : Nat)
    (hfuel : g.get_edges_by_vertex.keys.length ≤ fuel) {v : vertex}
    (hv : v ∈ g.get_edges_by_vertex.keys) (ret : vertices_t)
    (hs : ret.Pairwise (fun a b => a < b)) (hk : ∀ y ∈ ret, y ∈ g.get_edges_by_vertex.keys)
    (hvr : v ∉ ret) :
    ∃ ret' c, populate_set_with_connected_vertices g.get_edges_by_vertex fuel v ret = .ok ret' ∧
      populate_counted g.get_edges_by_vertex fuel v ret = .ok (ret', c) ∧
      ret'.length = ret.length + c ∧ ret'.length ≤ g.get_edges_by_vertex.keys.length := by
  have hf : unvisited g.get_edges_by_vertex ret ≤ fuel := by
    unfold unvisited
    refine le_trans (Finset.card_le_card Finset.sdiff_subset) (le_trans ?_ hfuel)
    exact List.toFinset_card_le _
  obtain ⟨ret', h1, _, h3⟩ := populate_spec g.get_edges_by_vertex (Reach (edge_set g.m_edges))
    (Reach.refl _) (fun _ _ _ h1 h2 => h1.trans h2) g.adjacency_closed fuel v ret hv hvr hk hs hf
  have hfst := populate_counted_fst g.get_edges_by_vertex fuel v ret
  rw [h1] at hfst
  cases hc : populate_counted g.get_edges_by_vertex fuel v ret with
  | error x =>
    rw [hc] at hfst
    simp [Except.map] at hfst
  | ok b =>
    rw [hc] at hfst
    have hb : b.1 = ret' := Except.ok.inj hfst
    have hbeq : b = (ret', b.2) := by rw [← hb]
    rw [hbeq] at hc
    refine ⟨ret', b.2, h1, ?_, populate_counted_length _ fuel v ret ret' b.2 hc hvr, ?_⟩
    · rw [hbeq]
    · have hnd : ret'.Nodup := List.Pairwise.imp (fun hab => Nat.ne_of_lt hab) h3.2.1
      exact (List.subperm_of_subset hnd (fun x hx => h3.2.2.1 x hx)).length_le

/-! ## How many edges a round adds -/

/-- The edges added by one pass over the components are counted once each. -/
theorem add_cheapest_edges_length (g mst : graph) (hinv : mst_inv g mst)
    {comps : List (List vertex)}
    (hcomps : is_component_list (edge_set mst.m_edges) g.m_vertices comps) :
    (add_cheapest_edges g.get_edges_by_vertex (get_component_by_vertex comps)
        comps mst).m_edges.length =
      mst.m_edges.length + (comps.filterMap
        (cheapest_edge g.get_edges_by_vertex (get_component_by_vertex comps))).toFinset.card := by
  obtain ⟨_, hsorted, _, _, _⟩ := hinv
  obtain ⟨_, a2, a3⟩ := add_cheapest_edges_spec g.get_edges_by_vertex
    (get_component_by_vertex comps) comps mst
  rw [← List.toFinset_card_of_nodup (edges_nodup_of_sorted (a2 hsorted)),
    ← List.toFinset_card_of_nodup (edges_nodup_of_sorted hsorted),
    ← Finset.card_union_of_disjoint]
  · congr 1
    ext e
    rw [List.mem_toFinset, a3 e, Finset.mem_union, List.mem_toFinset, List.mem_toFinset,
      List.mem_filterMap]
  · rw [Finset.disjoint_left]
    intro e he hm
    rw [List.mem_toFinset] at he
    rw [List.mem_toFinset, List.mem_filterMap] at hm
    obtain ⟨C, hC, hCe⟩ := hm
    obtain ⟨k, _, hk⟩ := hcomps.2.1 C hC
    have hcr := ((cheapest_edge_of_component g.m_edges g.get_edges_by_vertex
      (fun v e => g.mem_index_get_edges_by_vertex v e) hcomps hC C (fun _ => Iff.rfl)).2 e).1 hCe
    exact hk.not_crosses he hcr.2.1

/-- An edge is the cheapest edge of at most two components: when every component finds an
edge, the number of edges found is at least half the number of components. -/
theorem length_le_two_mul_card (g : graph) {S : Set edge} {K : List vertex}
    {comps : List (List vertex)} (h : is_component_list S K comps)
    (hall : ∀ C ∈ comps, ∃ e ∈ g.m_edges, crosses {x | x ∈ C} e) :
    comps.length ≤ 2 * (comps.filterMap
      (cheapest_edge g.get_edges_by_vertex (get_component_by_vertex comps))).toFinset.card := by
  classical
  have hspec := fun C (hC : C ∈ comps) => cheapest_edge_of_component g.m_edges
    g.get_edges_by_vertex (fun v e => g.mem_index_get_edges_by_vertex v e) h hC C
    (fun _ => Iff.rfl)
  have h1 := Finset.card_le_mul_card_image
    (f := cheapest_edge g.get_edges_by_vertex (get_component_by_vertex comps))
    comps.toFinset 2 ?_
  · rw [List.toFinset_card_of_nodup h.1] at h1
    refine le_trans h1 (Nat.mul_le_mul_left 2 ?_)
    refine le_trans (Finset.card_le_card ?_) (Finset.card_image_le (f := some))
    intro b hb
    rw [Finset.mem_image] at hb ⊢
    obtain ⟨C, hC, rfl⟩ := hb
    rw [List.mem_toFinset] at hC
    cases hch : cheapest_edge g.get_edges_by_vertex (get_component_by_vertex comps) C with
    | none =>
      obtain ⟨e, he, hcr⟩ := hall C hC
      exact absurd hcr (((hspec C hC).1).1 hch e he)
    | some m =>
      refine ⟨m, ?_, rfl⟩
      rw [List.mem_toFinset, List.mem_filterMap]
      exact ⟨C, hC, hch⟩
  · intro b hb
    rw [Finset.mem_image] at hb
    obtain ⟨C0, hC0, rfl⟩ := hb
    rw [List.mem_toFinset] at hC0
    cases hch : cheapest_edge g.get_edges_by_vertex (get_component_by_vertex comps) C0 with
    | none =>
      obtain ⟨e, he, hcr⟩ := hall C0 hC0
      exact absurd hcr (((hspec C0 hC0).1).1 hch e he)
    | some m =>
      have hsub : comps.toFinset.filter (fun a =>
          cheapest_edge g.get_edges_by_vertex (get_component_by_vertex comps) a = some m) ⊆
          comps.toFinset.filter (fun a => m.start ∈ a) ∪
            comps.toFinset.filter (fun a => m.end_ ∈ a) := by
        intro a ha
        rw [Finset.mem_filter, List.mem_toFinset] at ha
        have hcr := (((hspec a ha.1).2 m).1 ha.2).2.1
        rw [Finset.mem_union, Finset.mem_filter, Finset.mem_filter, List.mem_toFinset]
        by_cases hs : m.start ∈ a
        · exact Or.inl ⟨ha.1, hs⟩
        · refine Or.inr ⟨ha.1, ?_⟩
          by_contra ht
          exact hcr ⟨fun h3 => absurd h3 hs, fun h3 => absurd h3 ht⟩
      have hA : (comps.toFinset.filter (fun a => m.start ∈ a)).card ≤ 1 := by
        rw [Finset.card_le_one]
        intro a ha b hb
        rw [Finset.mem_filter, List.mem_toFinset] at ha hb
        exact h.eq_of_mem ha.1 hb.1 ha.2 hb.2
      have hB : (comps.toFinset.filter (fun a => m.end_ ∈ a)).card ≤ 1 := by
        rw [Finset.card_le_one]
        intro a ha b hb
        rw [Finset.mem_filter, List.mem_toFinset] at ha hb
        exact h.eq_of_mem ha.1 hb.1 ha.2 hb.2
      have := le_trans (Finset.card_le_card hsub) (Finset.card_union_le _ _)
      omega

/-- In a connected graph with two or more components of the edges chosen so far, some input
edge leaves every component. -/
theorem forall_crossing_of_connected {E S : Set edge} {K : List vertex}
    {comps : List (List vertex)} (h : is_component_list S K comps) (hsp : spans E K)
    (hlen : 1 < comps.length) : ∀ C ∈ comps, ∃ e ∈ E, crosses {x | x ∈ C} e := by
  intro C hC
  have hex : ∃ D ∈ comps, D ≠ C := by
    by_contra hno
    have hsub : ∀ D ∈ comps, D ∈ [C] := by
      intro D hD
      rw [List.mem_singleton]
      by_contra hne
      exact hno ⟨D, hD, hne⟩
    have := (List.subperm_of_subset h.1 hsub).length_le
    simp only [List.length_singleton] at this
    omega
  obtain ⟨D, hD, hne⟩ := hex
  obtain ⟨k, hk, hCk⟩ := h.2.1 C hC
  obtain ⟨j, hj, hDj⟩ := h.2.1 D hD
  have hjC : j ∉ C := fun hjC => hne (h.eq_of_mem hD hC hDj.mem_self hjC)
  by_contra hno
  have hno' : ∀ e ∈ E, ¬ crosses {x | x ∈ C} e := fun e he hcr => hno ⟨e, he, hcr⟩
  exact hjC ((Reach.mem_iff_of_not_crosses hno' (hsp k hk j hj)).1 hCk.mem_self)

/-! ## The number of rounds -/

/-- One round from a state that satisfies the invariant: the components are found again, the
invariant holds again, their number does not grow, and on a connected input it is at most
half of what it was. -/
theorem round_spec (g : graph) (hs : g.m_vertices.Pairwise (fun a b => a < b))
    (hc : g.endpoints_in_vertices) (fuel : Nat) (hfuel : g.m_vertices.length ≤ fuel)
    (mst : graph) (comps : components_t) (hinv : mst_inv g mst)
    (hcomps : mst.get_components fuel = .ok comps) :
    ∃ comps', (add_cheapest_edges g.get_edges_by_vertex (get_component_by_vertex comps)
          comps mst).get_components fuel = .ok comps' ∧
      mst_inv g (add_cheapest_edges g.get_edges_by_vertex (get_component_by_vertex comps)
          comps mst) ∧
      comps'.length ≤ comps.length ∧
      (g.m_vertices ≠ [] → 1 ≤ comps'.length) ∧
      (g.connected → 1 < comps.length → 2 * comps'.length ≤ comps.length) := by
  have hvs : mst.m_vertices.Pairwise (fun a b => a < b) := by rw [hinv.1]; exact hs
  obtain ⟨c0, e0, _, l0⟩ := mst.get_components_of_wf hvs (hinv.endpoints hc) fuel
    (by rw [hinv.1]; exact hfuel)
  rw [get_components_unique e0 hcomps, hinv.1] at l0
  obtain ⟨hinv', hlen1, _⟩ := add_cheapest_edges_inv g mst hinv l0
  have hvs' : (add_cheapest_edges g.get_edges_by_vertex (get_component_by_vertex comps)
      comps mst).m_vertices.Pairwise (fun a b => a < b) := by rw [hinv'.1]; exact hs
  obtain ⟨c1, e1, _, l1⟩ := graph.get_components_of_wf _ hvs' (hinv'.endpoints hc) fuel
    (by rw [hinv'.1]; exact hfuel)
  rw [hinv'.1] at l1
  have f0 := hinv.length_add_length hs hc l0
  have f1 := hinv'.length_add_length hs hc l1
  refine ⟨c1, e1, hinv', by omega, ?_, ?_⟩
  · intro hne
    obtain ⟨k, hk⟩ := List.exists_mem_of_ne_nil _ hne
    obtain ⟨C, hC, _⟩ := l1.2.2 k hk
    exact List.length_pos_of_mem hC
  · intro hconn hlt
    have hall := forall_crossing_of_connected l0 hconn hlt
    have h2 := length_le_two_mul_card g l0 hall
    have h3 := add_cheapest_edges_length g mst hinv l0
    omega

/-- The loop body is entered at most as often as there are components, and only once when
the entry raises the error. -/
theorem mst_loop_entries_le (g : graph) (hs : g.m_vertices.Pairwise (fun a b => a < b))
    (hc : g.endpoints_in_vertices) (fuel : Nat) (hfuel : g.m_vertices.length ≤ fuel) :
    ∀ (n : Nat) (mst : graph) (comps : components_t) (last : Nat), mst_inv g mst →
      mst.get_components fuel = .ok comps →
      mst_loop_entries g.get_edges_by_vertex fuel n mst comps (get_component_by_vertex comps)
          last ≤
        if comps.length ≤ 1 then 0 else if comps.length = last then 1 else comps.length := by
  intro n
  induction n with
  | zero =>
    intro mst comps last _ _
    simp [mst_loop_entries]
  | succ n ih =>
    intro mst comps last hinv hcomps
    by_cases hlt : 1 < comps.length
    · have hle : ¬ comps.length ≤ 1 := by omega
      by_cases heq : comps.length = last
      · subst heq
        simp [mst_loop_entries, hlt, hle]
      · obtain ⟨c1, e1, hinv', hlen, _, _⟩ := round_spec g hs hc fuel hfuel mst comps hinv hcomps
        have hstep : mst_loop_entries g.get_edges_by_vertex fuel (n + 1) mst comps
            (get_component_by_vertex comps) last =
            1 + mst_loop_entries g.get_edges_by_vertex fuel n
              (add_cheapest_edges g.get_edges_by_vertex (get_component_by_vertex comps) comps mst)
              c1 (get_component_by_vertex c1) comps.length := by
          simp only [mst_loop_entries, gt_iff_lt, hlt, heq, if_true, if_false, e1]
        rw [hstep, if_neg hle, if_neg heq]
        have := ih _ c1 comps.length hinv' e1
        split_ifs at this <;> omega
    · have hle : comps.length ≤ 1 := by omega
      simp [mst_loop_entries, hlt, hle]

/-- On a connected input the loop body is entered at most `log2` of the number of components
times. -/
theorem mst_loop_entries_le_log (g : graph) (hs : g.m_vertices.Pairwise (fun a b => a < b))
    (hc : g.endpoints_in_vertices) (hconn : g.connected) (fuel : Nat)
    (hfuel : g.m_vertices.length ≤ fuel) :
    ∀ (n : Nat) (mst : graph) (comps : components_t) (last : Nat), mst_inv g mst →
      mst.get_components fuel = .ok comps → (1 < comps.length → comps.length ≠ last) →
      mst_loop_entries g.get_edges_by_vertex fuel n mst comps (get_component_by_vertex comps)
          last ≤ Nat.log 2 comps.length := by
  intro n
  induction n with
  | zero =>
    intro mst comps last _ _ _
    simp [mst_loop_entries]
  | succ n ih =>
    intro mst comps last hinv hcomps hlast
    by_cases hlt : 1 < comps.length
    · have heq := hlast hlt
      obtain ⟨c1, e1, hinv', _, _, hhalf⟩ := round_spec g hs hc fuel hfuel mst comps hinv hcomps
      have hstep : mst_loop_entries g.get_edges_by_vertex fuel (n + 1) mst comps
          (get_component_by_vertex comps) last =
          1 + mst_loop_entries g.get_edges_by_vertex fuel n
            (add_cheapest_edges g.get_edges_by_vertex (get_component_by_vertex comps) comps mst)
            c1 (get_component_by_vertex c1) comps.length := by
        simp only [mst_loop_entries, gt_iff_lt, hlt, heq, if_true, if_false, e1]
      have h2 := hhalf hconn hlt
      have h3 := ih _ c1 comps.length hinv' e1 (by intro _; omega)
      have h4 : Nat.log 2 c1.length ≤ Nat.log 2 (comps.length / 2) :=
        Nat.log_mono_right ((Nat.le_div_iff_mul_le (by decide)).2 (by omega))
      have h5 : Nat.log 2 comps.length = Nat.log 2 (comps.length / 2) + 1 :=
        Nat.log_of_one_lt_of_le (by decide) hlt
      rw [hstep]
      omega
    · simp [mst_loop_entries, hlt]

/-- The initial state of `calculate_minimum_spanning_tree`: one component per vertex. -/
theorem initial_components (g : graph) (hs : g.m_vertices.Pairwise (fun a b => a < b))
    (hc : g.endpoints_in_vertices) (fuel : Nat) (hfuel : g.m_vertices.length ≤ fuel) :
    ∃ comps, (initial_mst g).get_components fuel = .ok comps ∧
      comps.length = g.m_vertices.length := by
  have hinv := initial_mst_inv g hs
  have hvs : (initial_mst g).m_vertices.Pairwise (fun a b => a < b) := by
    rw [hinv.1]; exact hs
  obtain ⟨c0, e0, _, l0⟩ := (initial_mst g).get_components_of_wf hvs (hinv.endpoints hc) fuel
    (by rw [hinv.1]; exact hfuel)
  rw [hinv.1] at l0
  have f0 := hinv.length_add_length hs hc l0
  rw [initial_mst_edges] at f0
  exact ⟨c0, e0, by simpa using f0⟩

theorem graph.loop_entries_le (g : graph) (hs : g.m_vertices.Pairwise (fun a b => a < b))
    (hc : g.endpoints_in_vertices) (fuel : Nat) (hfuel : g.m_vertices.length ≤ fuel) :
    g.loop_entries fuel ≤ g.m_vertices.length := by
  obtain ⟨c0, e0, hlen⟩ := initial_components g hs hc fuel hfuel
  have h := mst_loop_entries_le g hs hc fuel hfuel fuel (initial_mst g) c0 0
    (initial_mst_inv g hs) e0
  simp only [graph.loop_entries, e0]
  rw [hlen] at h
  split_ifs at h <;> omega

theorem graph.loop_entries_le_log (g : graph) (hs : g.m_vertices.Pairwise (fun a b => a < b))
    (hc : g.endpoints_in_vertices) (hconn : g.connected) (fuel : Nat)
    (hfuel : g.m_vertices.length ≤ fuel) :
    g.loop_entries fuel ≤ Nat.log 2 g.m_vertices.length := by
  obtain ⟨c0, e0, hlen⟩ := initial_components g hs hc fuel hfuel
  have h := mst_loop_entries_le_log g hs hc hconn fuel hfuel fuel (initial_mst g) c0 0
    (initial_mst_inv g hs) e0 (by intro h1; omega)
  simp only [graph.loop_entries, e0]
  rw [hlen] at h
  exact h

/-! ## Components without the ordering of the vertex list -/

/-- For a graph whose edges' endpoints are vertices, `get_components` returns the list of the
components of its vertices, given fuel for every vertex. -/
theorem graph.get_components_of_endpoints (g : graph) (hc : g.endpoints_in_vertices)
    (fuel : Nat) (hfuel : g.m_vertices.length ≤ fuel) :
    ∃ comps, g.get_components fuel = .ok comps ∧
      comps.Pairwise (fun x y => lexicographical_compare x y = true) ∧
      is_component_list (edge_set g.m_edges) g.m_vertices comps := by
  have hmem : ∀ j, j ∈ g.get_edges_by_vertex.keys ↔ j ∈ g.m_vertices := by
    intro j
    rw [g.mem_keys_get_edges_by_vertex]
    constructor
    · rintro (h | ⟨e, he, rfl | rfl⟩)
      · exact h
      · exact (hc e he).1
      · exact (hc e he).2
    · exact Or.inl
  have hnd : g.get_edges_by_vertex.keys.Nodup :=
    List.Pairwise.imp (fun hab => Nat.ne_of_lt hab) g.keys_get_edges_by_vertex_sorted
  have hlen : g.get_edges_by_vertex.keys.length ≤ g.m_vertices.length :=
    (List.subperm_of_subset hnd (fun j hj => (hmem j).1 hj)).length_le
  obtain ⟨comps, e0, s0, n0, a0, b0⟩ := g.get_components_spec fuel (le_trans hlen hfuel)
  refine ⟨comps, e0, s0, n0, fun C hC => ?_, fun k hk => b0 k ((hmem k).2 hk)⟩
  obtain ⟨k, hk, h⟩ := a0 C hC
  exact ⟨k, (hmem k).1 hk, h⟩

/-- If every two vertices are joined and there is a vertex, there is exactly one component. -/
theorem is_component_list.length_eq_one_of_spans {S : Set edge} {K : List vertex}
    {comps : List (List vertex)} (h : is_component_list S K comps) (hne : K ≠ [])
    (hsp : spans S K) : comps.length = 1 := by
  obtain ⟨k, hk⟩ := List.exists_mem_of_ne_nil _ hne
  obtain ⟨C0, hC0, hk0⟩ := h.2.2 k hk
  have hsub : ∀ D ∈ comps, D ∈ [C0] := by
    intro D hD
    rw [List.mem_singleton]
    obtain ⟨j, hj, hDj⟩ := h.2.1 D hD
    exact h.eq_of_mem hD hC0 hDj.mem_self ((hk0.2 j).2 (hsp k hk j hj))
  have h1 := (List.subperm_of_subset h.1 hsub).length_le
  have h2 := List.length_pos_of_mem hC0
  simp only [List.length_singleton] at h1
  omega

/-! ## The count of loop entries does not depend on the fuel -/

theorem mst_loop_entries_stable (v2e : vertex_to_edges_map) {fuel fuel' : Nat}
    (hle : fuel ≤ fuel') :
    ∀ (n n' : Nat), n ≤ n' → ∀ (mst : graph) (comps : components_t) (v2c : map_t component_t)
      (last : Nat), mst_loop v2e fuel n mst comps v2c last ≠ .error .out_of_fuel →
      mst_loop_entries v2e fuel' n' mst comps v2c last =
        mst_loop_entries v2e fuel n mst comps v2c last := by
  intro n
  induction n with
  | zero =>
    intro n' _ mst comps v2c last hne
    by_cases hlt : 1 < comps.length
    · simp only [mst_loop, gt_iff_lt, hlt, if_true] at hne
      exact absurd rfl hne
    · cases n' with
      | zero => rfl
      | succ m => simp only [mst_loop_entries, gt_iff_lt, hlt, if_false]
  | succ n ih =>
    intro n' hn mst comps v2c last hne
    obtain ⟨m, rfl⟩ : ∃ m, n' = m + 1 := ⟨n' - 1, by omega⟩
    by_cases hlt : 1 < comps.length
    · by_cases heq : comps.length = last
      · subst heq
        simp only [mst_loop_entries, gt_iff_lt, hlt, if_true]
      · simp only [mst_loop, gt_iff_lt, hlt, heq, if_true, if_false] at hne
        simp only [mst_loop_entries, gt_iff_lt, hlt, heq, if_true, if_false]
        cases hgc : (add_cheapest_edges v2e v2c comps mst).get_components fuel with
        | error x =>
          rw [hgc] at hne
          simp only at hne
          rw [graph.get_components_stable _ hle (.error x) hgc (error_ne_out_of_fuel hne)]
        | ok c =>
          rw [hgc] at hne
          simp only at hne
          rw [graph.get_components_stable _ hle (.ok c) hgc (by simp)]
          simp only
          rw [ih m (by omega) _ _ _ _ hne]
    · simp only [mst_loop_entries, gt_iff_lt, hlt, if_false]

/-- With fuel for every vertex, the count of loop entries is the same for every larger fuel:
no entry is lost to the fuel. -/
theorem graph.loop_entries_stable (g : graph) (hs : g.m_vertices.Pairwise (fun a b => a < b))
    (hc : g.endpoints_in_vertices) {fuel fuel' : Nat} (hfuel : g.m_vertices.length ≤ fuel)
    (hle : fuel ≤ fuel') : g.loop_entries fuel' = g.loop_entries fuel := by
  have hne : g.calculate_minimum_spanning_tree fuel ≠ .error .out_of_fuel := by
    rcases calculate_minimum_spanning_tree_spec g hs hc fuel hfuel with
      ⟨mst, _, h, _⟩ | ⟨h, _⟩ <;> rw [h] <;> simp
  obtain ⟨c0, e0, _⟩ := initial_components g hs hc fuel hfuel
  have e0' := graph.get_components_stable _ hle (.ok c0) e0 (by simp)
  simp only [graph.calculate_minimum_spanning_tree, e0] at hne
  simp only [graph.loop_entries, e0, e0']
  exact mst_loop_entries_stable _ hle fuel fuel' hle _ _ _ _ hne

/-- An entry with as many components as at the previous entry raises the error. -/
theorem mst_loop_raises_of_same_length (v2e : vertex_to_edges_map) (fuel n : Nat) (mst : graph)
    (comps : components_t) (v2c : map_t component_t) (hlt : 1 < comps.length) :
    mst_loop v2e fuel (n + 1) mst comps v2c comps.length = .error .domain_error := by
  simp only [mst_loop, gt_iff_lt, hlt, if_true]

/-! ## The claims on the component search, the adjacency map and the number of rounds -/

/-- C11 (counterexample): the graph that stores only the edge `(0,1,5)` answers `has_edge` with
true for the edge `(0,1,7)`, although no stored edge is equal to `(0,1,7)` under
`operator==`, which compares the weights too. -/
theorem has_edge_ignores_weight :
    one_edge_graph.has_edge ⟨0, 1, 7⟩ = true ∧
      ¬ ∃ x ∈ one_edge_graph.m_edges, x.op_eq ⟨0, 1, 7⟩ = true := by
  decide

/-- C11 (amended): `has_edge(e)` is true exactly when a stored edge has the endpoints of `e`,
in either order, whatever the two weights; that is, when a stored edge is equal under
`operator==` to `e` taken with the stored edge's weight.  In particular it is true when a
stored edge is equal to `e` under `operator==`. -/
theorem has_edge_iff_same_endpoints (g : graph) (e : edge) :
    (g.has_edge e = true ↔
      ∃ x ∈ g.m_edges,
        (e.start = x.start ∧ e.end_ = x.end_) ∨ (e.start = x.end_ ∧ e.end_ = x.start)) ∧
      (g.has_edge e = true ↔
        ∃ x ∈ g.m_edges, x.op_eq ⟨e.start, e.end_, x.weight⟩ = true) ∧
      ((∃ x ∈ g.m_edges, x.op_eq e = true) → g.has_edge e = true) := by
  refine ⟨g.has_edge_iff e, ?_, ?_⟩
  · rw [g.has_edge_iff e]
    constructor
    · rintro ⟨x, hx, h⟩
      refine ⟨x, hx, ?_⟩
      simp only [edge.op_eq, beq_self_eq_true, Bool.true_and, Bool.or_eq_true,
        Bool.and_eq_true, beq_iff_eq]
      rcases h with h | h
      · exact Or.inl ⟨h.1.symm, h.2.symm⟩
      · exact Or.inr ⟨h.2.symm, h.1.symm⟩
    · rintro ⟨x, hx, h⟩
      refine ⟨x, hx, ?_⟩
      simp only [edge.op_eq, beq_self_eq_true, Bool.true_and, Bool.or_eq_true,
        Bool.and_eq_true, beq_iff_eq] at h
      rcases h with h | h
      · exact Or.inl ⟨h.1.symm, h.2.symm⟩
      · exact Or.inr ⟨h.2.symm, h.1.symm⟩
  · rintro ⟨x, hx, h⟩
    rw [g.has_edge_iff e]
    refine ⟨x, hx, ?_⟩
    simp only [edge.op_eq, Bool.or_eq_true, Bool.and_eq_true, beq_iff_eq] at h
    rcases h.2 with h2 | h2
    · exact Or.inl ⟨h2.1.symm, h2.2.symm⟩
    · exact Or.inr ⟨h2.2.symm, h2.1.symm⟩

/-- C12: for a graph whose edges have both endpoints in its vertex set, `get_components`
returns (for every fuel that is at least the number of vertices) a partition of the vertex
set: the returned components are distinct, each is non-empty, without repetition and made of
vertices of the graph, two different components have no vertex in common, and every vertex of
the graph is in exactly one component. -/
theorem get_components_partition (g : graph) (hc : g.endpoints_in_vertices) (fuel : Nat)
    (hfuel : g.m_vertices.length ≤ fuel) :
    ∃ comps, g.get_components fuel = .ok comps ∧ comps.Nodup ∧
      (∀ C ∈ comps, C ≠ [] ∧ C.Nodup ∧ ∀ x ∈ C, x ∈ g.m_vertices) ∧
      (∀ C ∈ comps, ∀ D ∈ comps, C ≠ D → ∀ x ∈ C, x ∉ D) ∧
      (∀ v ∈ g.m_vertices, ∃! C, C ∈ comps ∧ v ∈ C) := by
  obtain ⟨comps, e0, _, l0⟩ := g.get_components_of_endpoints hc fuel hfuel
  refine ⟨comps, e0, l0.1, ?_, ?_, ?_⟩
  · intro C hC
    obtain ⟨k, hk, hCk⟩ := l0.2.1 C hC
    refine ⟨List.ne_nil_of_mem hCk.mem_self,
      List.Pairwise.imp (fun hab => Nat.ne_of_lt hab) hCk.1, ?_⟩
    intro x hx
    exact reach_mem_of_endpoints (fun e he => hc e he) ((hCk.2 x).1 hx) hk
  · intro C hC D hD hne x hxC hxD
    exact hne (l0.eq_of_mem hC hD hxC hxD)
  · intro v hv
    obtain ⟨C, hC, hCv⟩ := l0.2.2 v hv
    refine ⟨C, ⟨hC, hCv.mem_self⟩, ?_⟩
    rintro D ⟨hD, hvD⟩
    exact l0.eq_of_mem hD hC hvD hCv.mem_self

/-- C13: for a graph whose edges have both endpoints in its vertex set, `get_components`
returns (for every fuel that is at least the number of vertices) components such that two
vertices of the graph lie in the same component exactly when a path of the graph's edges,
each usable in either direction, joins them; and each component is the set of all vertices
joined to any one of its members, so it is a maximal set of mutually reachable vertices. -/
theorem get_components_same_component_iff_path (g : graph) (hc : g.endpoints_in_vertices)
    (fuel : Nat) (hfuel : g.m_vertices.length ≤ fuel) :
    ∃ comps, g.get_components fuel = .ok comps ∧
      (∀ u ∈ g.m_vertices, ∀ v ∈ g.m_vertices,
        ((∃ C ∈ comps, u ∈ C ∧ v ∈ C) ↔ Reach (edge_set g.m_edges) u v)) ∧
      (∀ C ∈ comps, ∀ u ∈ C, ∀ v, v ∈ C ↔ Reach (edge_set g.m_edges) u v) := by
  obtain ⟨comps, e0, _, l0⟩ := g.get_components_of_endpoints hc fuel hfuel
  refine ⟨comps, e0, ?_, ?_⟩
  · intro u hu v _
    constructor
    · rintro ⟨C, hC, huC, hvC⟩
      obtain ⟨k, _, hCk⟩ := l0.2.1 C hC
      exact ((hCk.of_mem huC).2 v).1 hvC
    · intro huv
      obtain ⟨C, hC, hCu⟩ := l0.2.2 u hu
      exact ⟨C, hC, hCu.mem_self, (hCu.2 v).2 huv⟩
  · intro C hC u huC v
    obtain ⟨k, _, hCk⟩ := l0.2.1 C hC
    exact (hCk.of_mem huC).2 v

/-- C14: for a graph whose edges have both endpoints in its vertex set, `is_connected` returns
(for every fuel that is at least the number of vertices), and it returns true exactly when
`get_components` finds one component, which is exactly when the graph has a vertex and every
two of its vertices are joined by a path of its edges; it returns false for the graph without
vertices and for a graph with two vertices that no path joins. -/
theorem is_connected_iff (g : graph) (hc : g.endpoints_in_vertices) (fuel : Nat)
    (hfuel : g.m_vertices.length ≤ fuel) :
    ∃ b comps, g.is_connected fuel = .ok b ∧ g.get_components fuel = .ok comps ∧
      (b = true ↔ comps.length = 1) ∧
      (b = true ↔ g.m_vertices ≠ [] ∧ g.connected) ∧
      (g.m_vertices = [] → b = false) ∧ (g.has_two_components → b = false) := by
  obtain ⟨comps, e0, _, l0⟩ := g.get_components_of_endpoints hc fuel hfuel
  have hb : g.is_connected fuel = .ok (comps.length == 1) := by
    unfold graph.is_connected
    rw [e0]
    rfl
  have hiff : (comps.length == 1) = true ↔ g.m_vertices ≠ [] ∧ g.connected := by
    rw [beq_iff_eq]
    constructor
    · intro hlen
      refine ⟨?_, l0.spans_of_length_le_one (by omega)⟩
      match comps, hlen, l0 with
      | [C], _, l0 =>
        obtain ⟨k, hk, _⟩ := l0.2.1 C (List.mem_singleton_self C)
        exact List.ne_nil_of_mem hk
    · rintro ⟨hne, hconn⟩
      exact l0.length_eq_one_of_spans hne hconn
  refine ⟨comps.length == 1, comps, hb, e0, beq_iff_eq, hiff, ?_, ?_⟩
  · intro hV
    cases hbv : comps.length == 1 with
    | false => rfl
    | true => exact absurd hV (hiff.1 hbv).1
  · intro h2
    cases hbv : comps.length == 1 with
    | false => rfl
    | true => exact absurd (hiff.1 hbv).2 (g.has_two_components_iff.1 h2)

/-- C15: the map returned by `get_edges_by_vertex` has an entry for every vertex of the graph
(`at` returns the vertex's list), the list is empty for a vertex that no edge touches, the
lists hold stored edges only, and a stored edge is in the list of `v` exactly when `v` is its
start or its end; when no edge is stored twice (the edges are a set), an edge with two
different endpoints occurs exactly once in the list of each of its endpoints. -/
theorem get_edges_by_vertex_spec (g : graph) :
    (∀ v ∈ g.m_vertices, v ∈ g.get_edges_by_vertex.keys ∧
      g.get_edges_by_vertex.at v = .ok (g.get_edges_by_vertex.index v)) ∧
      (∀ v ∈ g.m_vertices, (∀ e ∈ g.m_edges, e.start ≠ v ∧ e.end_ ≠ v) →
        g.get_edges_by_vertex.at v = .ok []) ∧
      (∀ v, ∀ e ∈ g.get_edges_by_vertex.index v, e ∈ g.m_edges) ∧
      (∀ v, ∀ e ∈ g.m_edges, (e ∈ g.get_edges_by_vertex.index v ↔ e.start = v ∨ e.end_ = v)) ∧
      (g.m_edges.Nodup → ∀ e ∈ g.m_edges, e.start ≠ e.end_ →
        (g.get_edges_by_vertex.index e.start).count e = 1 ∧
          (g.get_edges_by_vertex.index e.end_).count e = 1) := by
  have hkey : ∀ v ∈ g.m_vertices, v ∈ g.get_edges_by_vertex.keys :=
    fun v hv => (g.mem_keys_get_edges_by_vertex v).2 (Or.inl hv)
  refine ⟨fun v hv => ⟨hkey v hv, map_t.at_eq _ (hkey v hv)⟩, ?_, ?_, ?_, ?_⟩
  · intro v hv hiso
    rw [map_t.at_eq _ (hkey v hv)]
    congr 1
    rw [List.eq_nil_iff_forall_not_mem]
    intro e he
    obtain ⟨h1, h2⟩ := (g.mem_index_get_edges_by_vertex v e).1 he
    rcases h2 with h2 | h2
    · exact (hiso e h1).1 h2
    · exact (hiso e h1).2 h2
  · intro v e he
    exact ((g.mem_index_get_edges_by_vertex v e).1 he).1
  · intro v e he
    rw [g.mem_index_get_edges_by_vertex v e]
    exact ⟨fun h => h.2, fun h => ⟨he, h⟩⟩
  · intro hnd e he hne
    have hcount : g.m_edges.count e = 1 := List.count_eq_one_of_mem hnd he
    rw [g.count_index_get_edges_by_vertex e e.start, g.count_index_get_edges_by_vertex e e.end_,
      hcount, if_pos rfl, if_pos rfl, if_neg hne, if_neg (Ne.symm hne)]
    exact ⟨rfl, rfl⟩

/-- C16: for an input graph whose vertex set is stored in increasing order and whose edges
have both endpoints in it, with any number `V` of vertices and every fuel that is at least
`V`: the body of the `while` loop of `calculate_minimum_spanning_tree` is entered at most `V`
times, the entry that raises the error counted; the count is the one for fuel `V`, so no
entry is lost to the fuel, and the run does not run out of fuel.  The `mst` variable
satisfies `mst_inv` before the loop and after every round, and in every state that satisfies
it with more than one component a round leaves fewer components, or the next entry raises the
domain error. -/
theorem loop_entries_le_vertices (g : graph)
    (hs : g.m_vertices.Pairwise (fun a b => a < b)) (hc : g.endpoints_in_vertices)
    (fuel : Nat) (hfuel : g.m_vertices.length ≤ fuel) :
    g.loop_entries fuel ≤ g.m_vertices.length ∧
      g.loop_entries fuel = g.loop_entries g.m_vertices.length ∧
      g.calculate_minimum_spanning_tree fuel ≠ .error .out_of_fuel ∧
      mst_inv g (initial_mst g) ∧
      ∀ mst comps, mst_inv g mst → mst.get_components fuel = .ok comps → 1 < comps.length →
        ∃ comps',
          (add_cheapest_edges g.get_edges_by_vertex (get_component_by_vertex comps)
            comps mst).get_components fuel = .ok comps' ∧
          mst_inv g (add_cheapest_edges g.get_edges_by_vertex (get_component_by_vertex comps)
            comps mst) ∧
          (comps'.length < comps.length ∨
            ∀ n, mst_loop g.get_edges_by_vertex fuel (n + 1)
              (add_cheapest_edges g.get_edges_by_vertex (get_component_by_vertex comps)
                comps mst)
              comps' (get_component_by_vertex comps') comps.length = .error .domain_error) := by
  refine ⟨g.loop_entries_le hs hc fuel hfuel,
    g.loop_entries_stable hs hc (le_refl _) hfuel, ?_, initial_mst_inv g hs, ?_⟩
  · rcases calculate_minimum_spanning_tree_spec g hs hc fuel hfuel with
      ⟨mst, _, h, _⟩ | ⟨h, _⟩ <;> rw [h] <;> simp
  · intro mst comps hinv hcomps hlt
    obtain ⟨c1, e1, hinv', hlen, _, _⟩ := round_spec g hs hc fuel hfuel mst comps hinv hcomps
    refine ⟨c1, e1, hinv', ?_⟩
    by_cases hlt' : c1.length < comps.length
    · exact Or.inl hlt'
    · refine Or.inr (fun n => ?_)
      have heq : comps.length = c1.length := by omega
      rw [heq]
      exact mst_loop_raises_of_same_length _ fuel n _ c1 _ (by omega)

/-- C17: for a connected input graph whose vertex set is stored in increasing order and whose
edges have both endpoints in it, with any number `V` of vertices and every fuel that is at
least `V`: the body of the `while` loop of `calculate_minimum_spanning_tree` is entered at
most `ceil(log2 V)` times (the count is the one for fuel `V`), and the function returns a
graph.  The `mst` variable satisfies `mst_inv` before the loop and after every round, and in
every state that satisfies it with more than one component a round leaves at most half as
many components. -/
theorem loop_entries_le_clog (g : graph)
    (hs : g.m_vertices.Pairwise (fun a b => a < b)) (hc : g.endpoints_in_vertices)
    (hconn : g.connected) (fuel : Nat) (hfuel : g.m_vertices.length ≤ fuel) :
    g.loop_entries fuel ≤ Nat.clog 2 g.m_vertices.length ∧
      g.loop_entries fuel = g.loop_entries g.m_vertices.length ∧
      (∃ mst, g.calculate_minimum_spanning_tree fuel = .ok mst) ∧
      mst_inv g (initial_mst g) ∧
      ∀ mst comps, mst_inv g mst → mst.get_components fuel = .ok comps → 1 < comps.length →
        ∃ comps',
          (add_cheapest_edges g.get_edges_by_vertex (get_component_by_vertex comps)
            comps mst).get_components fuel = .ok comps' ∧
          mst_inv g (add_cheapest_edges g.get_edges_by_vertex (get_component_by_vertex comps)
            comps mst) ∧
          2 * comps'.length ≤ comps.length := by
  refine ⟨le_trans (g.loop_entries_le_log hs hc hconn fuel hfuel) (Nat.log_le_clog _ _),
    g.loop_entries_stable hs hc (le_refl _) hfuel, ?_, initial_mst_inv g hs, ?_⟩
  · obtain ⟨mst, _, h, _⟩ := calculate_minimum_spanning_tree_ok g hs hc hconn fuel hfuel
    exact ⟨mst, h⟩
  · intro mst comps hinv hcomps hlt
    obtain ⟨c1, e1, hinv', _, _, hhalf⟩ := round_spec g hs hc fuel hfuel mst comps hinv hcomps
    exact ⟨c1, e1, hinv', hhalf hconn hlt⟩

/-- C18: for the adjacency map built by `get_edges_by_vertex` for any graph (cycles,
self-loops and parallel edges included), a seed `v` that is a key of the map and a result set
`ret` of keys, stored in increasing order, that does not hold `v` (the empty set in the
callers): with fuel for every key, `populate_set_with_connected_vertices` returns a set, so
neither the recursion nor `map.at` fails.  The same search with a count of its calls, the
first one included, returns the same set, and the set has grown by exactly the number of
calls: every call was for a vertex that was not yet in the set, and there are at most as many
calls as there are keys. -/
theorem populate_set_with_connected_vertices_terminates (g : graph) (fuel : Nat)
    (hfuel : g.get_edges_by_vertex.keys.length ≤ fuel) (v : vertex)
    (hv : v ∈ g.get_edges_by_vertex.keys) (ret : vertices_t)
    (hs : ret.Pairwise (fun a b => a < b)) (hk : ∀ y ∈ ret, y ∈ g.get_edges_by_vertex.keys)
    (hvr : v ∉ ret) :
    ∃ ret' calls,
      populate_set_with_connected_vertices g.get_edges_by_vertex fuel v ret = .ok ret' ∧
      populate_counted g.get_edges_by_vertex fuel v ret = .ok (ret', calls) ∧
      ret'.length = ret.length + calls ∧
      calls ≤ g.get_edges_by_vertex.keys.length := by
  obtain ⟨ret', c, h1, h2, h3, h4⟩ := g.populate_terminates fuel hfuel hv ret hs hk hvr
  exact ⟨ret', c, h1, h2, h3, by omega⟩

/-- C19: `get_components_parallel`, which merges the results of one search per key of the
adjacency map into a set of sets, returns what `get_components` returns, for every graph and
every fuel; and with fuel for every key, merging the results of the searches in any other
order gives the same set of components. -/
theorem get_components_parallel_any_merge_order (g : graph) (fuel : Nat) :
    g.get_components_parallel fuel = g.get_components fuel ∧
      g.get_components_parallel fuel =
        merge_components (g.get_edges_by_vertex.keys.map (fun entry =>
          populate_set_with_connected_vertices g.get_edges_by_vertex fuel entry [])) ∧
      (g.get_edges_by_vertex.keys.length ≤ fuel →
        ∀ futures : List (Except error vertices_t),
          futures.Perm (g.get_edges_by_vertex.keys.map (fun entry =>
            populate_set_with_connected_vertices g.get_edges_by_vertex fuel entry [])) →
          merge_components futures = g.get_components fuel) := by
  refine ⟨g.get_components_parallel_eq fuel, g.get_components_parallel_eq_merge fuel, ?_⟩
  intro hfuel futures hperm
  rw [← g.get_components_parallel_eq fuel, g.get_components_parallel_eq_merge fuel]
  refine merge_components_perm hperm ?_
  intro r hr
  rw [List.mem_map] at hr
  obtain ⟨k, hk, rfl⟩ := hr
  obtain ⟨C, hC, _⟩ := g.populate_component fuel hfuel hk
  exact ⟨C, hC⟩

/-- C20: with fuel for every key of the adjacency map, `get_components` returns a list that
holds the singleton of every vertex of the graph that is neither the start nor the end of an
edge; for a graph without edges whose vertex set is stored in increasing order it returns
exactly the singletons of the vertices, as many components as vertices, and so it does for
the initial `mst` of `calculate_minimum_spanning_tree`. -/
theorem get_components_isolated_vertex (g : graph) (fuel : Nat)
    (hfuel : g.get_edges_by_vertex.keys.length ≤ fuel) :
    (∀ v ∈ g.m_vertices, (∀ e ∈ g.m_edges, e.start ≠ v ∧ e.end_ ≠ v) →
      ∃ comps, g.get_components fuel = .ok comps ∧ [v] ∈ comps) ∧
      (g.m_edges = [] → g.m_vertices.Pairwise (fun a b => a < b) →
        g.get_components fuel = .ok (g.m_vertices.map (fun v => [v])) ∧
          (g.m_vertices.map (fun v => [v])).length = g.m_vertices.length) ∧
      (g.m_vertices.Pairwise (fun a b => a < b) →
        (initial_mst g).get_components fuel = .ok (g.m_vertices.map (fun v => [v]))) := by
  have hlen : g.m_vertices.Pairwise (fun a b => a < b) → g.m_vertices.length ≤ fuel := by
    intro hs
    have hnd : g.m_vertices.Nodup := List.Pairwise.imp (fun hab => Nat.ne_of_lt hab) hs
    exact le_trans (List.subperm_of_subset hnd
      (fun j hj => (g.mem_keys_get_edges_by_vertex j).2 (Or.inl hj))).length_le hfuel
  refine ⟨fun v hv hiso => g.singleton_mem_get_components fuel hfuel hv hiso, ?_, ?_⟩
  · intro he hs
    have hg : g = graph.mk [] g.m_vertices := by
      cases g
      simp only at he
      rw [he]
    refine ⟨?_, List.length_map _ _⟩
    rw [hg]
    exact graph.get_components_of_no_edges g.m_vertices hs fuel (hlen hs)
  · intro hs
    have hg : initial_mst g = graph.mk [] g.m_vertices := by
      have h1 := initial_mst_edges g
      have h2 := initial_mst_vertices g hs
      cases hi : initial_mst g with
      | mk es vs =>
        rw [hi] at h1 h2
        simp only at h1 h2
        rw [h1, h2]
    rw [hg]
    exact graph.get_components_of_no_edges g.m_vertices hs fuel (hlen hs)

/-! ## Instances of these claims at the scenario graphs -/

/-- C11 (amended) at `one_edge_graph`: the stored edge `(0,1,5)` is equal to its reversal
`(1,0,5)` under `operator==`, so `has_edge` is true for the reversal. -/
theorem has_edge_iff_same_endpoints_witness :
    (∃ x ∈ one_edge_graph.m_edges, x.op_eq ⟨1, 0, 5⟩ = true) ∧
      one_edge_graph.has_edge ⟨1, 0, 5⟩ = true :=
  ⟨by decide, (has_edge_iff_same_endpoints one_edge_graph ⟨1, 0, 5⟩).2.2 (by decide)⟩

/-- C12 at `disconnected_scenario` with fuel 4, where the components are `{0,1}` and
`{2,3}`. -/
theorem get_components_partition_witness :
    disconnected_scenario.get_components 4 = .ok [[0, 1], [2, 3]] ∧
      ∃ comps, disconnected_scenario.get_components 4 = .ok comps ∧ comps.Nodup ∧
        (∀ C ∈ comps, C ≠ [] ∧ C.Nodup ∧ ∀ x ∈ C, x ∈ disconnected_scenario.m_vertices) ∧
        (∀ C ∈ comps, ∀ D ∈ comps, C ≠ D → ∀ x ∈ C, x ∉ D) ∧
        (∀ v ∈ disconnected_scenario.m_vertices, ∃! C, C ∈ comps ∧ v ∈ C) :=
  ⟨by decide, get_components_partition disconnected_scenario (by decide) 4 (by decide)⟩

/-- C13 at `disconnected_scenario` with fuel 4: no path joins the vertices `0` and `2`, which
lie in different components. -/
theorem get_components_same_component_iff_path_witness :
    disconnected_scenario.endpoints_in_vertices ∧
      ¬ Reach (edge_set disconnected_scenario.m_edges) 0 2 := by
  refine ⟨by decide, ?_⟩
  obtain ⟨comps, hc, h, _⟩ :=
    get_components_same_component_iff_path disconnected_scenario (by decide) 4 (by decide)
  have hcomps : comps = [[0, 1], [2, 3]] := get_components_unique hc (by decide)
  subst hcomps
  intro hr
  have := (h 0 (by decide) 2 (by decide)).2 hr
  revert this
  decide

/-- C14 at `disconnected_scenario` with fuel 4: `is_connected` returns false. -/
theorem is_connected_iff_witness :
    disconnected_scenario.endpoints_in_vertices ∧
      disconnected_scenario.is_connected 4 = .ok false ∧
      ¬ disconnected_scenario.connected := by
  refine ⟨by decide, by decide, ?_⟩
  obtain ⟨b, comps, hb, _, _, h, _⟩ := is_connected_iff disconnected_scenario (by decide) 4
    (by decide)
  have hbf : b = false := Except.ok.inj (hb.symm.trans (by decide))
  intro hconn
  rw [hbf] at h
  exact absurd (h.2 ⟨by decide, hconn⟩) (by decide)

/-- C15 at `tie_scenario`: the edge `(1,2,5)` occurs once in the list of the vertex `1` and once
in the list of the vertex `2`. -/
theorem get_edges_by_vertex_spec_witness :
    tie_scenario.m_edges.Nodup ∧
      (tie_scenario.get_edges_by_vertex.index 1).count ⟨1, 2, 5⟩ = 1 ∧
      (tie_scenario.get_edges_by_vertex.index 2).count ⟨1, 2, 5⟩ = 1 :=
  ⟨by decide, (get_edges_by_vertex_spec tie_scenario).2.2.2.2 (by decide) ⟨1, 2, 5⟩ (by decide)
    (by decide)⟩

/-- C16 at `isolated_scenario` with fuel 3: the loop body is entered three times, as often as
there are vertices, the last entry raising the error. -/
theorem loop_entries_le_vertices_witness :
    isolated_scenario.loop_entries 3 = 3 ∧
      isolated_scenario.calculate_minimum_spanning_tree 3 = .error .domain_error ∧
      isolated_scenario.loop_entries 3 ≤ isolated_scenario.m_vertices.length :=
  ⟨by decide, by decide,
    (loop_entries_le_vertices isolated_scenario (by decide) (by decide) 3 (by decide)).1⟩

/-- C17 at `scenario_graph` with fuel 4: one entry, and `ceil(log2 4) = 2`. -/
theorem loop_entries_le_clog_witness :
    scenario_graph.loop_entries 4 = 1 ∧
      scenario_graph.loop_entries 4 ≤ Nat.clog 2 scenario_graph.m_vertices.length :=
  ⟨by decide,
    (loop_entries_le_clog scenario_graph (by decide) (by decide) scenario_graph_connected 4
      (by decide)).1⟩

/-- C18 at `scenario_graph`, which has cycles, from the vertex `0` with the empty set and fuel
4: the search returns all four vertices with four calls. -/
theorem populate_set_with_connected_vertices_terminates_witness :
    populate_counted scenario_graph.get_edges_by_vertex 4 0 [] = .ok ([0, 1, 2, 3], 4) ∧
      ∃ ret' calls,
        populate_set_with_connected_vertices scenario_graph.get_edges_by_vertex 4 0 [] =
          .ok ret' ∧
        populate_counted scenario_graph.get_edges_by_vertex 4 0 [] = .ok (ret', calls) ∧
        ret'.length = ([] : vertices_t).length + calls ∧
        calls ≤ scenario_graph.get_edges_by_vertex.keys.length :=
  ⟨by decide,
    populate_set_with_connected_vertices_terminates scenario_graph 4 (by decide) 0 (by decide)
      [] List.Pairwise.nil (by simp) (by simp)⟩

/-- C19 at `disconnected_scenario` with fuel 4: the results of the four searches merged in the
reverse order give the components that `get_components` returns. -/
theorem get_components_parallel_any_merge_order_witness :
    merge_components ((disconnected_scenario.get_edges_by_vertex.keys.map (fun entry =>
        populate_set_with_connected_vertices disconnected_scenario.get_edges_by_vertex 4
          entry [])).reverse) = disconnected_scenario.get_components 4 :=
  (get_components_parallel_any_merge_order disconnected_scenario 4).2.2 (by decide) _
    (List.reverse_perm _)

/-- C20 at `isolated_scenario` with fuel 3: the vertex `2`, which no edge touches, is a
component by itself. -/
theorem get_components_isolated_vertex_witness :
    isolated_scenario.get_components 3 = .ok [[0, 1], [2]] ∧
      ∃ comps, isolated_scenario.get_components 3 = .ok comps ∧ [2] ∈ comps :=
  ⟨by decide,
    (get_components_isolated_vertex isolated_scenario 3 (by decide)).1 2 (by decide)
      (by decide)⟩

/-! ## Forests -/

/-- An edge between two vertices that are joined already changes no reachability. -/
theorem reach_insert_of_reach {S : Set edge} {f : edge} (h : Reach S f.start f.end_)
    (u v : vertex) : Reach (insert f S) u v ↔ Reach S u v := by
  rw [reach_insert_iff]
  constructor
  · rintro (h1 | ⟨h1, h2⟩ | ⟨h1, h2⟩)
    · exact h1
    · exact (h1.trans h).trans h2
    · exact (h1.trans h.symm).trans h2
  · exact Or.inl

theorem is_root_set.congr {S T : Set edge} {K : List vertex} {R : Finset vertex}
    (hR : is_root_set S K R) (h : ∀ u v, Reach S u v ↔ Reach T u v) : is_root_set T K R := by
  intro k
  rw [hR k]
  constructor
  · rintro ⟨hk, hmin⟩
    exact ⟨hk, fun x hx hr => hmin x hx ((h k x).2 hr)⟩
  · rintro ⟨hk, hmin⟩
    exact ⟨hk, fun x hx hr => hmin x hx ((h k x).1 hr)⟩

/-- Every list of edges leaves at least as many components as the vertices exceed the edges. -/
theorem length_le_length_add_card {K : List vertex} (hK : K.Nodup) :
    ∀ (F : List edge), (∀ e ∈ F, e.start ∈ K ∧ e.end_ ∈ K) →
      ∀ R, is_root_set (edge_set F) K R → K.length ≤ F.length + R.card := by
  intro F
  induction F with
  | nil =>
    intro _ R hR
    have : R = K.toFinset := by
      ext k
      rw [hR k, List.mem_toFinset]
      constructor
      · exact fun h => h.1
      · intro h
        refine ⟨h, fun x _ hx => ?_⟩
        rw [Reach.eq_of_empty hx]
    rw [this, List.toFinset_card_of_nodup hK]
    simp
  | cons e F ih =>
    intro hV R hR
    have hV' : ∀ f ∈ F, f.start ∈ K ∧ f.end_ ∈ K := fun f hf => hV f (List.mem_cons_of_mem _ hf)
    rw [edge_set_cons] at hR
    rw [List.length_cons]
    by_cases hr : Reach (edge_set F) e.start e.end_
    · have := ih hV' R (hR.congr (reach_insert_of_reach hr))
      omega
    · obtain ⟨R0, hR0⟩ := exists_root_set (edge_set F) K
      have h0 := ih hV' R0 hR0
      have h1 := root_set_card_insert hR0 hR (hV e (List.mem_cons_self _ _)).1
        (hV e (List.mem_cons_self _ _)).2 hr
      omega

/-- A list grown by the cut rule is a forest. -/
theorem forest_of_cut_built {E F : List edge} (hb : cut_built E F) {K : List vertex}
    (hK : K.Nodup) (hV : ∀ e ∈ E, e.start ∈ K ∧ e.end_ ∈ K) : is_forest F := by
  intro x hx hr
  have hnd := hb.nodup
  have hset : {f | f ∈ F ∧ f ≠ x} = edge_set (F.erase x) := by
    ext f
    simp only [Set.mem_setOf_eq, edge_set, hnd.mem_erase_iff]
    exact And.comm
  rw [hset] at hr
  have hins : edge_set F = insert x (edge_set (F.erase x)) := by
    ext f
    simp only [edge_set, Set.mem_setOf_eq, Set.mem_insert_iff, hnd.mem_erase_iff]
    constructor
    · intro hf
      by_cases hfx : f = x
      · exact Or.inl hfx
      · exact Or.inr ⟨hfx, hf⟩
    · rintro (hfx | hf)
      · rw [hfx]; exact hx
      · exact hf.2
  obtain ⟨R, hR⟩ := exists_root_set (edge_set F) K
  have h1 := hb.length_add_card hK hV R hR
  have hR' : is_root_set (edge_set (F.erase x)) K R := by
    rw [hins] at hR
    exact hR.congr (reach_insert_of_reach hr)
  have h2 := length_le_length_add_card hK (F.erase x)
    (fun e he => hV e (hb.subset e (List.mem_of_mem_erase he))) R hR'
  have h3 := List.length_erase_of_mem hx
  have h4 := List.length_pos_of_mem hx
  omega

/-- The `mst` variable is a forest. -/
theorem forest_of_mst_inv {g mst : graph} (h : mst_inv g mst)
    (hs : g.m_vertices.Pairwise (fun a b => a < b)) (hc : g.endpoints_in_vertices) :
    is_forest mst.m_edges := by
  obtain ⟨_, _, F, hF, hmem⟩ := h
  have hK : g.m_vertices.Nodup := List.Pairwise.imp (fun hab => Nat.ne_of_lt hab) hs
  have hf := forest_of_cut_built hF hK hc
  intro x hx hr
  refine hf x ((hmem x).1 hx) ?_
  have hset : {f | f ∈ mst.m_edges ∧ f ≠ x} = {f | f ∈ F ∧ f ≠ x} := by
    ext f
    simp only [Set.mem_setOf_eq, hmem f]
  rw [← hset]
  exact hr

/-- What the invariant gives for one value of `mst`: its components are found, it has the
vertices of the input, edges plus components are the vertices, and it is a forest. -/
theorem forest_state_of_mst_inv {g mst : graph} (h : mst_inv g mst)
    (hs : g.m_vertices.Pairwise (fun a b => a < b)) (hc : g.endpoints_in_vertices)
    (fuel : Nat) (hfuel : g.m_vertices.length ≤ fuel) :
    ∃ comps, mst.get_components fuel = .ok comps ∧ mst.m_vertices = g.m_vertices ∧
      mst.m_edges.length + comps.length = g.m_vertices.length ∧ is_forest mst.m_edges := by
  have hvs : mst.m_vertices.Pairwise (fun a b => a < b) := by rw [h.1]; exact hs
  obtain ⟨c0, e0, _, l0⟩ := mst.get_components_of_wf hvs (h.endpoints hc) fuel
    (by rw [h.1]; exact hfuel)
  rw [h.1] at l0
  exact ⟨c0, e0, h.1, h.length_add_length hs hc l0, forest_of_mst_inv h hs hc⟩

/-! ## The values of `mst` at the loop tests -/

theorem mst_loop_states_inv (g : graph) (hs : g.m_vertices.Pairwise (fun a b => a < b))
    (hc : g.endpoints_in_vertices) (fuel : Nat) (hfuel : g.m_vertices.length ≤ fuel) :
    ∀ (n : Nat) (mst : graph) (comps : components_t) (last : Nat), mst_inv g mst →
      mst.get_components fuel = .ok comps →
      ∀ m ∈ mst_loop_states g.get_edges_by_vertex fuel n mst comps
        (get_component_by_vertex comps) last, mst_inv g m := by
  intro n
  induction n with
  | zero =>
    intro mst comps last hinv _ m hm
    simp only [mst_loop_states, List.mem_singleton] at hm
    rw [hm]
    exact hinv
  | succ n ih =>
    intro mst comps last hinv hcomps m hm
    by_cases hlt : 1 < comps.length
    · by_cases heq : comps.length = last
      · subst heq
        simp only [mst_loop_states, gt_iff_lt, hlt, if_true, List.mem_singleton] at hm
        rw [hm]
        exact hinv
      · obtain ⟨c1, e1, hinv', _⟩ := round_spec g hs hc fuel hfuel mst comps hinv hcomps
        simp only [mst_loop_states, gt_iff_lt, hlt, heq, if_true, if_false, e1,
          List.mem_cons] at hm
        rcases hm with hm | hm
        · rw [hm]
          exact hinv
        · exact ih _ c1 comps.length hinv' e1 m hm
    · simp only [mst_loop_states, gt_iff_lt, hlt, if_false, List.mem_singleton] at hm
      rw [hm]
      exact hinv

theorem graph.loop_states_inv (g : graph) (hs : g.m_vertices.Pairwise (fun a b => a < b))
    (hc : g.endpoints_in_vertices) (fuel : Nat) (hfuel : g.m_vertices.length ≤ fuel) :
    ∀ m ∈ g.loop_states fuel, mst_inv g m := by
  obtain ⟨c0, e0, _⟩ := initial_components g hs hc fuel hfuel
  intro m hm
  simp only [graph.loop_states, e0] at hm
  exact mst_loop_states_inv g hs hc fuel hfuel fuel (initial_mst g) c0 0
    (initial_mst_inv g hs) e0 m hm

/-- The list of states starts with the `mst` the loop starts with. -/
theorem mst_loop_states_head (v2e : vertex_to_edges_map) (fuel n : Nat) (mst : graph)
    (comps : components_t) (v2c : map_t component_t) (last : Nat) :
    ∃ rest, mst_loop_states v2e fuel n mst comps v2c last = mst :: rest := by
  cases n with
  | zero => exact ⟨[], rfl⟩
  | succ n => exact ⟨_, rfl⟩

theorem graph.loop_states_head (g : graph) (fuel : Nat) :
    ∃ rest, g.loop_states fuel = initial_mst g :: rest := by
  unfold graph.loop_states
  cases (initial_mst g).get_components fuel with
  | error x => exact ⟨[], rfl⟩
  | ok c => exact mst_loop_states_head _ _ _ _ _ _ _

/-- The graph that the loop returns is the last of the states. -/
theorem mst_loop_states_last (v2e : vertex_to_edges_map) (fuel : Nat) :
    ∀ (n : Nat) (mst : graph) (comps : components_t) (v2c : map_t component_t) (last : Nat)
      (r : graph), mst_loop v2e fuel n mst comps v2c last = .ok r →
      ∃ pre, mst_loop_states v2e fuel n mst comps v2c last = pre ++ [r] := by
  intro n
  induction n with
  | zero =>
    intro mst comps v2c last r hr
    by_cases hlt : 1 < comps.length
    · simp [mst_loop, hlt] at hr
    · simp only [mst_loop, gt_iff_lt, hlt, if_false, Except.ok.injEq] at hr
      exact ⟨[], by rw [← hr]; rfl⟩
  | succ n ih =>
    intro mst comps v2c last r hr
    by_cases hlt : 1 < comps.length
    · by_cases heq : comps.length = last
      · subst heq
        simp [mst_loop, hlt] at hr
      · simp only [mst_loop, gt_iff_lt, hlt, heq, if_true, if_false] at hr
        simp only [mst_loop_states, gt_iff_lt, hlt, heq, if_true, if_false]
        cases hgc : (add_cheapest_edges v2e v2c comps mst).get_components fuel with
        | error x =>
          rw [hgc] at hr
          simp at hr
        | ok c =>
          rw [hgc] at hr
          simp only at hr ⊢
          obtain ⟨pre, hpre⟩ := ih _ c _ _ r hr
          exact ⟨mst :: pre, by rw [hpre]; rfl⟩
    · simp only [mst_loop, gt_iff_lt, hlt, if_false, Except.ok.injEq] at hr
      simp only [mst_loop_states, gt_iff_lt, hlt, if_false]
      exact ⟨[], by rw [← hr]; rfl⟩

theorem graph.loop_states_last (g : graph) (fuel : Nat) (r : graph)
    (hr : g.calculate_minimum_spanning_tree fuel = .ok r) :
    ∃ pre, g.loop_states fuel = pre ++ [r] := by
  simp only [graph.calculate_minimum_spanning_tree] at hr
  unfold graph.loop_states
  cases hgc : (initial_mst g).get_components fuel with
  | error x =>
    rw [hgc] at hr
    simp at hr
  | ok c =>
    rw [hgc] at hr
    simp only at hr ⊢
    exact mst_loop_states_last _ fuel fuel _ c _ 0 r hr

/-! ## The edges of the result are edges of the input, for every input -/

theorem cheapest_edge_mem_input (g : graph) (v2c : map_t component_t) (C : List vertex)
    {e : edge} (h : cheapest_edge g.get_edges_by_vertex v2c C = some e) : e ∈ g.m_edges := by
  obtain ⟨⟨v, _, hv⟩, _⟩ := (cheapest_edge_spec g.get_edges_by_vertex v2c C).2 e h
  unfold remaining_edges at hv
  exact ((g.mem_index_get_edges_by_vertex v e).1 (List.mem_of_mem_filter hv)).1

theorem add_cheapest_edges_subset (g : graph) (v2c : map_t component_t)
    (comps : List (List vertex)) (mst : graph) (h : ∀ e ∈ mst.m_edges, e ∈ g.m_edges) :
    ∀ e ∈ (add_cheapest_edges g.get_edges_by_vertex v2c comps mst).m_edges, e ∈ g.m_edges := by
  intro e he
  rcases ((add_cheapest_edges_spec g.get_edges_by_vertex v2c comps mst).2.2 e).1 he with
    h1 | ⟨C, _, hC⟩
  · exact h e h1
  · exact cheapest_edge_mem_input g v2c C hC

theorem mst_loop_subset (g : graph) (fuel : Nat) :
    ∀ (n : Nat) (mst : graph) (comps : components_t) (v2c : map_t component_t) (last : Nat)
      (r : graph), (∀ e ∈ mst.m_edges, e ∈ g.m_edges) →
      mst_loop g.get_edges_by_vertex fuel n mst comps v2c last = .ok r →
      (∀ e ∈ r.m_edges, e ∈ g.m_edges) ∧ r.m_vertices = mst.m_vertices := by
  intro n
  induction n with
  | zero =>
    intro mst comps v2c last r hsub hr
    by_cases hlt : 1 < comps.length
    · simp [mst_loop, hlt] at hr
    · simp only [mst_loop, gt_iff_lt, hlt, if_false, Except.ok.injEq] at hr
      rw [← hr]
      exact ⟨hsub, rfl⟩
  | succ n ih =>
    intro mst comps v2c last r hsub hr
    by_cases hlt : 1 < comps.length
    · by_cases heq : comps.length = last
      · subst heq
        simp [mst_loop, hlt] at hr
      · simp only [mst_loop, gt_iff_lt, hlt, heq, if_true, if_false] at hr
        cases hgc : (add_cheapest_edges g.get_edges_by_vertex v2c comps mst).get_components
            fuel with
        | error x =>
          rw [hgc] at hr
          simp at hr
        | ok c =>
          rw [hgc] at hr
          simp only at hr
          obtain ⟨h1, h2⟩ := ih _ c _ _ r (add_cheapest_edges_subset g v2c comps mst hsub) hr
          exact ⟨h1, h2.trans (add_cheapest_edges_spec _ _ _ _).1⟩
    · simp only [mst_loop, gt_iff_lt, hlt, if_false, Except.ok.injEq] at hr
      rw [← hr]
      exact ⟨hsub, rfl⟩

/-- Whatever the input and the fuel, a returned graph has edges of the input only and the
vertices of the input. -/
theorem graph.mst_subset (g : graph) (fuel : Nat) (r : graph)
    (hr : g.calculate_minimum_spanning_tree fuel = .ok r) :
    (∀ e ∈ r.m_edges, e ∈ g.m_edges) ∧ ∀ v, v ∈ r.m_vertices ↔ v ∈ g.m_vertices := by
  simp only [graph.calculate_minimum_spanning_tree] at hr
  cases hgc : (initial_mst g).get_components fuel with
  | error x =>
    rw [hgc] at hr
    simp at hr
  | ok c =>
    rw [hgc] at hr
    simp only at hr
    obtain ⟨h1, h2⟩ := mst_loop_subset g fuel fuel _ c _ 0 r
      (by rw [initial_mst_edges]; simp) hr
    refine ⟨h1, fun v => ?_⟩
    rw [h2]
    have := (fold_add_vertex_spec g.m_vertices {}).2.2 v
    unfold initial_mst
    rw [this]
    simp

/-! ## The claims on the loop invariant and on the frame of the result -/

/-- C21: for an input graph whose vertex set is stored in increasing order and whose edges
have both endpoints in it, with `V` vertices and every fuel that is at least `V`: every value
that the variable `mst` of `calculate_minimum_spanning_tree` has at a test of the loop
condition (before the first round, after every round, and on return) has the vertices of the
input, its components are found, its edges and its components together are `V` many, and it
is a forest: no edge of it joins two vertices that its other edges join.  The list of these
values starts with the initial `mst`, ends with the returned graph when the function returns,
and is not cut short by the fuel. -/
theorem calculate_minimum_spanning_tree_forest_invariant (g : graph)
    (hs : g.m_vertices.Pairwise (fun a b => a < b)) (hc : g.endpoints_in_vertices)
    (fuel : Nat) (hfuel : g.m_vertices.length ≤ fuel) :
    (∀ m ∈ g.loop_states fuel, ∃ comps, m.get_components fuel = .ok comps ∧
        m.m_vertices = g.m_vertices ∧
        m.m_edges.length + comps.length = g.m_vertices.length ∧ is_forest m.m_edges) ∧
      (∃ rest, g.loop_states fuel = initial_mst g :: rest) ∧
      (∀ mst, g.calculate_minimum_spanning_tree fuel = .ok mst →
        ∃ pre, g.loop_states fuel = pre ++ [mst]) ∧
      g.calculate_minimum_spanning_tree fuel ≠ .error .out_of_fuel := by
  refine ⟨?_, g.loop_states_head fuel, fun mst h => g.loop_states_last fuel mst h, ?_⟩
  · intro m hm
    exact forest_state_of_mst_inv (g.loop_states_inv hs hc fuel hfuel m hm) hs hc fuel hfuel
  · rcases calculate_minimum_spanning_tree_spec g hs hc fuel hfuel with
      ⟨mst, _, h, _⟩ | ⟨h, _⟩ <;> rw [h] <;> simp

/-- C22: for every input graph and every fuel, when `calculate_minimum_spanning_tree` returns
a graph, every edge of that graph is a stored edge of the input, with the same start, end and
weight, and its vertices are the vertices of the input.  The input itself is only read: the
source method is `const`, all `add_vertex` and `add_edge` calls are on the local `mst`, and
the function here takes the input as a value and returns the result alone. -/
theorem calculate_minimum_spanning_tree_output_subset_input (g : graph) (fuel : Nat)
    (mst : graph) (h : g.calculate_minimum_spanning_tree fuel = .ok mst) :
    (∀ e ∈ mst.m_edges, e ∈ g.m_edges) ∧
      (∀ e ∈ mst.m_edges, ∃ x ∈ g.m_edges,
        x.start = e.start ∧ x.end_ = e.end_ ∧ x.weight = e.weight) ∧
      (∀ v, v ∈ mst.m_vertices ↔ v ∈ g.m_vertices) := by
  obtain ⟨h1, h2⟩ := g.mst_subset fuel mst h
  exact ⟨h1, fun e he => ⟨e, h1 e he, rfl, rfl, rfl⟩, h2⟩

/-- C21 at `triangle_scenario`, three edges of equal weight, with fuel 3: the loop sees the
initial `mst` and then the `mst` with the two edges `(0,1,5)` and `(0,2,5)`, which is a
forest with one component. -/
theorem calculate_minimum_spanning_tree_forest_invariant_witness :
    triangle_scenario.loop_states 3 =
        [⟨[], [0, 1, 2]⟩, ⟨[⟨0, 1, 5⟩, ⟨0, 2, 5⟩], [0, 1, 2]⟩] ∧
      ∃ comps, (graph.mk [⟨0, 1, 5⟩, ⟨0, 2, 5⟩] [0, 1, 2]).get_components 3 = .ok comps ∧
        (graph.mk [⟨0, 1, 5⟩, ⟨0, 2, 5⟩] [0, 1, 2]).m_vertices = triangle_scenario.m_vertices ∧
        (graph.mk [⟨0, 1, 5⟩, ⟨0, 2, 5⟩] [0, 1, 2]).m_edges.length + comps.length =
          triangle_scenario.m_vertices.length ∧
        is_forest (graph.mk [⟨0, 1, 5⟩, ⟨0, 2, 5⟩] [0, 1, 2]).m_edges :=
  ⟨by decide,
    (calculate_minimum_spanning_tree_forest_invariant triangle_scenario (by decide) (by decide)
      3 (by decide)).1 ⟨[⟨0, 1, 5⟩, ⟨0, 2, 5⟩], [0, 1, 2]⟩ (by decide)⟩

/-- C22 at `scenario_graph` with fuel 4: the three returned edges are edges of the input. -/
theorem calculate_minimum_spanning_tree_output_subset_input_witness :
    scenario_graph.calculate_minimum_spanning_tree 4 =
        .ok ⟨[⟨0, 1, 1⟩, ⟨1, 2, 2⟩, ⟨2, 3, 3⟩], [0, 1, 2, 3]⟩ ∧
      ∀ e ∈ ([⟨0, 1, 1⟩, ⟨1, 2, 2⟩, ⟨2, 3, 3⟩] : List edge), e ∈ scenario_graph.m_edges :=
  ⟨by decide,
    (calculate_minimum_spanning_tree_output_subset_input scenario_graph 4
      ⟨[⟨0, 1, 1⟩, ⟨1, 2, 2⟩, ⟨2, 3, 3⟩], [0, 1, 2, 3]⟩ (by decide)).1⟩

end Boruvka
